import Mathlib

/-!
A shallow embedding of the `low-latency-orderbook` matching engine and proofs
about it.

The repository contains two matching implementations:

* `src/orderBook.cpp` — an interactive multi-symbol simulator whose
  `Orderbook::add` crosses an incoming order against the opposite side and
  then rests any GoodTillCancel remainder (embedded below in namespace `Sim`);
* `src/orderBook_core.cpp` — a pImpl engine whose `Orderbook::AddOrder`
  first enqueues the order and then uncrosses the book via `Impl::match`,
  cancelling any FillAndKill remainder (embedded in namespace `Core`).

Machine integers (`int32_t` prices, `uint32_t` quantities, `uint64_t` ids)
are modelled as `Int` and `Nat`: every arithmetic operation performed by the
engine is a comparison, a `min`, or a subtraction guarded to stay
non-negative, so no overflow or wrap-around is reachable and the unbounded
types are faithful.  `std::map<Price, std::list<Order>, cmp>` is modelled as
a price-sorted association list `List (Int × List Order)`; `std::list`
FIFO queues are plain Lean lists (front = head, push_back = append).
-/

/-- `enum class Side : uint8_t { Buy, Sell }` (identical in both sources). -/
inductive Side where
  | Buy
  | Sell
deriving DecidableEq

/-- Time in force.  `orderBook.cpp` names the constructors `GTC`/`IOC`;
`orderBook_core.hpp` names the same two `GoodTillCancel`/`FillAndKill`. -/
inductive OrderType where
  | GTC
  | IOC
deriving DecidableEq

namespace Sim

/-- `struct Order { Oid id; Side side; OrderType type; Price px; Qty rem; }`
from `orderBook.cpp`. -/
structure Order where
  id : Nat
  side : Side
  type : OrderType
  px : Int
  rem : Nat
deriving DecidableEq

/-- `struct TradeEvent` from `orderBook.cpp`.  `ts_ns` is filled from
`now_ns()` in the C++; the embedding threads the caller's clock value. -/
structure TradeEvent where
  bidId : Nat
  askId : Nat
  px : Int
  qty : Nat
  ts_ns : Nat
  aggressor : Side
deriving DecidableEq

/-- The single-symbol book of `orderBook.cpp`: `map<Price, Q, greater>` bids
(prices strictly descending) and `map<Price, Q, less>` asks (strictly
ascending), each level a FIFO list. -/
structure Orderbook where
  bids : List (Int × List Order)
  asks : List (Int × List Order)
deriving DecidableEq

/-- `bids_[o.px].push_back(o)`: append `o` at the back of its price level in
a descending-sorted level list, creating the level at its sorted position if
absent (`std::map::operator[]`). -/
def enqueueDesc (o : Order) : List (Int × List Order) → List (Int × List Order)
  | [] => [(o.px, [o])]
  | (p, l) :: rest =>
    if p < o.px then (o.px, [o]) :: (p, l) :: rest
    else if p = o.px then (p, l ++ [o]) :: rest
    else (p, l) :: enqueueDesc o rest

/-- `asks_[o.px].push_back(o)` on the ascending-sorted ask side. -/
def enqueueAsc (o : Order) : List (Int × List Order) → List (Int × List Order)
  | [] => [(o.px, [o])]
  | (p, l) :: rest =>
    if o.px < p then (o.px, [o]) :: (p, l) :: rest
    else if p = o.px then (p, l ++ [o]) :: rest
    else (p, l) :: enqueueAsc o rest

/-- The inner steps of the buy-side crossing loop of `Orderbook::add` against
one ask level at price `apx`: repeatedly match the front order of the level
with `q = min(o.rem, top.rem)` until the incoming remainder is exhausted, the
level is exhausted, or the front order survives a partial fill (in which case
`o.rem` just hit zero).  Returns the emitted events, the incoming order's new
remainder and what is left of the level. -/
def crossLevelBuy (oid : Nat) (apx : Int) (now : Nat) :
    Nat → List Order → List TradeEvent × Nat × List Order
  | orem, [] => ([], orem, [])
  | orem, top :: rest =>
    if orem = 0 then ([], orem, top :: rest)
    else
      let q := min orem top.rem
      let ev : TradeEvent := ⟨oid, top.id, apx, q, now, Side.Buy⟩
      if top.rem - q = 0 then
        let r := crossLevelBuy oid apx now (orem - q) rest
        (ev :: r.1, r.2.1, r.2.2)
      else
        ([ev], orem - q, { top with rem := top.rem - q } :: rest)

/-- The buy branch `while (o.rem && !asks_.empty() && o.px >= asks_.begin()->first)`
of `Orderbook::add`: consume ask levels in ascending price order while the
incoming limit reaches them; a level that becomes empty is erased. -/
def crossBuy (oid : Nat) (opx : Int) (now : Nat) :
    Nat → List (Int × List Order) → List TradeEvent × Nat × List (Int × List Order)
  | orem, [] => ([], orem, [])
  | orem, (apx, aq) :: rest =>
    if orem = 0 ∨ opx < apx then ([], orem, (apx, aq) :: rest)
    else
      let r := crossLevelBuy oid apx now orem aq
      match r.2.2 with
      | [] =>
        let r2 := crossBuy oid opx now r.2.1 rest
        (r.1 ++ r2.1, r2.2.1, r2.2.2)
      | lv => (r.1, r.2.1, (apx, lv) :: rest)

/-- Sell-side mirror of `crossLevelBuy` (the resting orders are bids, so the
event carries `{top.id, o.id, bpx, q, now, Side::Sell}`). -/
def crossLevelSell (oid : Nat) (bpx : Int) (now : Nat) :
    Nat → List Order → List TradeEvent × Nat × List Order
  | orem, [] => ([], orem, [])
  | orem, top :: rest =>
    if orem = 0 then ([], orem, top :: rest)
    else
      let q := min orem top.rem
      let ev : TradeEvent := ⟨top.id, oid, bpx, q, now, Side.Sell⟩
      if top.rem - q = 0 then
        let r := crossLevelSell oid bpx now (orem - q) rest
        (ev :: r.1, r.2.1, r.2.2)
      else
        ([ev], orem - q, { top with rem := top.rem - q } :: rest)

/-- The sell branch `while (o.rem && !bids_.empty() && o.px <= bids_.begin()->first)`
of `Orderbook::add`. -/
def crossSell (oid : Nat) (opx : Int) (now : Nat) :
    Nat → List (Int × List Order) → List TradeEvent × Nat × List (Int × List Order)
  | orem, [] => ([], orem, [])
  | orem, (bpx, bq) :: rest =>
    if orem = 0 ∨ bpx < opx then ([], orem, (bpx, bq) :: rest)
    else
      let r := crossLevelSell oid bpx now orem bq
      match r.2.2 with
      | [] =>
        let r2 := crossSell oid opx now r.2.1 rest
        (r.1 ++ r2.1, r2.2.1, r2.2.2)
      | lv => (r.1, r.2.1, (bpx, lv) :: rest)

/-- The `matchable` lambda inside `Orderbook::add`: a buy is matchable when
asks are non-empty and `o.px >= asks_.begin()->first`; a sell when bids are
non-empty and `o.px <= bids_.begin()->first`. -/
def Orderbook.matchable (b : Orderbook) (o : Order) : Bool :=
  match o.side with
  | Side.Buy =>
    match b.asks with
    | [] => false
    | (apx, _) :: _ => decide (apx ≤ o.px)
  | Side.Sell =>
    match b.bids with
    | [] => false
    | (bpx, _) :: _ => decide (o.px ≤ bpx)

/-- `Orderbook::add` from `orderBook.cpp`: an IOC order that is not matchable
is dropped with no trades; otherwise the incoming order crosses the opposite
side and a non-zero GoodTillCancel remainder is enqueued at the back of its
own price level. -/
def Orderbook.add (b : Orderbook) (o : Order) (now : Nat) :
    List TradeEvent × Orderbook :=
  if o.type = OrderType.IOC ∧ b.matchable o = false then ([], b)
  else
    match o.side with
    | Side.Buy =>
      let r := crossBuy o.id o.px now o.rem b.asks
      if r.2.1 ≠ 0 ∧ o.type = OrderType.GTC then
        (r.1, ⟨enqueueDesc { o with rem := r.2.1 } b.bids, r.2.2⟩)
      else
        (r.1, ⟨b.bids, r.2.2⟩)
    | Side.Sell =>
      let r := crossSell o.id o.px now o.rem b.bids
      if r.2.1 ≠ 0 ∧ o.type = OrderType.GTC then
        (r.1, ⟨r.2.2, enqueueAsc { o with rem := r.2.1 } b.asks⟩)
      else
        (r.1, ⟨r.2.2, b.asks⟩)

/-- `Orderbook::bestBid`: 0 is the sentinel for an empty side. -/
def Orderbook.bestBid (b : Orderbook) : Int :=
  match b.bids with
  | [] => 0
  | (p, _) :: _ => p

/-- `Orderbook::bestAsk`: 0 is the sentinel for an empty side. -/
def Orderbook.bestAsk (b : Orderbook) : Int :=
  match b.asks with
  | [] => 0
  | (p, _) :: _ => p

/-- `Orderbook::restingOrders`: total number of orders resting on both sides. -/
def Orderbook.restingOrders (b : Orderbook) : Nat :=
  (b.bids.map (fun p => p.2.length)).sum + (b.asks.map (fun p => p.2.length)).sum

/-- Aggregated remaining quantity at one price level. -/
def levelQty (l : List Order) : Nat := (l.map Order.rem).sum

/-- `Orderbook::topBids(N)`: the first `N` bid levels with aggregated
quantities, best (highest) price first. -/
def Orderbook.topBids (b : Orderbook) (N : Nat) : List (Int × Nat) :=
  (b.bids.take N).map (fun p => (p.1, levelQty p.2))

/-- `Orderbook::topAsks(N)`: the first `N` ask levels with aggregated
quantities, best (lowest) price first. -/
def Orderbook.topAsks (b : Orderbook) (N : Nat) : List (Int × Nat) :=
  (b.asks.take N).map (fun p => (p.1, levelQty p.2))

/-- `struct Market { Orderbook book; deque<TradeEvent> tape; uint64_t tradeCount; }`
(the mutex only serializes access and carries no state). The tape deque is a
list with `push_front` = cons and `pop_back` = `dropLast`. -/
structure Market where
  book : Orderbook
  tape : List TradeEvent
  tradeCount : Nat
deriving DecidableEq

/-- `static const size_t MAX_TAPE = 12`. -/
def MAX_TAPE : Nat := 12

/-- `addTradesToTapeLocked`: push each trade at the front of the tape, and
whenever the tape exceeds `MAX_TAPE`, pop the oldest entry from the back. -/
def addTradesToTapeLocked (tape : List TradeEvent) (trades : List TradeEvent) :
    List TradeEvent :=
  trades.foldl
    (fun tp t =>
      let tp2 := t :: tp
      if MAX_TAPE < tp2.length then tp2.dropLast else tp2)
    tape

/-- The submit-and-record critical section of `inputLoop` / `marketSimLoop`:
submit to the book, count the trades, append them to the tape. -/
def Market.submitAndRecord (mk : Market) (o : Order) (now : Nat) : Market :=
  let r := mk.book.add o now
  { book := r.2
    tape := addTradesToTapeLocked mk.tape r.1
    tradeCount := mk.tradeCount + r.1.length }

end Sim

section SimSanity

open Sim

/-- Scenario from spec §8, step 1: sell GTC(id 1, px 100, qty 10) into the
empty book rests with no trades. -/
theorem sim_scenario_step1 :
    Orderbook.add ⟨[], []⟩ ⟨1, Side.Sell, OrderType.GTC, 100, 10⟩ 0 =
      ([], ⟨[], [(100, [⟨1, Side.Sell, OrderType.GTC, 100, 10⟩])]⟩) := by
  decide

/-- Scenario from spec §8, steps 2–3: buy GTC(id 2, px 100, qty 4) trades
qty 4 at price 100 against order 1; a later buy IOC(id 3, px 99, qty 5) is
not crossable and leaves no trace. -/
theorem sim_scenario_steps23 :
    (Orderbook.add ⟨[], [(100, [⟨1, Side.Sell, OrderType.GTC, 100, 10⟩])]⟩
        ⟨2, Side.Buy, OrderType.GTC, 100, 4⟩ 7 =
      ([⟨2, 1, 100, 4, 7, Side.Buy⟩],
        ⟨[], [(100, [⟨1, Side.Sell, OrderType.GTC, 100, 6⟩])]⟩)) ∧
    (Orderbook.add ⟨[], [(100, [⟨1, Side.Sell, OrderType.GTC, 100, 6⟩])]⟩
        ⟨3, Side.Buy, OrderType.IOC, 99, 5⟩ 8 =
      ([], ⟨[], [(100, [⟨1, Side.Sell, OrderType.GTC, 100, 6⟩])]⟩)) := by
  decide

/-- Scenario from spec §8, step 4: buy GTC(id 4, px 101, qty 10) fully fills
order 1 (qty 6 at price 100) and rests its remainder 4 at 101. -/
theorem sim_scenario_step4 :
    Orderbook.add ⟨[], [(100, [⟨1, Side.Sell, OrderType.GTC, 100, 6⟩])]⟩
        ⟨4, Side.Buy, OrderType.GTC, 101, 10⟩ 9 =
      ([⟨4, 1, 100, 6, 9, Side.Buy⟩],
        ⟨[(101, [⟨4, Side.Buy, OrderType.GTC, 101, 4⟩])], []⟩) := by
  decide

end SimSanity

namespace Core

/-- `struct Order` from `orderBook_core.cpp`: identity, side, limit price,
initial and remaining quantity. -/
structure Order where
  type : OrderType
  id : Nat
  side : Side
  px : Int
  initial : Nat
  remaining : Nat
deriving DecidableEq

/-- `bool Order::filled() const { return remaining == 0; }` -/
def Order.filled (o : Order) : Bool := o.remaining = 0

/-- `void Order::fill(Quantity q)`: `if (q > remaining) throw logic_error("overfill");
remaining -= q;`.  The thrown exception is modelled as `none`. -/
def Order.fill (o : Order) (q : Nat) : Option Order :=
  if q > o.remaining then none
  else some { o with remaining := o.remaining - q }

/-- `struct TradeInfo { OrderId orderId; Price price; Quantity qty; }` -/
structure TradeInfo where
  orderId : Nat
  price : Int
  qty : Nat
deriving DecidableEq

/-- `struct Trade { TradeInfo bid; TradeInfo ask; }` -/
structure Trade where
  bid : TradeInfo
  ask : TradeInfo
deriving DecidableEq

/-- The two sides of `Orderbook::Impl`: bids descending, asks ascending,
levels FIFO.  The C++ `lookup` map (order id → (pointer, level iterator)) is
not duplicated in the state: its key set always equals the set of resting
order ids (entries are added exactly on insertion and erased exactly on full
fill and on cancellation), so membership tests and cancellation below are
expressed directly against the levels. -/
structure Orderbook where
  bids : List (Int × List Order)
  asks : List (Int × List Order)
deriving DecidableEq

/-- Total number of orders resting in a level list. -/
def ordCount (ls : List (Int × List Order)) : Nat :=
  (ls.map (fun p => p.2.length)).sum

/-- All orders of a level list, best level first, FIFO within a level. -/
def ordersOf (ls : List (Int × List Order)) : List Order :=
  (ls.map Prod.snd).flatten

/-- The key set of the C++ `lookup` index: ids of all resting orders. -/
def Orderbook.ids (b : Orderbook) : List Nat :=
  (ordersOf b.bids).map Order.id ++ (ordersOf b.asks).map Order.id

/-- `size_t Orderbook::size() const { return pImpl->lookup.size(); }` —
the number of resting orders (every resting order has exactly one `lookup`
entry). -/
def Orderbook.size (b : Orderbook) : Nat :=
  (ordersOf b.bids).length + (ordersOf b.asks).length

/-- `lookup.find(id)`, returning the resting order with the given id. -/
def Orderbook.findOrder (b : Orderbook) (id : Nat) : Option Order :=
  match (ordersOf b.bids).find? (fun o => o.id = id) with
  | some o => some o
  | none => (ordersOf b.asks).find? (fun o => o.id = id)

/-- `pImpl->bids[o->px].push_back(o)` (descending key order). -/
def enqueueDesc (o : Order) : List (Int × List Order) → List (Int × List Order)
  | [] => [(o.px, [o])]
  | (p, l) :: rest =>
    if p < o.px then (o.px, [o]) :: (p, l) :: rest
    else if p = o.px then (p, l ++ [o]) :: rest
    else (p, l) :: enqueueDesc o rest

/-- `pImpl->asks[o->px].push_back(o)` (ascending key order). -/
def enqueueAsc (o : Order) : List (Int × List Order) → List (Int × List Order)
  | [] => [(o.px, [o])]
  | (p, l) :: rest =>
    if o.px < p then (o.px, [o]) :: (p, l) :: rest
    else if p = o.px then (p, l ++ [o]) :: rest
    else (p, l) :: enqueueAsc o rest

/-- `Trades Orderbook::Impl::match()`, faithful version: while both sides are
non-empty and best bid ≥ best ask, match the two front orders with
`q = min(bid->remaining, ask->remaining)` through `Order::fill` (whose
overfill branch propagates as `none`), emit `{{bid->id, bid->px, q},
{ask->id, ask->px, q}}`, pop fully filled orders and erase emptied levels.
A level that is already empty cannot occur in any reachable state (its C++
counterpart would dereference `front()` of an empty list); the embedding
stops there. -/
def matchChecked :
    List (Int × List Order) → List (Int × List Order) →
      Option (List Trade × List (Int × List Order) × List (Int × List Order))
  | [], asks => some ([], [], asks)
  | bids, [] => some ([], bids, [])
  | (bpx, bq) :: brest, (apx, aq) :: arest =>
    if bpx < apx then some ([], (bpx, bq) :: brest, (apx, aq) :: arest)
    else
      match bq, aq with
      | bo :: bqr, ao :: aqr =>
        let q := min bo.remaining ao.remaining
        match hb : bo.fill q, ha : ao.fill q with
        | some bo', some ao' =>
          let t : Trade := ⟨⟨bo.id, bo.px, q⟩, ⟨ao.id, ao.px, q⟩⟩
          let bq' := if bo'.filled then bqr else bo' :: bqr
          let aq' := if ao'.filled then aqr else ao' :: aqr
          let bids' := if bq'.isEmpty then brest else (bpx, bq') :: brest
          let asks' := if aq'.isEmpty then arest else (apx, aq') :: arest
          match matchChecked bids' asks' with
          | some r => some (t :: r.1, r.2)
          | none => none
        | _, _ => none
      | _, _ => some ([], (bpx, bq) :: brest, (apx, aq) :: arest)
termination_by bids asks => ordCount bids + ordCount asks
decreasing_by
  simp only [Order.fill, gt_iff_lt] at hb ha
  split at hb
  · exact Option.noConfusion hb
  · split at ha
    · exact Option.noConfusion ha
    · injection hb with hb
      injection ha with ha
      subst hb
      subst ha
      simp only [Order.filled, ordCount, List.map_cons, List.sum_cons, decide_eq_true_eq]
      have hq : min bo.remaining ao.remaining = bo.remaining ∨
          min bo.remaining ao.remaining = ao.remaining := min_choice _ _
      split <;> split <;> split <;> split <;>
        simp_all [ordCount, List.isEmpty_iff, List.length_pos] <;> omega

/-- Total version of `Impl::match`, used throughout the development; the
theorem `overfill_unreachable` (claim C8) proves `matchChecked` never takes
the `none` branch and always computes this function. -/
def matchGo :
    List (Int × List Order) → List (Int × List Order) →
      List Trade × List (Int × List Order) × List (Int × List Order)
  | [], asks => ([], [], asks)
  | bids, [] => ([], bids, [])
  | (bpx, bq) :: brest, (apx, aq) :: arest =>
    if bpx < apx then ([], (bpx, bq) :: brest, (apx, aq) :: arest)
    else
      match bq, aq with
      | bo :: bqr, ao :: aqr =>
        let q := min bo.remaining ao.remaining
        let bo' : Order := { bo with remaining := bo.remaining - q }
        let ao' : Order := { ao with remaining := ao.remaining - q }
        let t : Trade := ⟨⟨bo.id, bo.px, q⟩, ⟨ao.id, ao.px, q⟩⟩
        let bq' := if bo'.filled then bqr else bo' :: bqr
        let aq' := if ao'.filled then aqr else ao' :: aqr
        let bids' := if bq'.isEmpty then brest else (bpx, bq') :: brest
        let asks' := if aq'.isEmpty then arest else (apx, aq') :: arest
        let r := matchGo bids' asks'
        (t :: r.1, r.2)
      | _, _ => ([], (bpx, bq) :: brest, (apx, aq) :: arest)
termination_by bids asks => ordCount bids + ordCount asks
decreasing_by
  simp only [Order.filled, ordCount, List.map_cons, List.sum_cons, decide_eq_true_eq]
  have hq : min bo.remaining ao.remaining = bo.remaining ∨
      min bo.remaining ao.remaining = ao.remaining := min_choice _ _
  split <;> split <;> split <;> split <;>
    simp_all [ordCount, List.isEmpty_iff, List.length_pos] <;> omega

/-- `Impl::match` packaged on the book state. -/
def Orderbook.matchBook (b : Orderbook) : List Trade × Orderbook :=
  let r := matchGo b.bids b.asks
  (r.1, ⟨r.2.1, r.2.2⟩)

/-- `Order* Orderbook::MakeOrder(...)`: `new Order{t,id,s,px,qty,qty}`. -/
def MakeOrder (t : OrderType) (id : Nat) (s : Side) (px : Int) (qty : Nat) :
    Order :=
  ⟨t, id, s, px, qty, qty⟩

/-- Remove the first order with the given id from a FIFO level (the C++
erases through the stored `lookup` iterator; ids are unique in every
reachable book, so the iterator's node is the unique — hence first — order
with that id). -/
def removeFirstById (id : Nat) : List Order → List Order
  | [] => []
  | o :: rest => if o.id = id then rest else o :: removeFirstById id rest

/-- `mapIt = side.find(o->px); q.erase(iterator); if (q.empty()) side.erase(mapIt)`:
erase the order with the given id from the level keyed `px`, dropping the
level if it becomes empty; no level with that key means nothing happens. -/
def eraseInLevels (px : Int) (id : Nat) :
    List (Int × List Order) → List (Int × List Order)
  | [] => []
  | (p, l) :: rest =>
    if p = px then
      if (removeFirstById id l).isEmpty then rest
      else (p, removeFirstById id l) :: rest
    else (p, l) :: eraseInLevels px id rest

/-- `void Orderbook::CancelOrder(OrderId id)`: no-op when the id is unknown;
otherwise erase the order from its level on its own side (dropping an
emptied level) and release it. -/
def Orderbook.CancelOrder (b : Orderbook) (id : Nat) : Orderbook :=
  match b.findOrder id with
  | none => b
  | some o =>
    match o.side with
    | Side.Buy => ⟨eraseInLevels o.px id b.bids, b.asks⟩
    | Side.Sell => ⟨b.bids, eraseInLevels o.px id b.asks⟩

/-- `Trades Orderbook::AddOrder(Order* o)`: duplicate ids are dropped;
otherwise enqueue the order at the back of its price level, run the matcher,
and cancel a FillAndKill order whose remaining quantity is still positive
(the object's post-match `o->remaining` is positive exactly when the order is
still resting, since the matcher pops an order exactly when it is filled). -/
def Orderbook.AddOrder (b : Orderbook) (o : Order) : List Trade × Orderbook :=
  if o.id ∈ b.ids then ([], b)
  else
    let b1 : Orderbook :=
      match o.side with
      | Side.Buy => ⟨enqueueDesc o b.bids, b.asks⟩
      | Side.Sell => ⟨b.bids, enqueueAsc o b.asks⟩
    let r := b1.matchBook
    let rem2 := match r.2.findOrder o.id with
      | some x => x.remaining
      | none => 0
    if o.type = OrderType.IOC ∧ 0 < rem2 then (r.1, r.2.CancelOrder o.id)
    else (r.1, r.2)

/-- Book states reachable through the public interface of
`orderBook_core.cpp`: start empty, then any sequence of
`AddOrder(MakeOrder(...))` and `CancelOrder` calls. -/
inductive Reachable : Orderbook → Prop
  | empty : Reachable ⟨[], []⟩
  | add (b : Orderbook) (t : OrderType) (id : Nat) (s : Side) (px : Int)
      (qty : Nat) : Reachable b → Reachable (b.AddOrder (MakeOrder t id s px qty)).2
  | cancel (b : Orderbook) (id : Nat) : Reachable b →
      Reachable (b.CancelOrder id)

end Core

section CoreSanity

open Core

/-- Functional test 1–2 from `orderBook_bench.cpp`: a resting buy 100×10 is
fully crossed by sell 99×10 and the sell's remainder does not rest. -/
theorem core_sanity_cross :
    (Orderbook.AddOrder ⟨[], []⟩ (MakeOrder OrderType.GTC 1 Side.Buy 100 10)).2.AddOrder
        (MakeOrder OrderType.GTC 2 Side.Sell 99 10) =
      ([⟨⟨1, 100, 10⟩, ⟨2, 99, 10⟩⟩], ⟨[], []⟩) := by
  simp [Orderbook.AddOrder, Orderbook.matchBook, Orderbook.ids, ordersOf,
    Orderbook.findOrder, enqueueDesc, enqueueAsc, matchGo, MakeOrder,
    Order.filled]

end CoreSanity

/-! ## Tape lemmas (claim C9) -/

namespace Sim

lemma take_append_take (xs ys : List TradeEvent) (n : Nat) :
    (xs ++ ys.take n).take n = (xs ++ ys).take n := by
  rw [List.take_append_eq_append_take, List.take_append_eq_append_take,
    List.take_take]
  congr 1
  exact congrArg ys.take (Nat.min_eq_left (Nat.sub_le _ _))

lemma addTape_single (tape : List TradeEvent) (t : TradeEvent)
    (h : tape.length ≤ MAX_TAPE) :
    (let tp2 := t :: tape
      if MAX_TAPE < tp2.length then tp2.dropLast else tp2) =
      (t :: tape).take MAX_TAPE := by
  simp only []
  rcases Nat.lt_or_ge tape.length MAX_TAPE with hlt | hge
  · rw [if_neg (by simp; omega)]
    exact (List.take_of_length_le (by simp; omega)).symm
  · have hlen : tape.length = MAX_TAPE := le_antisymm h hge
    rw [if_pos (by simp; omega), List.dropLast_eq_take]
    simp [hlen]

lemma addTradesToTapeLocked_eq (trades tape : List TradeEvent)
    (h : tape.length ≤ MAX_TAPE) :
    addTradesToTapeLocked tape trades =
      (trades.reverse ++ tape).take MAX_TAPE := by
  induction trades generalizing tape with
  | nil =>
    simp only [addTradesToTapeLocked, List.foldl_nil, List.reverse_nil,
      List.nil_append]
    exact (List.take_of_length_le h).symm
  | cons t ts ih =>
    have hstep := addTape_single tape t h
    simp only [addTradesToTapeLocked, List.foldl_cons] at *
    rw [hstep, ih _ (by simpa using List.length_take_le MAX_TAPE (t :: tape))]
    rw [take_append_take]
    simp

end Sim

/-- C9.  The Market's trade tape is a bounded ring of the most recent trades,
newest first: one submit-and-record step with a tape currently within its
capacity `MAX_TAPE = 12` yields exactly the `MAX_TAPE` newest of the appended
trades (in reverse emission order, so the newest trade is at the front)
followed by the old tape, the oldest entries past capacity being evicted; in
particular the tape length never exceeds `MAX_TAPE`. -/
theorem tape_bounded_ring (mk : Sim.Market) (o : Sim.Order) (now : Nat)
    (h : mk.tape.length ≤ Sim.MAX_TAPE) :
    Sim.MAX_TAPE = 12 ∧
    (mk.submitAndRecord o now).tape =
      ((mk.book.add o now).1.reverse ++ mk.tape).take Sim.MAX_TAPE ∧
    (mk.submitAndRecord o now).tape.length ≤ Sim.MAX_TAPE := by
  refine ⟨rfl, ?_, ?_⟩
  · exact Sim.addTradesToTapeLocked_eq _ _ h
  · rw [Sim.Market.submitAndRecord]
    simp only []
    rw [Sim.addTradesToTapeLocked_eq _ _ h]
    exact List.length_take_le _ _

/-- Witness for C9 at a concrete market: an aggressive buy crossing a
two-level ask book produces two trades that land newest-first on a
nearly-full tape of length 11, keeping the tape at capacity 12. -/
theorem tape_bounded_ring_witness :
    (Sim.Market.submitAndRecord
        ⟨⟨[], [(100, [⟨1, Side.Sell, OrderType.GTC, 100, 3⟩]),
               (101, [⟨2, Side.Sell, OrderType.GTC, 101, 3⟩])]⟩,
          List.replicate 11 ⟨0, 0, 0, 0, 0, Side.Buy⟩, 0⟩
        ⟨9, Side.Buy, OrderType.GTC, 101, 6⟩ 5).tape.length ≤ Sim.MAX_TAPE := by
  have h := tape_bounded_ring
    ⟨⟨[], [(100, [⟨1, Side.Sell, OrderType.GTC, 100, 3⟩]),
           (101, [⟨2, Side.Sell, OrderType.GTC, 101, 3⟩])]⟩,
      List.replicate 11 ⟨0, 0, 0, 0, 0, Side.Buy⟩, 0⟩
    ⟨9, Side.Buy, OrderType.GTC, 101, 6⟩ 5 (by decide)
  exact h.2.2

/-! ## Duplicate-id submission (claim C6) -/

/-- C6.  Submitting an order whose id is already present in the index is a
silent no-op: `AddOrder` yields no trades and returns the book — both sides,
the derived index and the resting-order count — unchanged. -/
theorem duplicate_id_noop (b : Core.Orderbook) (o : Core.Order)
    (h : o.id ∈ b.ids) :
    b.AddOrder o = ([], b) := by
  rw [Core.Orderbook.AddOrder, if_pos h]

/-- Witness for C6: re-submitting id 1 on a book where order 1 rests is a
no-op. -/
theorem duplicate_id_noop_witness :
    Core.Orderbook.AddOrder ⟨[(100, [⟨OrderType.GTC, 1, Side.Buy, 100, 5, 5⟩])], []⟩
        ⟨OrderType.GTC, 1, Side.Sell, 99, 7, 7⟩ =
      ([], ⟨[(100, [⟨OrderType.GTC, 1, Side.Buy, 100, 5, 5⟩])], []⟩) :=
  duplicate_id_noop ⟨[(100, [⟨OrderType.GTC, 1, Side.Buy, 100, 5, 5⟩])], []⟩
    ⟨OrderType.GTC, 1, Side.Sell, 99, 7, 7⟩ (by decide)

/-! ## The overfill branch is dead (claim C8) -/

namespace Core

lemma fill_of_le {o : Order} {q : Nat} (h : q ≤ o.remaining) :
    o.fill q = some { o with remaining := o.remaining - q } := by
  rw [Order.fill, if_neg (by omega)]

lemma fill_min_left (bo ao : Order) :
    bo.fill (min bo.remaining ao.remaining) =
      some { bo with remaining := bo.remaining - min bo.remaining ao.remaining } :=
  fill_of_le (Nat.min_le_left _ _)

lemma fill_min_right (bo ao : Order) :
    ao.fill (min bo.remaining ao.remaining) =
      some { ao with remaining := ao.remaining - min bo.remaining ao.remaining } :=
  fill_of_le (Nat.min_le_right _ _)

lemma matchChecked_eq (bids asks) :
    matchChecked bids asks = some (matchGo bids asks) := by
  induction bids, asks using matchChecked.induct with
  | case1 asks => rw [matchChecked, matchGo]
  | case2 bids h =>
    cases bids with
    | nil => exact absurd rfl h
    | cons hd tl => rw [matchChecked.eq_def, matchGo.eq_def]
  | case3 bpx bq brest apx aq arest hlt =>
    rw [matchChecked.eq_def, matchGo.eq_def]
    simp only [if_pos hlt]
  | case4 bpx brest apx arest hlt bo bqr ao aqr q bo' ao' hb ha bq' aq' bids' asks' r hr ih =>
    rw [fill_min_left] at hb
    rw [fill_min_right] at ha
    injection hb with hb
    injection ha with ha
    rw [matchChecked.eq_def, matchGo.eq_def]
    simp only [if_neg hlt]
    subst hb
    subst ha
    split
    next bo2 ao2 hb2 ha2 =>
      rw [fill_min_left] at hb2
      rw [fill_min_right] at ha2
      injection hb2 with hb2
      injection ha2 with ha2
      subst hb2
      subst ha2
      unfold bids' asks' bq' aq' at ih hr
      simp only [dite_eq_ite] at ih hr
      rw [ih]
    next hb2 =>
      exact (hb2 _ _ (fill_min_left bo ao) (fill_min_right bo ao)).elim
  | case5 bpx brest apx arest hlt bo bqr ao aqr q bo' ao' hb ha bq' aq' bids' asks' hnone ih =>
    rw [hnone] at ih
    exact Option.noConfusion ih
  | case6 bpx brest apx arest hlt bo bqr ao aqr q h =>
    exact (h _ _ (fill_min_left bo ao) (fill_min_right bo ao)).elim
  | case7 bpx bq brest apx aq arest hlt h =>
    cases bq with
    | nil =>
      rw [matchChecked.eq_def, matchGo.eq_def]
      simp only [if_neg hlt]
    | cons bo bqr =>
      cases aq with
      | nil =>
        rw [matchChecked.eq_def, matchGo.eq_def]
        simp only [if_neg hlt]
      | cons ao aqr => exact (h bo bqr ao aqr rfl rfl).elim

end Core

/-- C8.  The overfill error branch is unreachable: `Order::fill` signals the
fatal `overfill` violation (modelled as `none`) exactly when asked to fill
more than the remaining quantity, yet every call the crossing loop
`Impl::match` makes fills `min(bid->remaining, ask->remaining)`, which never
exceeds either remaining quantity — so the checked matcher never fails and
always computes the total function `matchGo`. -/
theorem overfill_unreachable :
    (∀ (o : Core.Order) (q : Nat), o.remaining < q → o.fill q = none) ∧
    ∀ bids asks, Core.matchChecked bids asks = some (Core.matchGo bids asks) := by
  exact ⟨fun o q h => by rw [Core.Order.fill, if_pos (by omega)],
    fun bids asks => Core.matchChecked_eq bids asks⟩

/-- Witness for C8: `fill` rejects an overfill at a concrete order, and the
checked matcher equals the total matcher on a concrete crossed book. -/
theorem overfill_unreachable_witness :
    Core.Order.fill ⟨OrderType.GTC, 1, Side.Buy, 100, 5, 5⟩ 6 = none ∧
    Core.matchChecked [(100, [⟨OrderType.GTC, 1, Side.Buy, 100, 5, 5⟩])]
        [(99, [⟨OrderType.GTC, 2, Side.Sell, 99, 3, 3⟩])] =
      some (Core.matchGo [(100, [⟨OrderType.GTC, 1, Side.Buy, 100, 5, 5⟩])]
        [(99, [⟨OrderType.GTC, 2, Side.Sell, 99, 3, 3⟩])]) :=
  ⟨overfill_unreachable.1 ⟨OrderType.GTC, 1, Side.Buy, 100, 5, 5⟩ 6 (by decide),
    overfill_unreachable.2 _ _⟩

/-! ## Core invariant infrastructure (used by claims C2, C5, C7, C10) -/

namespace Core

/-- Non-empty levels. -/
def NEOK (ls : List (Int × List Order)) : Prop := ∀ p ∈ ls, p.2 ≠ []

/-- Every order carries its level price and the side of its book half. -/
def LabOK (s : Side) (ls : List (Int × List Order)) : Prop :=
  ∀ p ∈ ls, ∀ o ∈ p.2, o.px = p.1 ∧ o.side = s

/-- Remaining never exceeds initial. -/
def RemOK (ls : List (Int × List Order)) : Prop :=
  ∀ p ∈ ls, ∀ o ∈ p.2, o.remaining ≤ o.initial

/-- Best bid < best ask, unless a side is empty. -/
def uncrossedB : List (Int × List Order) → List (Int × List Order) → Bool
  | (bp, _) :: _, (ap, _) :: _ => decide (bp < ap)
  | _, _ => true

@[simp] lemma ordersOf_nil : ordersOf [] = [] := rfl

@[simp] lemma ordersOf_cons (p : Int × List Order) (rest) :
    ordersOf (p :: rest) = p.2 ++ ordersOf rest := by
  simp [ordersOf]

lemma matchGo_nil_left (asks) : matchGo [] asks = ([], [], asks) := by
  rw [matchGo]

lemma matchGo_nil_right (bids) : matchGo bids [] = ([], bids, []) := by
  cases bids with
  | nil => rw [matchGo]
  | cons hd tl => rw [matchGo.eq_def]

lemma matchGo_stop (bpx : Int) (bq) (brest) (apx : Int) (aq) (arest)
    (h : bpx < apx) :
    matchGo ((bpx, bq) :: brest) ((apx, aq) :: arest) =
      ([], (bpx, bq) :: brest, (apx, aq) :: arest) := by
  rw [matchGo.eq_def]
  simp only [if_pos h]

lemma matchGo_of_uncrossed (bids asks) (h : uncrossedB bids asks = true) :
    matchGo bids asks = ([], bids, asks) := by
  cases bids with
  | nil => exact matchGo_nil_left asks
  | cons bl brest =>
    cases asks with
    | nil => exact matchGo_nil_right _
    | cons al arest =>
      obtain ⟨bpx, bq⟩ := bl
      obtain ⟨apx, aq⟩ := al
      exact matchGo_stop _ _ _ _ _ _ (by simpa [uncrossedB] using h)

lemma matchGo_cons (bpx apx : Int) (bo ao : Order) (bqr aqr : List Order)
    (brest arest : List (Int × List Order)) (h : ¬ bpx < apx) :
    matchGo ((bpx, bo :: bqr) :: brest) ((apx, ao :: aqr) :: arest) =
      (let q := min bo.remaining ao.remaining
       let bo' : Order := { bo with remaining := bo.remaining - q }
       let ao' : Order := { ao with remaining := ao.remaining - q }
       let t : Trade := ⟨⟨bo.id, bo.px, q⟩, ⟨ao.id, ao.px, q⟩⟩
       let bq' := if bo'.filled then bqr else bo' :: bqr
       let aq' := if ao'.filled then aqr else ao' :: aqr
       let bids' := if bq'.isEmpty then brest else (bpx, bq') :: brest
       let asks' := if aq'.isEmpty then arest else (apx, aq') :: arest
       let r := matchGo bids' asks'
       (t :: r.1, r.2)) := by
  rw [matchGo.eq_def]
  simp only [if_neg h]

/-- After the matcher runs on a book whose levels are all non-empty, the book
is uncrossed: a side is empty or best bid < best ask. -/
lemma matchGo_uncrossed (bids asks) (hb : NEOK bids) (ha : NEOK asks) :
    uncrossedB (matchGo bids asks).2.1 (matchGo bids asks).2.2 = true := by
  induction bids, asks using matchGo.induct with
  | case1 asks => rw [matchGo_nil_left]; rfl
  | case2 bids h =>
    rw [matchGo_nil_right]
    cases bids with
    | nil => rfl
    | cons hd tl => rfl
  | case3 bpx bq brest apx aq arest hlt =>
    rw [matchGo_stop _ _ _ _ _ _ hlt]
    simp [uncrossedB, hlt]
  | case4 bpx brest apx arest hlt bo bqr ao aqr q bo' ao' bq' aq' bids' asks' ih =>
    rw [matchGo_cons _ _ _ _ _ _ _ _ hlt]
    simp only []
    apply ih
    · intro p hp
      by_cases hbq : bq'.isEmpty
      · exact hb p (by simp_all [bids'])
      · rcases (by simp_all [bids'] : p = (bpx, bq') ∨ p ∈ brest) with h1 | h1
        · subst h1; simpa [List.isEmpty_iff] using hbq
        · exact hb p (by simp [h1])
    · intro p hp
      by_cases haq : aq'.isEmpty
      · exact ha p (by simp_all [asks'])
      · rcases (by simp_all [asks'] : p = (apx, aq') ∨ p ∈ arest) with h1 | h1
        · subst h1; simpa [List.isEmpty_iff] using haq
        · exact ha p (by simp [h1])
  | case5 bpx bq brest apx aq arest hlt h =>
    cases bq with
    | nil => exact absurd rfl (hb (bpx, []) (by simp))
    | cons bo bqr =>
      cases aq with
      | nil => exact absurd rfl (ha (apx, []) (by simp))
      | cons ao aqr => exact (h bo bqr ao aqr rfl rfl).elim

end Core

namespace Core

/-- Per-order contribution of the order with a given id to resting quantity. -/
def contrib (id : Nat) (o : Order) : Nat := if o.id = id then o.remaining else 0

/-- Total remaining quantity resting under a given order id. -/
def restQty (id : Nat) (ls : List (Int × List Order)) : Nat :=
  ((ordersOf ls).map (contrib id)).sum

/-- Per-trade quantity booked against a given order id (both sides). -/
def tcontrib (id : Nat) (t : Trade) : Nat :=
  (if t.bid.orderId = id then t.bid.qty else 0) +
    (if t.ask.orderId = id then t.ask.qty else 0)

/-- Total traded quantity booked against a given order id. -/
def tradeQty (id : Nat) (ts : List Trade) : Nat :=
  (ts.map (tcontrib id)).sum

@[simp] lemma restQty_nil (id : Nat) : restQty id [] = 0 := rfl

lemma restQty_cons (id : Nat) (p : Int × List Order) (rest) :
    restQty id (p :: rest) = (p.2.map (contrib id)).sum + restQty id rest := by
  simp [restQty]

@[simp] lemma tradeQty_nil (id : Nat) : tradeQty id [] = 0 := rfl

@[simp] lemma tradeQty_cons (id : Nat) (t : Trade) (ts) :
    tradeQty id (t :: ts) = tcontrib id t + tradeQty id ts := by
  simp [tradeQty]

/-- One matcher step on a side: pop the front order if it was filled
(erasing the level if it empties), otherwise replace it by its decremented
version. -/
def nextSide (px : Int) (x : Order) (l : List Order)
    (rest : List (Int × List Order)) (q : Nat) : List (Int × List Order) :=
  if x.remaining - q = 0 then (if l.isEmpty then rest else (px, l) :: rest)
  else (px, { x with remaining := x.remaining - q } :: l) :: rest

lemma matchGo_cons2 (bpx apx : Int) (bo ao : Order) (bqr aqr : List Order)
    (brest arest : List (Int × List Order)) (h : ¬ bpx < apx) :
    matchGo ((bpx, bo :: bqr) :: brest) ((apx, ao :: aqr) :: arest) =
      (⟨⟨bo.id, bo.px, min bo.remaining ao.remaining⟩,
          ⟨ao.id, ao.px, min bo.remaining ao.remaining⟩⟩ ::
        (matchGo (nextSide bpx bo bqr brest (min bo.remaining ao.remaining))
          (nextSide apx ao aqr arest (min bo.remaining ao.remaining))).1,
        (matchGo (nextSide bpx bo bqr brest (min bo.remaining ao.remaining))
          (nextSide apx ao aqr arest (min bo.remaining ao.remaining))).2) := by
  rw [matchGo_cons _ _ _ _ _ _ _ _ h]
  simp only [nextSide, Order.filled, decide_eq_true_eq]
  split_ifs <;> simp_all [List.isEmpty_iff]

lemma ordersOf_nextSide (px : Int) (x : Order) (l : List Order) (rest) (q) :
    ordersOf (nextSide px x l rest q) =
      (if x.remaining - q = 0 then []
        else [{ x with remaining := x.remaining - q }]) ++ l ++ ordersOf rest := by
  rw [nextSide]
  split_ifs with h1 h2 <;> simp_all [ordersOf, List.isEmpty_iff]

lemma prices_nextSide (px : Int) (x : Order) (l : List Order) (rest) (q) :
    (nextSide px x l rest q).map Prod.fst =
      if x.remaining - q = 0 ∧ l = [] then rest.map Prod.fst
      else px :: rest.map Prod.fst := by
  rw [nextSide]
  split_ifs with h1 h2 h3 <;> simp_all [List.isEmpty_iff]

lemma ordCount_nextSide (px : Int) (x : Order) (l : List Order) (rest) (q) :
    ordCount (nextSide px x l rest q) =
      (if x.remaining - q = 0 then 0 else 1) + l.length + ordCount rest := by
  rw [nextSide]
  split_ifs with h1 <;> simp_all [ordCount, List.isEmpty_iff] <;> omega

lemma ordCount_cons (p : Int × List Order) (rest) :
    ordCount (p :: rest) = p.2.length + ordCount rest := by
  simp [ordCount]

/-- Clean induction principle following the recursion of `matchGo`. -/
lemma matchGo_ind (motive : List (Int × List Order) → List (Int × List Order) → Prop)
    (h1 : ∀ asks, motive [] asks)
    (h2 : ∀ bids, motive bids [])
    (h3 : ∀ (bpx : Int) bq brest (apx : Int) aq arest, bpx < apx →
      motive ((bpx, bq) :: brest) ((apx, aq) :: arest))
    (h4 : ∀ (bpx : Int) brest (apx : Int) arest bo bqr ao aqr, ¬ bpx < apx →
      motive (nextSide bpx bo bqr brest (min bo.remaining ao.remaining))
        (nextSide apx ao aqr arest (min bo.remaining ao.remaining)) →
      motive ((bpx, bo :: bqr) :: brest) ((apx, ao :: aqr) :: arest))
    (h5 : ∀ (bpx : Int) brest (apx : Int) aq arest, ¬ bpx < apx →
      motive ((bpx, []) :: brest) ((apx, aq) :: arest))
    (h6 : ∀ (bpx : Int) bq brest (apx : Int) arest, ¬ bpx < apx →
      motive ((bpx, bq) :: brest) ((apx, []) :: arest)) :
    ∀ bids asks, motive bids asks := by
  intro bids asks
  generalize hn : ordCount bids + ordCount asks = n
  induction n using Nat.strong_induction_on generalizing bids asks with
  | _ n ih =>
  cases bids with
  | nil => exact h1 asks
  | cons bl brest =>
    cases asks with
    | nil => exact h2 _
    | cons al arest =>
      obtain ⟨bpx, bq⟩ := bl
      obtain ⟨apx, aq⟩ := al
      by_cases hlt : bpx < apx
      · exact h3 _ _ _ _ _ _ hlt
      · cases bq with
        | nil => exact h5 _ _ _ _ _ hlt
        | cons bo bqr =>
          cases aq with
          | nil => exact h6 _ _ _ _ _ hlt
          | cons ao aqr =>
            refine h4 _ _ _ _ _ _ _ _ hlt (ih _ ?_ _ _ rfl)
            subst hn
            rw [ordCount_nextSide, ordCount_nextSide, ordCount_cons,
              ordCount_cons]
            simp only [List.length_cons]
            rcases min_choice bo.remaining ao.remaining with hm | hm <;>
              rw [hm] <;> split_ifs <;> omega

/-- The bookkeeping identity of one matcher step: the quantity a trade books
against an id plus what remains resting under that id equals what was resting
before the step. -/
lemma step_restQty (id : Nat) (bpx apx : Int) (bo ao : Order)
    (bqr aqr : List Order) (brest arest : List (Int × List Order)) :
    restQty id (nextSide bpx bo bqr brest (min bo.remaining ao.remaining)) +
      restQty id (nextSide apx ao aqr arest (min bo.remaining ao.remaining)) +
      tcontrib id ⟨⟨bo.id, bo.px, min bo.remaining ao.remaining⟩,
        ⟨ao.id, ao.px, min bo.remaining ao.remaining⟩⟩ =
      restQty id ((bpx, bo :: bqr) :: brest) +
        restQty id ((apx, ao :: aqr) :: arest) := by
  simp only [restQty, ordersOf_nextSide, ordersOf_cons, List.map_append,
    List.sum_append, List.map_cons, List.sum_cons, tcontrib, contrib]
  have hq : min bo.remaining ao.remaining ≤ bo.remaining := Nat.min_le_left _ _
  have hq2 : min bo.remaining ao.remaining ≤ ao.remaining := Nat.min_le_right _ _
  by_cases hid1 : bo.id = id <;> by_cases hid2 : ao.id = id <;>
    split_ifs <;> simp_all [contrib] <;> omega

/-- Quantity conservation of one matcher run: for any id, resting quantity
after the run plus traded quantity equals resting quantity before. -/
lemma matchGo_conserve (bids asks) (id : Nat) :
    restQty id (matchGo bids asks).2.1 + restQty id (matchGo bids asks).2.2 +
      tradeQty id (matchGo bids asks).1 = restQty id bids + restQty id asks := by
  induction bids, asks using matchGo_ind with
  | h1 asks => rw [matchGo_nil_left]; simp
  | h2 bids => rw [matchGo_nil_right]; simp
  | h3 bpx bq brest apx aq arest hlt =>
    rw [matchGo_stop _ _ _ _ _ _ hlt]
    simp
  | h4 bpx brest apx arest bo bqr ao aqr hlt ih =>
    rw [matchGo_cons2 _ _ _ _ _ _ _ _ hlt]
    simp only [tradeQty_cons]
    have hstep := step_restQty id bpx apx bo ao bqr aqr brest arest
    omega
  | h5 bpx brest apx aq arest hlt =>
    rw [matchGo.eq_def]
    simp only [if_neg hlt]
    simp
  | h6 bpx bq brest apx arest hlt =>
    cases bq with
    | nil =>
      rw [matchGo.eq_def]
      simp only [if_neg hlt]
      simp
    | cons bo bqr =>
      rw [matchGo.eq_def]
      simp only [if_neg hlt]
      simp


/-- Prefix-sum bound: the quantity booked against an id by any prefix of the
matcher's trades never exceeds the pre-run resting quantity under that id. -/
lemma matchGo_take_le (bids asks) (id : Nat) : ∀ k,
    tradeQty id ((matchGo bids asks).1.take k) ≤
      restQty id bids + restQty id asks := by
  induction bids, asks using matchGo_ind with
  | h1 asks => rw [matchGo_nil_left]; simp
  | h2 bids => rw [matchGo_nil_right]; simp
  | h3 bpx bq brest apx aq arest hlt =>
    rw [matchGo_stop _ _ _ _ _ _ hlt]
    simp
  | h4 bpx brest apx arest bo bqr ao aqr hlt ih =>
    rw [matchGo_cons2 _ _ _ _ _ _ _ _ hlt]
    intro k
    have hstep := step_restQty id bpx apx bo ao bqr aqr brest arest
    cases k with
    | zero => simp
    | succ k =>
      simp only [List.take_succ_cons, tradeQty_cons]
      have hk := ih k
      omega
  | h5 bpx brest apx aq arest hlt =>
    rw [matchGo.eq_def]
    simp only [if_neg hlt]
    simp
  | h6 bpx bq brest apx arest hlt =>
    cases bq with
    | nil =>
      rw [matchGo.eq_def]
      simp only [if_neg hlt]
      simp
    | cons bo bqr =>
      rw [matchGo.eq_def]
      simp only [if_neg hlt]
      simp

lemma prices_nextSide_sfx (px : Int) (x : Order) (l : List Order) (rest) (q) :
    (nextSide px x l rest q).map Prod.fst <:+
      ((px, x :: l) :: rest).map Prod.fst := by
  rw [prices_nextSide]
  split_ifs <;> simp [List.suffix_cons]

lemma ids_nextSide_sfx (px : Int) (x : Order) (l : List Order) (rest) (q) :
    (ordersOf (nextSide px x l rest q)).map Order.id <:+
      (ordersOf ((px, x :: l) :: rest)).map Order.id := by
  rw [ordersOf_nextSide]
  simp only [ordersOf_cons, List.map_append, List.map_cons]
  split_ifs <;> simp [List.suffix_cons]

/-- The matcher only consumes from the front: the surviving level prices and
the surviving order ids on each side are suffixes of what was there before. -/
lemma matchGo_sfx (bids asks) :
    ((matchGo bids asks).2.1.map Prod.fst <:+ bids.map Prod.fst) ∧
    ((matchGo bids asks).2.2.map Prod.fst <:+ asks.map Prod.fst) ∧
    ((ordersOf (matchGo bids asks).2.1).map Order.id <:+
      (ordersOf bids).map Order.id) ∧
    ((ordersOf (matchGo bids asks).2.2).map Order.id <:+
      (ordersOf asks).map Order.id) := by
  induction bids, asks using matchGo_ind with
  | h1 asks => rw [matchGo_nil_left]; simp
  | h2 bids => rw [matchGo_nil_right]; simp
  | h3 bpx bq brest apx aq arest hlt =>
    rw [matchGo_stop _ _ _ _ _ _ hlt]
    simp
  | h4 bpx brest apx arest bo bqr ao aqr hlt ih =>
    rw [matchGo_cons2 _ _ _ _ _ _ _ _ hlt]
    obtain ⟨ih1, ih2, ih3, ih4⟩ := ih
    exact ⟨ih1.trans (prices_nextSide_sfx _ _ _ _ _),
      ih2.trans (prices_nextSide_sfx _ _ _ _ _),
      ih3.trans (ids_nextSide_sfx _ _ _ _ _),
      ih4.trans (ids_nextSide_sfx _ _ _ _ _)⟩
  | h5 bpx brest apx aq arest hlt =>
    rw [matchGo.eq_def]
    simp only [if_neg hlt]
    simp
  | h6 bpx bq brest apx arest hlt =>
    cases bq with
    | nil =>
      rw [matchGo.eq_def]
      simp only [if_neg hlt]
      simp
    | cons bo bqr =>
      rw [matchGo.eq_def]
      simp only [if_neg hlt]
      simp

lemma nextSide_pres (Q : Int → Order → Prop)
    (hQ : ∀ p o q, Q p o → Q p { o with remaining := o.remaining - q })
    (px : Int) (x : Order) (l : List Order) (rest) (q)
    (h : ∀ pp ∈ (px, x :: l) :: rest, ∀ o ∈ pp.2, Q pp.1 o) :
    ∀ pp ∈ nextSide px x l rest q, ∀ o ∈ pp.2, Q pp.1 o := by
  intro pp hpp o ho
  rw [nextSide] at hpp
  split_ifs at hpp with h1 h2
  · exact h pp (by simp [hpp]) o ho
  · rcases List.mem_cons.mp hpp with rfl | hp2
    · exact h (px, x :: l) (by simp) o (by simp [ho])
    · exact h pp (by simp [hp2]) o ho
  · rcases List.mem_cons.mp hpp with rfl | hp2
    · rcases List.mem_cons.mp ho with rfl | ho2
      · exact hQ _ _ _ (h (px, x :: l) (by simp) x (by simp))
      · exact h (px, x :: l) (by simp) o (by simp [ho2])
    · exact h pp (by simp [hp2]) o ho

/-- Any per-order property at a price that is stable under decreasing the
remaining quantity is preserved by the matcher on both sides (one predicate
per side). -/
lemma matchGo_pres (Q R : Int → Order → Prop)
    (hQ : ∀ p o q, Q p o → Q p { o with remaining := o.remaining - q })
    (hR : ∀ p o q, R p o → R p { o with remaining := o.remaining - q })
    (bids asks) :
    (∀ pp ∈ bids, ∀ o ∈ pp.2, Q pp.1 o) → (∀ pp ∈ asks, ∀ o ∈ pp.2, R pp.1 o) →
      (∀ pp ∈ (matchGo bids asks).2.1, ∀ o ∈ pp.2, Q pp.1 o) ∧
      (∀ pp ∈ (matchGo bids asks).2.2, ∀ o ∈ pp.2, R pp.1 o) := by
  induction bids, asks using matchGo_ind with
  | h1 asks => rw [matchGo_nil_left]; exact fun hb ha => ⟨hb, ha⟩
  | h2 bids => rw [matchGo_nil_right]; exact fun hb ha => ⟨hb, ha⟩
  | h3 bpx bq brest apx aq arest hlt =>
    rw [matchGo_stop _ _ _ _ _ _ hlt]
    exact fun hb ha => ⟨hb, ha⟩
  | h4 bpx brest apx arest bo bqr ao aqr hlt ih =>
    intro hb ha
    rw [matchGo_cons2 _ _ _ _ _ _ _ _ hlt]
    exact ih (nextSide_pres Q hQ _ _ _ _ _ hb) (nextSide_pres R hR _ _ _ _ _ ha)
  | h5 bpx brest apx aq arest hlt =>
    rw [matchGo.eq_def]
    simp only [if_neg hlt]
    exact fun hb ha => ⟨hb, ha⟩
  | h6 bpx bq brest apx arest hlt =>
    cases bq with
    | nil =>
      rw [matchGo.eq_def]
      simp only [if_neg hlt]
      exact fun hb ha => ⟨hb, ha⟩
    | cons bo bqr =>
      rw [matchGo.eq_def]
      simp only [if_neg hlt]
      exact fun hb ha => ⟨hb, ha⟩

lemma nextSide_NEOK (px : Int) (x : Order) (l : List Order) (rest) (q)
    (h : NEOK rest) : NEOK (nextSide px x l rest q) := by
  intro pp hpp
  rw [nextSide] at hpp
  split_ifs at hpp with h1 h2
  · exact h pp hpp
  · rcases List.mem_cons.mp hpp with rfl | hp2
    · simpa [List.isEmpty_iff] using h2
    · exact h pp hp2
  · rcases List.mem_cons.mp hpp with rfl | hp2
    · simp
    · exact h pp hp2

/-- The matcher never leaves an empty price level behind. -/
lemma matchGo_NEOK (bids asks) :
    NEOK bids → NEOK asks →
      NEOK (matchGo bids asks).2.1 ∧ NEOK (matchGo bids asks).2.2 := by
  induction bids, asks using matchGo_ind with
  | h1 asks => rw [matchGo_nil_left]; exact fun hb ha => ⟨hb, ha⟩
  | h2 bids => rw [matchGo_nil_right]; exact fun hb ha => ⟨hb, ha⟩
  | h3 bpx bq brest apx aq arest hlt =>
    rw [matchGo_stop _ _ _ _ _ _ hlt]
    exact fun hb ha => ⟨hb, ha⟩
  | h4 bpx brest apx arest bo bqr ao aqr hlt ih =>
    intro hb ha
    rw [matchGo_cons2 _ _ _ _ _ _ _ _ hlt]
    exact ih (nextSide_NEOK _ _ _ _ _ (fun pp hpp => hb pp (by simp [hpp])))
      (nextSide_NEOK _ _ _ _ _ (fun pp hpp => ha pp (by simp [hpp])))
  | h5 bpx brest apx aq arest hlt =>
    rw [matchGo.eq_def]
    simp only [if_neg hlt]
    exact fun hb ha => ⟨hb, ha⟩
  | h6 bpx bq brest apx arest hlt =>
    cases bq with
    | nil =>
      rw [matchGo.eq_def]
      simp only [if_neg hlt]
      exact fun hb ha => ⟨hb, ha⟩
    | cons bo bqr =>
      rw [matchGo.eq_def]
      simp only [if_neg hlt]
      exact fun hb ha => ⟨hb, ha⟩


lemma enqueueDesc_prices_sub (o : Order) (ls) :
    ∀ pr ∈ (enqueueDesc o ls).map Prod.fst, pr = o.px ∨ pr ∈ ls.map Prod.fst := by
  induction ls with
  | nil => simp [enqueueDesc]
  | cons p rest ih =>
    obtain ⟨px, l⟩ := p
    rw [enqueueDesc]
    split_ifs with h1 h2 <;> intro pr hpr
    · simp only [List.map_cons, List.mem_cons] at hpr ⊢
      tauto
    · simp only [List.map_cons, List.mem_cons] at hpr ⊢
      tauto
    · simp only [List.map_cons, List.mem_cons] at hpr ⊢
      rcases hpr with rfl | hpr
      · tauto
      · rcases ih pr hpr with h | h <;> tauto

lemma enqueueAsc_prices_sub (o : Order) (ls) :
    ∀ pr ∈ (enqueueAsc o ls).map Prod.fst, pr = o.px ∨ pr ∈ ls.map Prod.fst := by
  induction ls with
  | nil => simp [enqueueAsc]
  | cons p rest ih =>
    obtain ⟨px, l⟩ := p
    rw [enqueueAsc]
    split_ifs with h1 h2 <;> intro pr hpr
    · simp only [List.map_cons, List.mem_cons] at hpr ⊢
      tauto
    · simp only [List.map_cons, List.mem_cons] at hpr ⊢
      tauto
    · simp only [List.map_cons, List.mem_cons] at hpr ⊢
      rcases hpr with rfl | hpr
      · tauto
      · rcases ih pr hpr with h | h <;> tauto

lemma enqueueDesc_sorted (o : Order) (ls)
    (h : List.Chain' (· > ·) (ls.map Prod.fst)) :
    List.Chain' (· > ·) ((enqueueDesc o ls).map Prod.fst) := by
  induction ls with
  | nil => simp [enqueueDesc]
  | cons p rest ih =>
    obtain ⟨px, l⟩ := p
    simp only [List.map_cons] at h
    rw [enqueueDesc]
    split_ifs with h1 h2
    · simp only [List.map_cons]
      exact h.cons h1
    · subst h2
      simpa using h
    · simp only [List.map_cons]
      rw [List.chain'_cons']
      refine ⟨?_, ih h.tail⟩
      intro z hz
      rcases enqueueDesc_prices_sub o rest z (List.mem_of_mem_head? hz) with rfl | hmem
      · omega
      · exact (List.pairwise_cons.mp (List.chain'_iff_pairwise.mp h)).1 _ hmem

lemma enqueueAsc_sorted (o : Order) (ls)
    (h : List.Chain' (· < ·) (ls.map Prod.fst)) :
    List.Chain' (· < ·) ((enqueueAsc o ls).map Prod.fst) := by
  induction ls with
  | nil => simp [enqueueAsc]
  | cons p rest ih =>
    obtain ⟨px, l⟩ := p
    simp only [List.map_cons] at h
    rw [enqueueAsc]
    split_ifs with h1 h2
    · simp only [List.map_cons]
      exact h.cons h1
    · subst h2
      simpa using h
    · simp only [List.map_cons]
      rw [List.chain'_cons']
      refine ⟨?_, ih h.tail⟩
      intro z hz
      rcases enqueueAsc_prices_sub o rest z (List.mem_of_mem_head? hz) with rfl | hmem
      · omega
      · exact (List.pairwise_cons.mp (List.chain'_iff_pairwise.mp h)).1 _ hmem

lemma enqueueDesc_perm (o : Order) (ls) :
    (ordersOf (enqueueDesc o ls)).Perm (o :: ordersOf ls) := by
  induction ls with
  | nil => simp [enqueueDesc, ordersOf]
  | cons p rest ih =>
    obtain ⟨px, l⟩ := p
    rw [enqueueDesc]
    split_ifs with h1 h2
    · simp [ordersOf]
    · simp only [ordersOf_cons]
      have he : (l ++ [o]) ++ ordersOf rest = l ++ o :: ordersOf rest := by simp
      rw [he]
      exact List.perm_middle
    · simp only [ordersOf_cons]
      exact (List.Perm.append_left l ih).trans List.perm_middle

lemma enqueueAsc_perm (o : Order) (ls) :
    (ordersOf (enqueueAsc o ls)).Perm (o :: ordersOf ls) := by
  induction ls with
  | nil => simp [enqueueAsc, ordersOf]
  | cons p rest ih =>
    obtain ⟨px, l⟩ := p
    rw [enqueueAsc]
    split_ifs with h1 h2
    · simp [ordersOf]
    · simp only [ordersOf_cons]
      have he : (l ++ [o]) ++ ordersOf rest = l ++ o :: ordersOf rest := by simp
      rw [he]
      exact List.perm_middle
    · simp only [ordersOf_cons]
      exact (List.Perm.append_left l ih).trans List.perm_middle

lemma enqueueDesc_pres (Q : Int → Order → Prop) (o : Order) (ls)
    (hQo : Q o.px o) (h : ∀ p ∈ ls, ∀ x ∈ p.2, Q p.1 x) :
    ∀ p ∈ enqueueDesc o ls, ∀ x ∈ p.2, Q p.1 x := by
  induction ls with
  | nil =>
    intro p hp x hx
    simp only [enqueueDesc, List.mem_singleton] at hp
    subst hp
    simp only [List.mem_singleton] at hx
    subst hx
    exact hQo
  | cons pl rest ih =>
    obtain ⟨px, l⟩ := pl
    rw [enqueueDesc]
    split_ifs with h1 h2 <;> intro p hp x hx
    · rcases List.mem_cons.mp hp with rfl | hp2
      · simp only [List.mem_singleton] at hx
        subst hx
        exact hQo
      · exact h p hp2 x hx
    · rcases List.mem_cons.mp hp with rfl | hp2
      · rcases List.mem_append.mp hx with hx2 | hx2
        · exact h (px, l) (by simp) x hx2
        · simp only [List.mem_singleton] at hx2
          subst hx2
          subst h2
          exact hQo
      · exact h p (by simp [hp2]) x hx
    · rcases List.mem_cons.mp hp with rfl | hp2
      · exact h (px, l) (by simp) x hx
      · exact ih (fun pp hpp => h pp (by simp [hpp])) p hp2 x hx

lemma enqueueAsc_pres (Q : Int → Order → Prop) (o : Order) (ls)
    (hQo : Q o.px o) (h : ∀ p ∈ ls, ∀ x ∈ p.2, Q p.1 x) :
    ∀ p ∈ enqueueAsc o ls, ∀ x ∈ p.2, Q p.1 x := by
  induction ls with
  | nil =>
    intro p hp x hx
    simp only [enqueueAsc, List.mem_singleton] at hp
    subst hp
    simp only [List.mem_singleton] at hx
    subst hx
    exact hQo
  | cons pl rest ih =>
    obtain ⟨px, l⟩ := pl
    rw [enqueueAsc]
    split_ifs with h1 h2 <;> intro p hp x hx
    · rcases List.mem_cons.mp hp with rfl | hp2
      · simp only [List.mem_singleton] at hx
        subst hx
        exact hQo
      · exact h p hp2 x hx
    · rcases List.mem_cons.mp hp with rfl | hp2
      · rcases List.mem_append.mp hx with hx2 | hx2
        · exact h (px, l) (by simp) x hx2
        · simp only [List.mem_singleton] at hx2
          subst hx2
          subst h2
          exact hQo
      · exact h p (by simp [hp2]) x hx
    · rcases List.mem_cons.mp hp with rfl | hp2
      · exact h (px, l) (by simp) x hx
      · exact ih (fun pp hpp => h pp (by simp [hpp])) p hp2 x hx

lemma enqueueDesc_NEOK (o : Order) (ls) (h : NEOK ls) :
    NEOK (enqueueDesc o ls) := by
  induction ls with
  | nil => intro p hp; simp only [enqueueDesc, List.mem_singleton] at hp; simp [hp]
  | cons pl rest ih =>
    obtain ⟨px, l⟩ := pl
    rw [enqueueDesc]
    split_ifs with h1 h2 <;> intro p hp
    · rcases List.mem_cons.mp hp with rfl | hp2
      · simp
      · exact h p hp2
    · rcases List.mem_cons.mp hp with rfl | hp2
      · simp
      · exact h p (by simp [hp2])
    · rcases List.mem_cons.mp hp with rfl | hp2
      · exact h (px, l) (by simp)
      · exact ih (fun pp hpp => h pp (by simp [hpp])) p hp2

lemma enqueueAsc_NEOK (o : Order) (ls) (h : NEOK ls) :
    NEOK (enqueueAsc o ls) := by
  induction ls with
  | nil => intro p hp; simp only [enqueueAsc, List.mem_singleton] at hp; simp [hp]
  | cons pl rest ih =>
    obtain ⟨px, l⟩ := pl
    rw [enqueueAsc]
    split_ifs with h1 h2 <;> intro p hp
    · rcases List.mem_cons.mp hp with rfl | hp2
      · simp
      · exact h p hp2
    · rcases List.mem_cons.mp hp with rfl | hp2
      · simp
      · exact h p (by simp [hp2])
    · rcases List.mem_cons.mp hp with rfl | hp2
      · exact h (px, l) (by simp)
      · exact ih (fun pp hpp => h pp (by simp [hpp])) p hp2


/-- The well-formedness invariant of reachable core books: sides sorted
(bids descending, asks ascending), levels non-empty, every order labelled
with its level price and its side, `remaining ≤ initial`, resting ids
unique, and the book uncrossed. -/
def WF (b : Orderbook) : Prop :=
  List.Chain' (· > ·) (b.bids.map Prod.fst) ∧
  List.Chain' (· < ·) (b.asks.map Prod.fst) ∧
  NEOK b.bids ∧ NEOK b.asks ∧
  (∀ p ∈ b.bids, ∀ o ∈ p.2, o.px = p.1 ∧ o.side = Side.Buy ∧
    o.remaining ≤ o.initial) ∧
  (∀ p ∈ b.asks, ∀ o ∈ p.2, o.px = p.1 ∧ o.side = Side.Sell ∧
    o.remaining ≤ o.initial) ∧
  b.ids.Nodup ∧
  uncrossedB b.bids b.asks = true

lemma mem_ids_bids_or_asks {b : Orderbook} {id : Nat} (h : id ∈ b.ids) :
    (∃ o ∈ ordersOf b.bids, o.id = id) ∨ ∃ o ∈ ordersOf b.asks, o.id = id := by
  rcases List.mem_append.mp h with h2 | h2 <;>
    [left; right] <;> simpa using h2

lemma findOrder_eq_none {b : Orderbook} {id : Nat} (h : id ∉ b.ids) :
    b.findOrder id = none := by
  have hb : ∀ o ∈ ordersOf b.bids, ¬ (o.id = id) := by
    intro o ho he
    exact h (List.mem_append.mpr (Or.inl (List.mem_map.mpr ⟨o, ho, he⟩)))
  have ha : ∀ o ∈ ordersOf b.asks, ¬ (o.id = id) := by
    intro o ho he
    exact h (List.mem_append.mpr (Or.inr (List.mem_map.mpr ⟨o, ho, he⟩)))
  rw [Orderbook.findOrder]
  rw [List.find?_eq_none.mpr (by simpa using hb)]
  exact List.find?_eq_none.mpr (by simpa using ha)

lemma findOrder_some {b : Orderbook} {id : Nat} {o : Order}
    (h : b.findOrder id = some o) :
    o.id = id ∧ (o ∈ ordersOf b.bids ∨ o ∈ ordersOf b.asks) := by
  rw [Orderbook.findOrder] at h
  cases hfb : (ordersOf b.bids).find? (fun o => o.id = id) with
  | some x =>
    rw [hfb] at h
    injection h with h
    subst h
    exact ⟨by simpa using List.find?_some hfb,
      Or.inl (List.mem_of_find?_eq_some hfb)⟩
  | none =>
    rw [hfb] at h
    exact ⟨by simpa using List.find?_some h,
      Or.inr (List.mem_of_find?_eq_some h)⟩

lemma findOrder_mem_of_ids {b : Orderbook} {id : Nat} (h : id ∈ b.ids) :
    ∃ o, b.findOrder id = some o := by
  rw [Orderbook.findOrder]
  cases hfb : (ordersOf b.bids).find? (fun o => o.id = id) with
  | some x => exact ⟨x, rfl⟩
  | none =>
    rcases mem_ids_bids_or_asks h with ⟨o, ho, hid⟩ | ⟨o, ho, hid⟩
    · have h3 := List.find?_eq_none.mp hfb o ho
      simp [hid] at h3
    · cases hfa : (ordersOf b.asks).find? (fun o => o.id = id) with
      | some x => exact ⟨x, rfl⟩
      | none =>
        have h3 := List.find?_eq_none.mp hfa o ho
        simp [hid] at h3

lemma removeFirstById_sublist (id : Nat) (l : List Order) :
    List.Sublist (removeFirstById id l) l := by
  induction l with
  | nil => simp [removeFirstById]
  | cons o rest ih =>
    rw [removeFirstById]
    split_ifs with h1
    · exact List.sublist_cons_self o rest
    · exact ih.cons₂ o

lemma removeFirstById_length {id : Nat} {l : List Order}
    (h : id ∈ l.map Order.id) :
    (removeFirstById id l).length + 1 = l.length := by
  induction l with
  | nil => simp at h
  | cons o rest ih =>
    rw [removeFirstById]
    split_ifs with h1
    · simp
    · simp only [List.map_cons, List.mem_cons] at h
      rcases h with h | h
      · exact absurd h.symm h1
      · simp only [List.length_cons, ih h]

lemma removeFirstById_not_mem {id : Nat} {l : List Order}
    (h : (l.map Order.id).Nodup) :
    id ∉ (removeFirstById id l).map Order.id := by
  induction l with
  | nil => simp [removeFirstById]
  | cons o rest ih =>
    rw [removeFirstById]
    simp only [List.map_cons, List.nodup_cons] at h
    split_ifs with h1
    · subst h1
      exact h.1
    · intro hmem
      simp only [List.map_cons, List.mem_cons] at hmem
      rcases hmem with hmem | hmem
      · exact h1 hmem.symm
      · exact ih h.2 hmem

lemma eraseInLevels_prices_sub (px : Int) (id : Nat) (ls) :
    List.Sublist ((eraseInLevels px id ls).map Prod.fst) (ls.map Prod.fst) := by
  induction ls with
  | nil => simp [eraseInLevels]
  | cons p rest ih =>
    obtain ⟨p1, l⟩ := p
    rw [eraseInLevels]
    split_ifs with h1 h2
    · exact List.sublist_cons_self p1 (rest.map Prod.fst)
    · simp only [List.map_cons]
      exact (List.Sublist.refl _).cons₂ p1
    · simp only [List.map_cons]
      exact ih.cons₂ p1

lemma eraseInLevels_orders_sub (px : Int) (id : Nat) (ls) :
    List.Sublist (ordersOf (eraseInLevels px id ls)) (ordersOf ls) := by
  induction ls with
  | nil => simp [eraseInLevels]
  | cons p rest ih =>
    obtain ⟨p1, l⟩ := p
    rw [eraseInLevels]
    split_ifs with h1 h2
    · simp only [ordersOf_cons]
      exact List.sublist_append_right l (ordersOf rest)
    · simp only [ordersOf_cons]
      exact (removeFirstById_sublist id l).append (List.Sublist.refl _)
    · simp only [ordersOf_cons]
      exact (List.Sublist.refl l).append ih

lemma eraseInLevels_pres (Q : Int → Order → Prop) (px : Int) (id : Nat) (ls)
    (h : ∀ p ∈ ls, ∀ o ∈ p.2, Q p.1 o) :
    ∀ p ∈ eraseInLevels px id ls, ∀ o ∈ p.2, Q p.1 o := by
  induction ls with
  | nil => simp [eraseInLevels]
  | cons pl rest ih =>
    obtain ⟨p1, l⟩ := pl
    rw [eraseInLevels]
    split_ifs with h1 h2 <;> intro p hp o ho
    · exact h p (by simp [hp]) o ho
    · rcases List.mem_cons.mp hp with rfl | hp2
      · exact h (p1, l) (by simp) o ((removeFirstById_sublist id l).mem ho)
      · exact h p (by simp [hp2]) o ho
    · rcases List.mem_cons.mp hp with rfl | hp2
      · exact h (p1, l) (by simp) o ho
      · exact ih (fun pp hpp => h pp (by simp [hpp])) p hp2 o ho

lemma eraseInLevels_NEOK (px : Int) (id : Nat) (ls) (h : NEOK ls) :
    NEOK (eraseInLevels px id ls) := by
  induction ls with
  | nil => intro p hp; simp [eraseInLevels] at hp
  | cons pl rest ih =>
    obtain ⟨p1, l⟩ := pl
    rw [eraseInLevels]
    split_ifs with h1 h2 <;> intro p hp
    · exact h p (by simp [hp])
    · rcases List.mem_cons.mp hp with rfl | hp2
      · simpa [List.isEmpty_iff] using h2
      · exact h p (by simp [hp2])
    · rcases List.mem_cons.mp hp with rfl | hp2
      · exact h (p1, l) (by simp)
      · exact ih (fun pp hpp => h pp (by simp [hpp])) p hp2

lemma sorted_desc_le_head {x : Int} {xs : List Int}
    (h : List.Chain' (· > ·) (x :: xs)) : ∀ y ∈ x :: xs, y ≤ x := by
  intro y hy
  rcases List.mem_cons.mp hy with rfl | hy2
  · exact le_refl y
  · exact le_of_lt ((List.pairwise_cons.mp (List.chain'_iff_pairwise.mp h)).1 y hy2)

lemma sorted_asc_ge_head {x : Int} {xs : List Int}
    (h : List.Chain' (· < ·) (x :: xs)) : ∀ y ∈ x :: xs, x ≤ y := by
  intro y hy
  rcases List.mem_cons.mp hy with rfl | hy2
  · exact le_refl y
  · exact le_of_lt ((List.pairwise_cons.mp (List.chain'_iff_pairwise.mp h)).1 y hy2)

lemma uncrossed_of_sub {bids asks bids2 asks2 : List (Int × List Order)}
    (hb : List.Chain' (· > ·) (bids.map Prod.fst))
    (ha : List.Chain' (· < ·) (asks.map Prod.fst))
    (hsb : List.Sublist (bids2.map Prod.fst) (bids.map Prod.fst))
    (hsa : List.Sublist (asks2.map Prod.fst) (asks.map Prod.fst))
    (h : uncrossedB bids asks = true) : uncrossedB bids2 asks2 = true := by
  cases bids2 with
  | nil => cases asks2 <;> rfl
  | cons bl2 brest2 =>
    cases asks2 with
    | nil => rfl
    | cons al2 arest2 =>
      obtain ⟨bp2, bq2⟩ := bl2
      obtain ⟨ap2, aq2⟩ := al2
      have hbm : bp2 ∈ bids.map Prod.fst := hsb.mem (by simp)
      have ham : ap2 ∈ asks.map Prod.fst := hsa.mem (by simp)
      cases bids with
      | nil => simp at hbm
      | cons bl brest =>
        cases asks with
        | nil => simp at ham
        | cons al arest =>
          obtain ⟨bp, bq⟩ := bl
          obtain ⟨ap, aq⟩ := al
          have h1 : bp2 ≤ bp := by
            simpa using sorted_desc_le_head (by simpa using hb) bp2 (by simpa using hbm)
          have h2 : ap ≤ ap2 := by
            simpa using sorted_asc_ge_head (by simpa using ha) ap2 (by simpa using ham)
          have h3 : bp < ap := by simpa [uncrossedB] using h
          simp only [uncrossedB, decide_eq_true_eq]
          omega


lemma CancelOrder_noop {b : Orderbook} {id : Nat} (h : id ∉ b.ids) :
    b.CancelOrder id = b := by
  rw [Orderbook.CancelOrder, findOrder_eq_none h]

lemma CancelOrder_WF {b : Orderbook} (id : Nat) (h : WF b) :
    WF (b.CancelOrder id) := by
  obtain ⟨hbs, has, hbne, hane, hblab, halab, hnodup, hunc⟩ := h
  rw [Orderbook.CancelOrder]
  cases hfo : b.findOrder id with
  | none => exact ⟨hbs, has, hbne, hane, hblab, halab, hnodup, hunc⟩
  | some o =>
    haveI : IsTrans Int (· > ·) := ⟨fun _ _ _ h1 h2 => lt_trans h2 h1⟩
    haveI : IsTrans Int (· < ·) := ⟨fun _ _ _ h1 h2 => lt_trans h1 h2⟩
    simp only []
    cases hs : o.side <;> simp only [hs]
    · refine ⟨hbs.sublist (eraseInLevels_prices_sub _ _ _), has,
        eraseInLevels_NEOK _ _ _ hbne, hane,
        eraseInLevels_pres
          (fun pr x => x.px = pr ∧ x.side = Side.Buy ∧ x.remaining ≤ x.initial)
          o.px id b.bids hblab, halab, ?_, ?_⟩
      · refine List.Nodup.sublist ?_ hnodup
        exact ((eraseInLevels_orders_sub o.px id b.bids).map Order.id).append
          (List.Sublist.refl _)
      · exact uncrossed_of_sub hbs has (eraseInLevels_prices_sub _ _ _)
          (List.Sublist.refl _) hunc
    · refine ⟨hbs, has.sublist (eraseInLevels_prices_sub _ _ _), hbne,
        eraseInLevels_NEOK _ _ _ hane, hblab,
        eraseInLevels_pres
          (fun pr x => x.px = pr ∧ x.side = Side.Sell ∧ x.remaining ≤ x.initial)
          o.px id b.asks halab, ?_, ?_⟩
      · refine List.Nodup.sublist ?_ hnodup
        exact (List.Sublist.refl _).append
          ((eraseInLevels_orders_sub o.px id b.asks).map Order.id)
      · exact uncrossed_of_sub hbs has (List.Sublist.refl _)
          (eraseInLevels_prices_sub _ _ _) hunc

lemma matchBook_WF (b1 : Orderbook)
    (hbs : List.Chain' (· > ·) (b1.bids.map Prod.fst))
    (has : List.Chain' (· < ·) (b1.asks.map Prod.fst))
    (hbne : NEOK b1.bids) (hane : NEOK b1.asks)
    (hblab : ∀ p ∈ b1.bids, ∀ o ∈ p.2, o.px = p.1 ∧ o.side = Side.Buy ∧
      o.remaining ≤ o.initial)
    (halab : ∀ p ∈ b1.asks, ∀ o ∈ p.2, o.px = p.1 ∧ o.side = Side.Sell ∧
      o.remaining ≤ o.initial)
    (hnodup : b1.ids.Nodup) : WF b1.matchBook.2 := by
  haveI : IsTrans Int (· > ·) := ⟨fun _ _ _ h1 h2 => lt_trans h2 h1⟩
  haveI : IsTrans Int (· < ·) := ⟨fun _ _ _ h1 h2 => lt_trans h1 h2⟩
  obtain ⟨s1, s2, s3, s4⟩ := matchGo_sfx b1.bids b1.asks
  have hQ : ∀ (s : Side) (p : Int) (o : Order) (q : Nat),
      (o.px = p ∧ o.side = s ∧ o.remaining ≤ o.initial) →
      ((({ o with remaining := o.remaining - q } : Order)).px = p ∧
        ({ o with remaining := o.remaining - q } : Order).side = s ∧
        ({ o with remaining := o.remaining - q } : Order).remaining ≤
          ({ o with remaining := o.remaining - q } : Order).initial) := by
    intro s p o q h
    obtain ⟨h1, h2, h3⟩ := h
    refine ⟨h1, h2, ?_⟩
    simp only []
    omega
  obtain ⟨pb, pa⟩ := matchGo_pres
    (fun p o => o.px = p ∧ o.side = Side.Buy ∧ o.remaining ≤ o.initial)
    (fun p o => o.px = p ∧ o.side = Side.Sell ∧ o.remaining ≤ o.initial)
    (hQ Side.Buy) (hQ Side.Sell) b1.bids b1.asks hblab halab
  exact ⟨hbs.sublist s1.sublist, has.sublist s2.sublist,
    (matchGo_NEOK _ _ hbne hane).1, (matchGo_NEOK _ _ hbne hane).2,
    pb, pa,
    List.Nodup.sublist (s3.sublist.append s4.sublist) hnodup,
    matchGo_uncrossed _ _ hbne hane⟩


lemma ite_cancel_WF (c : Prop) [Decidable c] (tr : List Trade)
    (b2 : Orderbook) (oid : Nat) (h : WF b2) :
    WF ((if c then (tr, b2.CancelOrder oid) else (tr, b2)).2) := by
  split_ifs with hc
  · exact CancelOrder_WF oid h
  · exact h

lemma AddOrder_WF {b : Orderbook} {o : Order} (h : WF b)
    (hle : o.remaining ≤ o.initial) : WF (b.AddOrder o).2 := by
  obtain ⟨hbs, has, hbne, hane, hblab, halab, hnodup, hunc⟩ := h
  rw [Orderbook.AddOrder]
  by_cases hdup : o.id ∈ b.ids
  · simp only [if_pos hdup]
    exact ⟨hbs, has, hbne, hane, hblab, halab, hnodup, hunc⟩
  · simp only [if_neg hdup]
    cases hside : o.side with
    | Buy =>
      simp only [hside]
      refine ite_cancel_WF _ _ _ _ (matchBook_WF ⟨enqueueDesc o b.bids, b.asks⟩
        (enqueueDesc_sorted o b.bids hbs) has
        (enqueueDesc_NEOK o b.bids hbne) hane
        (enqueueDesc_pres
          (fun pr x => x.px = pr ∧ x.side = Side.Buy ∧ x.remaining ≤ x.initial)
          o b.bids ⟨rfl, hside, hle⟩ hblab) halab ?_)
      have hperm : ((ordersOf (enqueueDesc o b.bids)).map Order.id).Perm
          (o.id :: (ordersOf b.bids).map Order.id) := by
        simpa using (enqueueDesc_perm o b.bids).map Order.id
      have hp2 := hperm.append_right ((ordersOf b.asks).map Order.id)
      refine (List.Perm.nodup_iff hp2).mpr ?_
      rw [List.cons_append]
      exact List.nodup_cons.mpr ⟨hdup, hnodup⟩
    | Sell =>
      simp only [hside]
      refine ite_cancel_WF _ _ _ _ (matchBook_WF ⟨b.bids, enqueueAsc o b.asks⟩
        hbs (enqueueAsc_sorted o b.asks has)
        hbne (enqueueAsc_NEOK o b.asks hane)
        hblab (enqueueAsc_pres
          (fun pr x => x.px = pr ∧ x.side = Side.Sell ∧ x.remaining ≤ x.initial)
          o b.asks ⟨rfl, hside, hle⟩ halab) ?_)
      have hperm : ((ordersOf (enqueueAsc o b.asks)).map Order.id).Perm
          (o.id :: (ordersOf b.asks).map Order.id) := by
        simpa using (enqueueAsc_perm o b.asks).map Order.id
      have hp2 := hperm.append_left ((ordersOf b.bids).map Order.id)
      refine (List.Perm.nodup_iff hp2).mpr ?_
      refine (List.Perm.nodup_iff (List.perm_middle)).mpr ?_
      rw [Orderbook.ids] at hdup hnodup
      exact List.nodup_cons.mpr ⟨hdup, hnodup⟩

lemma WF_empty : WF ⟨[], []⟩ := by
  refine ⟨?_, ?_, ?_, ?_, ?_, ?_, ?_, ?_⟩ <;>
    simp [NEOK, Orderbook.ids, ordersOf, uncrossedB]

/-- Every reachable book satisfies the full invariant. -/
lemma Reachable_WF {b : Orderbook} (h : Reachable b) : WF b := by
  induction h with
  | empty => exact WF_empty
  | add b t id s px qty hb ih => exact AddOrder_WF ih (le_refl _)
  | cancel b id hb ih => exact CancelOrder_WF id ih

end Core

/-! ## Claims C2 and C5 -/

namespace Core

lemma restQty_zero {id : Nat} {L : List Order} (h : ∀ y ∈ L, y.id ≠ id) :
    (L.map (contrib id)).sum = 0 := by
  induction L with
  | nil => simp
  | cons x rest ih =>
    simp only [List.map_cons, List.sum_cons, contrib]
    rw [if_neg (h x (by simp)), ih (fun y hy => h y (by simp [hy]))]

lemma restQty_single {id : Nat} {o : Order} {L : List Order} (hmem : o ∈ L)
    (hid : o.id = id) (hnodup : (L.map Order.id).Nodup) :
    (L.map (contrib id)).sum = o.remaining := by
  induction L with
  | nil => simp at hmem
  | cons x rest ih =>
    simp only [List.map_cons, List.nodup_cons] at hnodup
    rcases List.mem_cons.mp hmem with rfl | hmem2
    · simp only [List.map_cons, List.sum_cons, contrib, if_pos hid]
      rw [restQty_zero (fun y hy he =>
        hnodup.1 (List.mem_map.mpr ⟨y, hy, he.trans hid.symm⟩)), Nat.add_zero]
    · simp only [List.map_cons, List.sum_cons, contrib]
      rw [if_neg (fun he =>
        hnodup.1 (List.mem_map.mpr ⟨o, hmem2, hid.trans he.symm⟩)),
        ih hmem2 hnodup.2, Nat.zero_add]

lemma AddOrder_trades (b : Orderbook) (o : Order) (h : o.id ∉ b.ids) :
    (b.AddOrder o).1 =
      ((match o.side with
        | Side.Buy => (⟨enqueueDesc o b.bids, b.asks⟩ : Orderbook)
        | Side.Sell => ⟨b.bids, enqueueAsc o b.asks⟩).matchBook).1 := by
  rw [Orderbook.AddOrder, if_neg h]
  cases o.side <;> simp only [] <;> split_ifs <;> rfl

lemma restQty_perm {id : Nat} {L L2 : List Order} (h : L.Perm L2) :
    (L.map (contrib id)).sum = (L2.map (contrib id)).sum :=
  (h.map (contrib id)).sum_eq

end Core

/-- C2.  In every externally observable book state — i.e. after any finite
sequence of completed `AddOrder`/`CancelOrder` calls starting from the empty
book — either the bid side is empty, or the ask side is empty, or the best
bid price (the head of the descending bid map) is strictly below the best
ask price (the head of the ascending ask map). -/
theorem book_never_crossed (b : Core.Orderbook) (h : Core.Reachable b) :
    b.bids = [] ∨ b.asks = [] ∨ b.bids.headI.1 < b.asks.headI.1 := by
  have hunc := (Core.Reachable_WF h).2.2.2.2.2.2.2
  cases hb : b.bids with
  | nil => exact Or.inl rfl
  | cons bl brest =>
    cases ha : b.asks with
    | nil => exact Or.inr (Or.inl rfl)
    | cons al arest =>
      refine Or.inr (Or.inr ?_)
      rw [hb, ha] at hunc
      obtain ⟨bp, bq⟩ := bl
      obtain ⟨ap, aq⟩ := al
      simpa [Core.uncrossedB] using hunc

/-- Witness for C2: after resting a buy at 100 and a sell at 105 from the
empty book, the book is reachable and satisfies the uncrossedness
disjunction. -/
theorem book_never_crossed_witness :
    (((⟨[], []⟩ : Core.Orderbook).AddOrder
        (Core.MakeOrder OrderType.GTC 1 Side.Buy 100 5)).2.AddOrder
        (Core.MakeOrder OrderType.GTC 2 Side.Sell 105 5)).2.bids = [] ∨
    (((⟨[], []⟩ : Core.Orderbook).AddOrder
        (Core.MakeOrder OrderType.GTC 1 Side.Buy 100 5)).2.AddOrder
        (Core.MakeOrder OrderType.GTC 2 Side.Sell 105 5)).2.asks = [] ∨
    (((⟨[], []⟩ : Core.Orderbook).AddOrder
        (Core.MakeOrder OrderType.GTC 1 Side.Buy 100 5)).2.AddOrder
        (Core.MakeOrder OrderType.GTC 2 Side.Sell 105 5)).2.bids.headI.1 <
      (((⟨[], []⟩ : Core.Orderbook).AddOrder
        (Core.MakeOrder OrderType.GTC 1 Side.Buy 100 5)).2.AddOrder
        (Core.MakeOrder OrderType.GTC 2 Side.Sell 105 5)).2.asks.headI.1 :=
  book_never_crossed _
    (Core.Reachable.add _ OrderType.GTC 2 Side.Sell 105 5
      (Core.Reachable.add _ OrderType.GTC 1 Side.Buy 100 5
        Core.Reachable.empty))

/-- C5.  Quantity conservation.  (i) Every order resting in a reachable book
has `remaining ≤ initial` (quantities are naturals, so `0 ≤ remaining` is
inherent); (ii) one matcher run conserves quantity: for any id, the
remaining quantity after the run plus the quantity traded against that id
equals the remaining quantity before, and (iii) every prefix of the trades
books at most the pre-run resting quantity against any id — hence each
single trade's quantity is at most the pre-trade remaining of both
participants (the pre-run remaining minus what earlier trades consumed);
(iv) the quantity an `AddOrder` call trades against a resting order never
exceeds that order's initial quantity. -/
theorem quantity_conserved :
    (∀ b : Core.Orderbook, Core.Reachable b →
      ∀ o ∈ Core.ordersOf b.bids ++ Core.ordersOf b.asks,
        o.remaining ≤ o.initial) ∧
    (∀ bids asks (id : Nat),
      Core.restQty id (Core.matchGo bids asks).2.1 +
        Core.restQty id (Core.matchGo bids asks).2.2 +
        Core.tradeQty id (Core.matchGo bids asks).1 =
        Core.restQty id bids + Core.restQty id asks) ∧
    (∀ bids asks (id k : Nat),
      Core.tradeQty id ((Core.matchGo bids asks).1.take k) ≤
        Core.restQty id bids + Core.restQty id asks) ∧
    (∀ b : Core.Orderbook, Core.Reachable b →
      ∀ o, (o ∈ Core.ordersOf b.bids ∨ o ∈ Core.ordersOf b.asks) →
      ∀ o2 : Core.Order, Core.tradeQty o.id (b.AddOrder o2).1 ≤ o.initial) := by
  have hmemle : ∀ b : Core.Orderbook, Core.Reachable b →
      ∀ o, (o ∈ Core.ordersOf b.bids ∨ o ∈ Core.ordersOf b.asks) →
        o.remaining ≤ o.initial := by
    intro b hb o ho
    obtain ⟨_, _, _, _, hblab, halab, _, _⟩ := Core.Reachable_WF hb
    rcases ho with h2 | h2
    · rcases (by simpa [Core.ordersOf] using h2 :
          ∃ l, (∃ a, (a, l) ∈ b.bids) ∧ o ∈ l) with ⟨l, ⟨a, hal⟩, hol⟩
      exact (hblab (a, l) hal o hol).2.2
    · rcases (by simpa [Core.ordersOf] using h2 :
          ∃ l, (∃ a, (a, l) ∈ b.asks) ∧ o ∈ l) with ⟨l, ⟨a, hal⟩, hol⟩
      exact (halab (a, l) hal o hol).2.2
  refine ⟨?_, Core.matchGo_conserve, Core.matchGo_take_le, ?_⟩
  · intro b hb o ho
    exact hmemle b hb o (List.mem_append.mp ho)
  · intro b hb o ho o2
    obtain ⟨_, _, _, _, _, _, hnodup, _⟩ := Core.Reachable_WF hb
    have hoid : o.id ∈ b.ids := by
      rcases ho with h2 | h2
      · exact List.mem_append.mpr (Or.inl (List.mem_map.mpr ⟨o, h2, rfl⟩))
      · exact List.mem_append.mpr (Or.inr (List.mem_map.mpr ⟨o, h2, rfl⟩))
    have hri : o.remaining ≤ o.initial := hmemle b hb o ho
    by_cases hdup : o2.id ∈ b.ids
    · rw [Core.Orderbook.AddOrder, if_pos hdup]
      simp [Core.tradeQty]
    · rw [Core.AddOrder_trades b o2 hdup]
      have hrest : Core.restQty o.id b.bids + Core.restQty o.id b.asks =
          o.remaining := by
        have hs := @Core.restQty_single o.id o
          (Core.ordersOf b.bids ++ Core.ordersOf b.asks)
          (by rcases ho with h2 | h2 <;> simp [h2]) rfl
          (by simpa [Core.Orderbook.ids, List.map_append] using hnodup)
        simpa [Core.restQty, List.map_append, List.sum_append] using hs
      have hfresh : o2.id ≠ o.id := fun he => hdup (he ▸ hoid)
      have hco : Core.contrib o.id o2 = 0 := by
        simp [Core.contrib, hfresh]
      cases hside : o2.side with
      | Buy =>
        simp only [hside]
        have hcons := Core.matchGo_conserve (Core.enqueueDesc o2 b.bids)
          b.asks o.id
        have hperm := @Core.restQty_perm o.id _ _
          (Core.enqueueDesc_perm o2 b.bids)
        have he1 : Core.restQty o.id (Core.enqueueDesc o2 b.bids) =
            Core.restQty o.id b.bids := by
          simp only [Core.restQty]
          rw [hperm]
          simp [hco]
        simp only [Core.Orderbook.matchBook]
        omega
      | Sell =>
        simp only [hside]
        have hcons := Core.matchGo_conserve b.bids
          (Core.enqueueAsc o2 b.asks) o.id
        have hperm := @Core.restQty_perm o.id _ _
          (Core.enqueueAsc_perm o2 b.asks)
        have he1 : Core.restQty o.id (Core.enqueueAsc o2 b.asks) =
            Core.restQty o.id b.asks := by
          simp only [Core.restQty]
          rw [hperm]
          simp [hco]
        simp only [Core.Orderbook.matchBook]
        omega

/-- Witness for C5: the reachable one-order book satisfies the remaining
bound, conservation and the prefix bound hold on a concrete crossed book,
and a concrete aggressive sell books at most the resting buy's initial
quantity. -/
theorem quantity_conserved_witness :
    (⟨OrderType.GTC, 1, Side.Buy, 100, 5, 5⟩ : Core.Order).remaining ≤
      (⟨OrderType.GTC, 1, Side.Buy, 100, 5, 5⟩ : Core.Order).initial ∧
    Core.restQty 1 (Core.matchGo
        [(100, [⟨OrderType.GTC, 1, Side.Buy, 100, 5, 5⟩])]
        [(99, [⟨OrderType.GTC, 2, Side.Sell, 99, 3, 3⟩])]).2.1 +
      Core.restQty 1 (Core.matchGo
        [(100, [⟨OrderType.GTC, 1, Side.Buy, 100, 5, 5⟩])]
        [(99, [⟨OrderType.GTC, 2, Side.Sell, 99, 3, 3⟩])]).2.2 +
      Core.tradeQty 1 (Core.matchGo
        [(100, [⟨OrderType.GTC, 1, Side.Buy, 100, 5, 5⟩])]
        [(99, [⟨OrderType.GTC, 2, Side.Sell, 99, 3, 3⟩])]).1 =
      Core.restQty 1 [(100, [⟨OrderType.GTC, 1, Side.Buy, 100, 5, 5⟩])] +
        Core.restQty 1 [(99, [⟨OrderType.GTC, 2, Side.Sell, 99, 3, 3⟩])] ∧
    Core.tradeQty 1
        ((((⟨[], []⟩ : Core.Orderbook).AddOrder
          (Core.MakeOrder OrderType.GTC 1 Side.Buy 100 5)).2).AddOrder
          ⟨OrderType.GTC, 2, Side.Sell, 99, 3, 3⟩).1 ≤ 5 := by
  refine ⟨?_, quantity_conserved.2.1 _ _ 1, ?_⟩
  · exact quantity_conserved.1 _
      (Core.Reachable.add _ OrderType.GTC 1 Side.Buy 100 5 Core.Reachable.empty)
      ⟨OrderType.GTC, 1, Side.Buy, 100, 5, 5⟩
      (by simp [Core.Orderbook.AddOrder, Core.Orderbook.ids, Core.ordersOf,
        Core.enqueueDesc, Core.Orderbook.matchBook, Core.matchGo,
        Core.MakeOrder, Core.Orderbook.findOrder])
  · exact quantity_conserved.2.2.2 _
      (Core.Reachable.add _ OrderType.GTC 1 Side.Buy 100 5 Core.Reachable.empty)
      ⟨OrderType.GTC, 1, Side.Buy, 100, 5, 5⟩
      (Or.inl (by simp [Core.Orderbook.AddOrder, Core.Orderbook.ids,
        Core.ordersOf, Core.enqueueDesc, Core.Orderbook.matchBook,
        Core.matchGo, Core.MakeOrder, Core.Orderbook.findOrder]))
      ⟨OrderType.GTC, 2, Side.Sell, 99, 3, 3⟩

/-! ## Claim C7: cancellation -/

namespace Core

/-- The half of the book an order's side refers to. -/
def sideLevels (s : Side) (b : Orderbook) : List (Int × List Order) :=
  match s with
  | Side.Buy => b.bids
  | Side.Sell => b.asks

/-- The FIFO queue of the level keyed `px`, empty when no such level exists
(`std::map::find`). -/
def levelOrders (px : Int) (ls : List (Int × List Order)) : List Order :=
  match ls.find? (fun p => p.1 = px) with
  | some p => p.2
  | none => []

lemma chain'_gt_nodup {l : List Int} (h : List.Chain' (· > ·) l) : l.Nodup :=
  (List.chain'_iff_pairwise.mp h).imp (fun hab => ne_of_gt hab)

lemma chain'_lt_nodup {l : List Int} (h : List.Chain' (· < ·) l) : l.Nodup :=
  (List.chain'_iff_pairwise.mp h).imp (fun hab => ne_of_lt hab)

lemma levelOrders_cons_eq {px : Int} {l0 : List Order} {rest} :
    levelOrders px ((px, l0) :: rest) = l0 := by
  rw [levelOrders, List.find?]
  simp

lemma levelOrders_cons_ne {p1 px : Int} {l0 : List Order} {rest}
    (h1 : p1 ≠ px) :
    levelOrders px ((p1, l0) :: rest) = levelOrders px rest := by
  rw [levelOrders, levelOrders, List.find?, decide_eq_false h1]

lemma levelOrders_of_mem {px : Int} {l : List Order}
    {ls : List (Int × List Order)} (hmem : (px, l) ∈ ls)
    (hpnodup : (ls.map Prod.fst).Nodup) : levelOrders px ls = l := by
  induction ls with
  | nil => simp at hmem
  | cons pl rest ih =>
    obtain ⟨p1, l0⟩ := pl
    simp only [List.map_cons, List.nodup_cons] at hpnodup
    by_cases h1 : p1 = px
    · subst h1
      rcases List.mem_cons.mp hmem with heq | hl2
      · obtain ⟨-, rfl⟩ := Prod.mk.injEq _ _ _ _ ▸ heq
        exact levelOrders_cons_eq
      · exact absurd (List.mem_map.mpr ⟨(p1, l), hl2, rfl⟩) hpnodup.1
    · have hmem2 : (px, l) ∈ rest := by
        rcases List.mem_cons.mp hmem with heq | hl2
        · exact absurd (congrArg Prod.fst heq).symm h1
        · exact hl2
      rw [levelOrders_cons_ne h1]
      exact ih hmem2 hpnodup.2

lemma eraseInLevels_size {px : Int} {id : Nat} {ls : List (Int × List Order)}
    (hpnodup : (ls.map Prod.fst).Nodup)
    (hfound : ∃ l, (px, l) ∈ ls ∧ id ∈ l.map Order.id) :
    (ordersOf (eraseInLevels px id ls)).length + 1 = (ordersOf ls).length := by
  induction ls with
  | nil =>
    rcases hfound with ⟨l, hl, _⟩
    simp at hl
  | cons pl rest ih =>
    obtain ⟨p1, l0⟩ := pl
    simp only [List.map_cons, List.nodup_cons] at hpnodup
    rw [eraseInLevels]
    split_ifs with h1 h2
    · subst h1
      have hidl0 : id ∈ l0.map Order.id := by
        rcases hfound with ⟨l, hl, hidl⟩
        rcases List.mem_cons.mp hl with heq | hl2
        · obtain ⟨-, rfl⟩ := Prod.mk.injEq _ _ _ _ ▸ heq
          exact hidl
        · exact absurd (List.mem_map.mpr ⟨(p1, l), hl2, rfl⟩) hpnodup.1
      have hlen := removeFirstById_length hidl0
      have h0 : (removeFirstById id l0).length = 0 := by
        rw [List.isEmpty_iff] at h2
        simp [h2]
      simp only [ordersOf_cons, List.length_append]
      omega
    · subst h1
      have hidl0 : id ∈ l0.map Order.id := by
        rcases hfound with ⟨l, hl, hidl⟩
        rcases List.mem_cons.mp hl with heq | hl2
        · obtain ⟨-, rfl⟩ := Prod.mk.injEq _ _ _ _ ▸ heq
          exact hidl
        · exact absurd (List.mem_map.mpr ⟨(p1, l), hl2, rfl⟩) hpnodup.1
      have hlen := removeFirstById_length hidl0
      simp only [ordersOf_cons, List.length_append]
      omega
    · have hfound2 : ∃ l, (px, l) ∈ rest ∧ id ∈ l.map Order.id := by
        rcases hfound with ⟨l, hl, hidl⟩
        rcases List.mem_cons.mp hl with heq | hl2
        · exact absurd (congrArg Prod.fst heq).symm h1
        · exact ⟨l, hl2, hidl⟩
      have := ih hpnodup.2 hfound2
      simp only [ordersOf_cons, List.length_append]
      omega

lemma eraseInLevels_not_mem {px : Int} {id : Nat}
    {ls : List (Int × List Order)}
    (hnodup : ((ordersOf ls).map Order.id).Nodup)
    (hpnodup : (ls.map Prod.fst).Nodup)
    (hfound : ∃ l, (px, l) ∈ ls ∧ id ∈ l.map Order.id) :
    id ∉ (ordersOf (eraseInLevels px id ls)).map Order.id := by
  induction ls with
  | nil =>
    rcases hfound with ⟨l, hl, _⟩
    simp at hl
  | cons pl rest ih =>
    obtain ⟨p1, l0⟩ := pl
    simp only [List.map_cons, List.nodup_cons] at hpnodup
    simp only [ordersOf_cons, List.map_append] at hnodup
    have hdisj := List.disjoint_of_nodup_append hnodup
    rw [eraseInLevels]
    split_ifs with h1 h2
    · subst h1
      have hidl0 : id ∈ l0.map Order.id := by
        rcases hfound with ⟨l, hl, hidl⟩
        rcases List.mem_cons.mp hl with heq | hl2
        · obtain ⟨-, rfl⟩ := Prod.mk.injEq _ _ _ _ ▸ heq
          exact hidl
        · exact absurd (List.mem_map.mpr ⟨(p1, l), hl2, rfl⟩) hpnodup.1
      intro hmem
      exact hdisj hidl0 hmem
    · subst h1
      have hidl0 : id ∈ l0.map Order.id := by
        rcases hfound with ⟨l, hl, hidl⟩
        rcases List.mem_cons.mp hl with heq | hl2
        · obtain ⟨-, rfl⟩ := Prod.mk.injEq _ _ _ _ ▸ heq
          exact hidl
        · exact absurd (List.mem_map.mpr ⟨(p1, l), hl2, rfl⟩) hpnodup.1
      simp only [ordersOf_cons, List.map_append, List.mem_append]
      rintro (hmem | hmem)
      · exact removeFirstById_not_mem (List.Nodup.of_append_left hnodup) hmem
      · exact hdisj hidl0 hmem
    · have hfound2 : ∃ l, (px, l) ∈ rest ∧ id ∈ l.map Order.id := by
        rcases hfound with ⟨l, hl, hidl⟩
        rcases List.mem_cons.mp hl with heq | hl2
        · exact absurd (congrArg Prod.fst heq).symm h1
        · exact ⟨l, hl2, hidl⟩
      simp only [ordersOf_cons, List.map_append, List.mem_append]
      rintro (hmem | hmem)
      · rcases hfound2 with ⟨l, hl2, hidl⟩
        have : id ∈ (ordersOf rest).map Order.id := by
          rcases List.mem_map.mp hidl with ⟨y, hy, hyid⟩
          refine List.mem_map.mpr ⟨y, ?_, hyid⟩
          simp only [ordersOf, List.mem_flatten]
          exact ⟨l, List.mem_map.mpr ⟨(px, l), hl2, rfl⟩, hy⟩
        exact (hdisj.symm this) hmem
      · exact ih (List.Nodup.of_append_right hnodup) hpnodup.2 hfound2 hmem

lemma eraseInLevels_level_iff {px : Int} {id : Nat}
    {ls : List (Int × List Order)}
    (hpnodup : (ls.map Prod.fst).Nodup)
    (hfound : ∃ l, (px, l) ∈ ls ∧ id ∈ l.map Order.id) :
    px ∈ (eraseInLevels px id ls).map Prod.fst ↔
      2 ≤ (levelOrders px ls).length := by
  induction ls with
  | nil =>
    rcases hfound with ⟨l, hl, _⟩
    simp at hl
  | cons pl rest ih =>
    obtain ⟨p1, l0⟩ := pl
    simp only [List.map_cons, List.nodup_cons] at hpnodup
    rw [eraseInLevels]
    split_ifs with h1 h2
    · subst h1
      have hidl0 : id ∈ l0.map Order.id := by
        rcases hfound with ⟨l, hl, hidl⟩
        rcases List.mem_cons.mp hl with heq | hl2
        · obtain ⟨-, rfl⟩ := Prod.mk.injEq _ _ _ _ ▸ heq
          exact hidl
        · exact absurd (List.mem_map.mpr ⟨(p1, l), hl2, rfl⟩) hpnodup.1
      rw [levelOrders_cons_eq]
      have hlen := removeFirstById_length hidl0
      have h0 : (removeFirstById id l0).length = 0 := by
        rw [List.isEmpty_iff] at h2
        simp [h2]
      constructor
      · intro hmem
        exact absurd hmem hpnodup.1
      · intro hge
        omega
    · subst h1
      have hidl0 : id ∈ l0.map Order.id := by
        rcases hfound with ⟨l, hl, hidl⟩
        rcases List.mem_cons.mp hl with heq | hl2
        · obtain ⟨-, rfl⟩ := Prod.mk.injEq _ _ _ _ ▸ heq
          exact hidl
        · exact absurd (List.mem_map.mpr ⟨(p1, l), hl2, rfl⟩) hpnodup.1
      rw [levelOrders_cons_eq]
      have hlen := removeFirstById_length hidl0
      have h0 : (removeFirstById id l0).length ≠ 0 := by
        rw [List.isEmpty_iff] at h2
        simpa [List.length_eq_zero] using h2
      constructor
      · intro _
        omega
      · intro _
        simp
    · have hfound2 : ∃ l, (px, l) ∈ rest ∧ id ∈ l.map Order.id := by
        rcases hfound with ⟨l, hl, hidl⟩
        rcases List.mem_cons.mp hl with heq | hl2
        · exact absurd (congrArg Prod.fst heq).symm h1
        · exact ⟨l, hl2, hidl⟩
      rw [levelOrders_cons_ne h1]
      simp only [List.map_cons, List.mem_cons]
      rw [ih hpnodup.2 hfound2]
      constructor
      · rintro (rfl | hmem)
        · exact absurd rfl h1
        · exact hmem
      · intro hge
        exact Or.inr hge

end Core

namespace Core

lemma CancelOrder_spec {b : Orderbook} {id : Nat} (hWF : WF b)
    (hid : id ∈ b.ids) :
    (b.CancelOrder id).size + 1 = b.size ∧ id ∉ (b.CancelOrder id).ids ∧
    ∀ o, b.findOrder id = some o →
      (o.px ∈ (sideLevels o.side (b.CancelOrder id)).map Prod.fst ↔
        2 ≤ (levelOrders o.px (sideLevels o.side b)).length) := by
  obtain ⟨hbs, has, hbne, hane, hblab, halab, hnodup, hunc⟩ := hWF
  obtain ⟨o, hfo⟩ := findOrder_mem_of_ids hid
  obtain ⟨hoid, hmem⟩ := findOrder_some hfo
  have hnodup2 : ((ordersOf b.bids).map Order.id ++
      (ordersOf b.asks).map Order.id).Nodup := hnodup
  have hdisj := List.disjoint_of_nodup_append hnodup2
  rcases hmem with hmemb | hmema
  · rcases (by simpa [ordersOf] using hmemb :
        ∃ l, (∃ a, (a, l) ∈ b.bids) ∧ o ∈ l) with ⟨l, ⟨a, hal⟩, hol⟩
    have hlab := hblab (a, l) hal o hol
    have hside : o.side = Side.Buy := hlab.2.1
    have hfound : ∃ l2, (o.px, l2) ∈ b.bids ∧ id ∈ l2.map Order.id := by
      refine ⟨l, ?_, List.mem_map.mpr ⟨o, hol, hoid⟩⟩
      rw [hlab.1]
      exact hal
    have hpnodup : (b.bids.map Prod.fst).Nodup := chain'_gt_nodup hbs
    have hcancel : b.CancelOrder id = ⟨eraseInLevels o.px id b.bids, b.asks⟩ := by
      rw [Orderbook.CancelOrder, hfo]
      simp only [hside]
    have hidb : id ∈ (ordersOf b.bids).map Order.id :=
      List.mem_map.mpr ⟨o, hmemb, hoid⟩
    refine ⟨?_, ?_, ?_⟩
    · rw [hcancel]
      simp only [Orderbook.size]
      have := @eraseInLevels_size o.px id _ hpnodup hfound
      omega
    · rw [hcancel]
      simp only [Orderbook.ids, List.mem_append]
      rintro (hmem2 | hmem2)
      · exact eraseInLevels_not_mem (List.Nodup.of_append_left hnodup2)
          hpnodup hfound hmem2
      · exact hdisj hidb hmem2
    · intro o2 hfo2
      rw [hfo] at hfo2
      injection hfo2 with hfo2
      subst hfo2
      rw [hcancel]
      simp only [sideLevels, hside]
      exact eraseInLevels_level_iff hpnodup hfound
  · rcases (by simpa [ordersOf] using hmema :
        ∃ l, (∃ a, (a, l) ∈ b.asks) ∧ o ∈ l) with ⟨l, ⟨a, hal⟩, hol⟩
    have hlab := halab (a, l) hal o hol
    have hside : o.side = Side.Sell := hlab.2.1
    have hfound : ∃ l2, (o.px, l2) ∈ b.asks ∧ id ∈ l2.map Order.id := by
      refine ⟨l, ?_, List.mem_map.mpr ⟨o, hol, hoid⟩⟩
      rw [hlab.1]
      exact hal
    have hpnodup : (b.asks.map Prod.fst).Nodup := chain'_lt_nodup has
    have hcancel : b.CancelOrder id = ⟨b.bids, eraseInLevels o.px id b.asks⟩ := by
      rw [Orderbook.CancelOrder, hfo]
      simp only [hside]
    have hida : id ∈ (ordersOf b.asks).map Order.id :=
      List.mem_map.mpr ⟨o, hmema, hoid⟩
    refine ⟨?_, ?_, ?_⟩
    · rw [hcancel]
      simp only [Orderbook.size]
      have := @eraseInLevels_size o.px id _ hpnodup hfound
      omega
    · rw [hcancel]
      simp only [Orderbook.ids, List.mem_append]
      rintro (hmem2 | hmem2)
      · exact (hdisj.symm hida) hmem2
      · exact eraseInLevels_not_mem (List.Nodup.of_append_right hnodup2)
          hpnodup hfound hmem2
    · intro o2 hfo2
      rw [hfo] at hfo2
      injection hfo2 with hfo2
      subst hfo2
      rw [hcancel]
      simp only [sideLevels, hside]
      exact eraseInLevels_level_iff hpnodup hfound

lemma CancelOrder_idem {b : Orderbook} {id : Nat} (hWF : WF b) :
    (b.CancelOrder id).CancelOrder id = b.CancelOrder id := by
  by_cases hid : id ∈ b.ids
  · exact CancelOrder_noop (CancelOrder_spec hWF hid).2.1
  · rw [CancelOrder_noop hid, CancelOrder_noop hid]

end Core

/-- C7.  `Cancel(orderId)` is a silent no-op when the id is unknown; on a
reachable book where the id rests, it removes exactly that order: the
resting-order count (the `lookup` size) decreases by exactly 1, the index
entry disappears, and the cancelled order's price level survives on its side
if and only if it held at least two orders; `CancelOrder` returns no trades
by its very type, and cancelling twice equals cancelling once. -/
theorem cancel_correct :
    (∀ (b : Core.Orderbook) (id : Nat), id ∉ b.ids → b.CancelOrder id = b) ∧
    (∀ (b : Core.Orderbook) (id : Nat), Core.Reachable b → id ∈ b.ids →
      (b.CancelOrder id).size + 1 = b.size ∧
      id ∉ (b.CancelOrder id).ids ∧
      ∀ o, b.findOrder id = some o →
        (o.px ∈ (Core.sideLevels o.side (b.CancelOrder id)).map Prod.fst ↔
          2 ≤ (Core.levelOrders o.px (Core.sideLevels o.side b)).length)) ∧
    (∀ (b : Core.Orderbook) (id : Nat), Core.Reachable b →
      (b.CancelOrder id).CancelOrder id = b.CancelOrder id) :=
  ⟨fun _ _ h => Core.CancelOrder_noop h,
    fun _ _ hr hid => Core.CancelOrder_spec (Core.Reachable_WF hr) hid,
    fun _ _ hr => Core.CancelOrder_idem (Core.Reachable_WF hr)⟩

/-- Witness for C7 on the reachable one-order book `{bid 100×5 (id 1)}`:
cancelling an unknown id is a no-op, cancelling id 1 removes exactly one
order, and double cancellation equals single cancellation. -/
theorem cancel_correct_witness :
    (Core.Orderbook.CancelOrder
        ⟨[(100, [⟨OrderType.GTC, 1, Side.Buy, 100, 5, 5⟩])], []⟩ 9 =
      ⟨[(100, [⟨OrderType.GTC, 1, Side.Buy, 100, 5, 5⟩])], []⟩) ∧
    ((Core.Orderbook.CancelOrder
        ⟨[(100, [⟨OrderType.GTC, 1, Side.Buy, 100, 5, 5⟩])], []⟩ 1).size + 1 =
      (⟨[(100, [⟨OrderType.GTC, 1, Side.Buy, 100, 5, 5⟩])], []⟩ :
        Core.Orderbook).size) ∧
    (Core.Orderbook.CancelOrder (Core.Orderbook.CancelOrder
        ⟨[(100, [⟨OrderType.GTC, 1, Side.Buy, 100, 5, 5⟩])], []⟩ 1) 1 =
      Core.Orderbook.CancelOrder
        ⟨[(100, [⟨OrderType.GTC, 1, Side.Buy, 100, 5, 5⟩])], []⟩ 1) := by
  have heq : (((⟨[], []⟩ : Core.Orderbook).AddOrder
      (Core.MakeOrder OrderType.GTC 1 Side.Buy 100 5)).2) =
      ⟨[(100, [⟨OrderType.GTC, 1, Side.Buy, 100, 5, 5⟩])], []⟩ := by
    simp [Core.Orderbook.AddOrder, Core.Orderbook.ids, Core.ordersOf,
      Core.enqueueDesc, Core.Orderbook.matchBook, Core.matchGo,
      Core.MakeOrder, Core.Orderbook.findOrder]
  have hreach : Core.Reachable
      (⟨[(100, [⟨OrderType.GTC, 1, Side.Buy, 100, 5, 5⟩])], []⟩ :
        Core.Orderbook) := by
    rw [← heq]
    exact Core.Reachable.add _ OrderType.GTC 1 Side.Buy 100 5
      Core.Reachable.empty
  exact ⟨cancel_correct.1 _ 9 (by decide),
    (cancel_correct.2.1 _ 1 hreach (by decide)).1,
    cancel_correct.2.2 _ 1 hreach⟩

/-! ## Claim C1: trade fields of the interactive book -/

namespace Sim

/-- All orders of a level list, best level first, FIFO within each level. -/
def ordersOf (ls : List (Int × List Order)) : List Order :=
  (ls.map Prod.snd).flatten

@[simp] lemma ordersOf_eq_nil : ordersOf [] = [] := rfl

@[simp] lemma ordersOf_eq_cons (p : Int × List Order) (rest) :
    ordersOf (p :: rest) = p.2 ++ ordersOf rest := by
  simp [ordersOf]

/-- Total quantity of a list of trade events. -/
def sumQty (evs : List TradeEvent) : Nat := (evs.map TradeEvent.qty).sum

@[simp] lemma sumQty_nil : sumQty [] = 0 := rfl

@[simp] lemma sumQty_cons (ev : TradeEvent) (evs) :
    sumQty (ev :: evs) = ev.qty + sumQty evs := by
  simp [sumQty]

/-- The resting participant's id in an event, given the aggressor's side. -/
def restingId (s : Side) (ev : TradeEvent) : Nat :=
  match s with
  | Side.Buy => ev.askId
  | Side.Sell => ev.bidId

/-- Specification of a trade sequence against the pre-call opposite-side
levels: each event matches some order `r` resting at its price level,
records the aggressor's id on the aggressor side and `r.id` on the resting
side, carries the aggressor side, and its quantity is
`min(incoming remainder at that point, r's resting remainder)`, the
incoming remainder being threaded down by the quantities already matched. -/
def TradesOK (oid : Nat) (s : Side) :
    Nat → List (Int × List Order) → List TradeEvent → Prop
  | _, _, [] => True
  | orem, levels, ev :: evs =>
    (∃ l r, (ev.px, l) ∈ levels ∧ r ∈ l ∧
      (match s with
        | Side.Buy => ev.bidId = oid ∧ ev.askId = r.id
        | Side.Sell => ev.bidId = r.id ∧ ev.askId = oid) ∧
      ev.aggressor = s ∧ ev.qty = min orem r.rem) ∧
    TradesOK oid s (orem - ev.qty) levels evs

lemma TradesOK_mono {oid : Nat} {s : Side} {orem : Nat}
    {L1 L2 : List (Int × List Order)} {evs : List TradeEvent}
    (hsub : ∀ px l, (px, l) ∈ L1 → ∃ l2, (px, l2) ∈ L2 ∧ l ⊆ l2)
    (h : TradesOK oid s orem L1 evs) : TradesOK oid s orem L2 evs := by
  induction evs generalizing orem with
  | nil => trivial
  | cons ev rest ih =>
    obtain ⟨⟨l, r, hl, hr, hids, hagg, hq⟩, htail⟩ := h
    obtain ⟨l2, hl2, hsub2⟩ := hsub ev.px l hl
    exact ⟨⟨l2, r, hl2, hsub2 hr, hids, hagg, hq⟩, ih htail⟩

lemma TradesOK_append {oid : Nat} {s : Side} {orem : Nat}
    {L : List (Int × List Order)} {evs1 evs2 : List TradeEvent}
    (h1 : TradesOK oid s orem L evs1)
    (h2 : TradesOK oid s (orem - sumQty evs1) L evs2) :
    TradesOK oid s orem L (evs1 ++ evs2) := by
  induction evs1 generalizing orem with
  | nil => simpa using h2
  | cons ev rest ih =>
    obtain ⟨hev, htail⟩ := h1
    refine ⟨hev, ih htail ?_⟩
    rw [sumQty_cons, ← Nat.sub_sub] at h2
    exact h2

lemma crossLevelBuy_rem (oid : Nat) (apx : Int) (now : Nat) :
    ∀ (orem : Nat) (aq : List Order),
      (crossLevelBuy oid apx now orem aq).2.1 +
        sumQty (crossLevelBuy oid apx now orem aq).1 = orem := by
  intro orem aq
  induction aq generalizing orem with
  | nil => simp [crossLevelBuy]
  | cons top rest ih =>
    rw [crossLevelBuy]
    simp only []
    split_ifs with h1 h2
    · simp
    · have := ih (orem - min orem top.rem)
      simp only [sumQty_cons]
      have hmin : min orem top.rem ≤ orem := Nat.min_le_left _ _
      omega
    · simp only [sumQty_cons, sumQty_nil]
      have hmin : min orem top.rem ≤ orem := Nat.min_le_left _ _
      omega

lemma crossLevelBuy_ok (oid : Nat) (apx : Int) (now : Nat) :
    ∀ (orem : Nat) (aq : List Order),
      TradesOK oid Side.Buy orem [(apx, aq)]
        (crossLevelBuy oid apx now orem aq).1 := by
  intro orem aq
  induction aq generalizing orem with
  | nil => simp [crossLevelBuy, TradesOK]
  | cons top rest ih =>
    rw [crossLevelBuy]
    simp only []
    split_ifs with h1 h2
    · simp [TradesOK]
    · refine ⟨⟨top :: rest, top, by simp, by simp, ⟨rfl, rfl⟩, rfl, rfl⟩, ?_⟩
      exact TradesOK_mono
        (by intro px l hmem
            injection List.mem_singleton.mp hmem with e1 e2
            subst e1
            subst e2
            exact ⟨top :: l, by simp, fun x hx => List.mem_cons_of_mem top hx⟩)
        (ih (orem - min orem top.rem))
    · exact ⟨⟨top :: rest, top, by simp, by simp, ⟨rfl, rfl⟩, rfl, rfl⟩,
        trivial⟩

lemma crossBuy_rem (oid : Nat) (opx : Int) (now : Nat) :
    ∀ (orem : Nat) (levels : List (Int × List Order)),
      (crossBuy oid opx now orem levels).2.1 +
        sumQty (crossBuy oid opx now orem levels).1 = orem := by
  intro orem levels
  induction levels generalizing orem with
  | nil => simp [crossBuy]
  | cons lv rest ih =>
    obtain ⟨apx, aq⟩ := lv
    rw [crossBuy]
    split_ifs with h1
    · simp
    · simp only []
      cases hlv : (crossLevelBuy oid apx now orem aq).2.2 with
      | cons x xs =>
        simpa using crossLevelBuy_rem oid apx now orem aq
      | nil =>
        have h2 := crossLevelBuy_rem oid apx now orem aq
        have h3 := ih (crossLevelBuy oid apx now orem aq).2.1
        simp only [sumQty, List.map_append, List.sum_append]
        simp only [sumQty] at h2 h3
        omega

lemma crossBuy_ok (oid : Nat) (opx : Int) (now : Nat) :
    ∀ (orem : Nat) (levels : List (Int × List Order)),
      TradesOK oid Side.Buy orem levels
        (crossBuy oid opx now orem levels).1 := by
  intro orem levels
  induction levels generalizing orem with
  | nil => simp [crossBuy, TradesOK]
  | cons lv rest ih =>
    obtain ⟨apx, aq⟩ := lv
    rw [crossBuy]
    split_ifs with h1
    · simp [TradesOK]
    · simp only []
      cases hlv : (crossLevelBuy oid apx now orem aq).2.2 with
      | cons x xs =>
        exact TradesOK_mono
          (by intro px l hmem
              injection List.mem_singleton.mp hmem with e1 e2
              subst e1
              subst e2
              exact ⟨l, by simp, fun x hx => hx⟩)
          (crossLevelBuy_ok oid apx now orem aq)
      | nil =>
        refine TradesOK_append
          (TradesOK_mono
            (by intro px l hmem
                injection List.mem_singleton.mp hmem with e1 e2
                subst e1
                subst e2
                exact ⟨l, by simp, fun x hx => hx⟩)
            (crossLevelBuy_ok oid apx now orem aq)) ?_
        have h2 := crossLevelBuy_rem oid apx now orem aq
        have h3 : (crossLevelBuy oid apx now orem aq).2.1 =
            orem - sumQty (crossLevelBuy oid apx now orem aq).1 := by omega
        rw [← h3]
        exact TradesOK_mono
          (by intro px l hmem
              exact ⟨l, by simp [hmem], fun x hx => hx⟩)
          (ih (crossLevelBuy oid apx now orem aq).2.1)

lemma crossLevelSell_rem (oid : Nat) (bpx : Int) (now : Nat) :
    ∀ (orem : Nat) (bq : List Order),
      (crossLevelSell oid bpx now orem bq).2.1 +
        sumQty (crossLevelSell oid bpx now orem bq).1 = orem := by
  intro orem bq
  induction bq generalizing orem with
  | nil => simp [crossLevelSell]
  | cons top rest ih =>
    rw [crossLevelSell]
    simp only []
    split_ifs with h1 h2
    · simp
    · have := ih (orem - min orem top.rem)
      simp only [sumQty_cons]
      have hmin : min orem top.rem ≤ orem := Nat.min_le_left _ _
      omega
    · simp only [sumQty_cons, sumQty_nil]
      have hmin : min orem top.rem ≤ orem := Nat.min_le_left _ _
      omega

lemma crossLevelSell_ok (oid : Nat) (bpx : Int) (now : Nat) :
    ∀ (orem : Nat) (bq : List Order),
      TradesOK oid Side.Sell orem [(bpx, bq)]
        (crossLevelSell oid bpx now orem bq).1 := by
  intro orem bq
  induction bq generalizing orem with
  | nil => simp [crossLevelSell, TradesOK]
  | cons top rest ih =>
    rw [crossLevelSell]
    simp only []
    split_ifs with h1 h2
    · simp [TradesOK]
    · refine ⟨⟨top :: rest, top, by simp, by simp, ⟨rfl, rfl⟩, rfl, rfl⟩, ?_⟩
      exact TradesOK_mono
        (by intro px l hmem
            injection List.mem_singleton.mp hmem with e1 e2
            subst e1
            subst e2
            exact ⟨top :: l, by simp, fun x hx => List.mem_cons_of_mem top hx⟩)
        (ih (orem - min orem top.rem))
    · exact ⟨⟨top :: rest, top, by simp, by simp, ⟨rfl, rfl⟩, rfl, rfl⟩,
        trivial⟩

lemma crossSell_rem (oid : Nat) (opx : Int) (now : Nat) :
    ∀ (orem : Nat) (levels : List (Int × List Order)),
      (crossSell oid opx now orem levels).2.1 +
        sumQty (crossSell oid opx now orem levels).1 = orem := by
  intro orem levels
  induction levels generalizing orem with
  | nil => simp [crossSell]
  | cons lv rest ih =>
    obtain ⟨bpx, bq⟩ := lv
    rw [crossSell]
    split_ifs with h1
    · simp
    · simp only []
      cases hlv : (crossLevelSell oid bpx now orem bq).2.2 with
      | cons x xs =>
        simpa using crossLevelSell_rem oid bpx now orem bq
      | nil =>
        have h2 := crossLevelSell_rem oid bpx now orem bq
        have h3 := ih (crossLevelSell oid bpx now orem bq).2.1
        simp only [sumQty, List.map_append, List.sum_append]
        simp only [sumQty] at h2 h3
        omega

lemma crossSell_ok (oid : Nat) (opx : Int) (now : Nat) :
    ∀ (orem : Nat) (levels : List (Int × List Order)),
      TradesOK oid Side.Sell orem levels
        (crossSell oid opx now orem levels).1 := by
  intro orem levels
  induction levels generalizing orem with
  | nil => simp [crossSell, TradesOK]
  | cons lv rest ih =>
    obtain ⟨bpx, bq⟩ := lv
    rw [crossSell]
    split_ifs with h1
    · simp [TradesOK]
    · simp only []
      cases hlv : (crossLevelSell oid bpx now orem bq).2.2 with
      | cons x xs =>
        exact TradesOK_mono
          (by intro px l hmem
              injection List.mem_singleton.mp hmem with e1 e2
              subst e1
              subst e2
              exact ⟨l, by simp, fun x hx => hx⟩)
          (crossLevelSell_ok oid bpx now orem bq)
      | nil =>
        refine TradesOK_append
          (TradesOK_mono
            (by intro px l hmem
                injection List.mem_singleton.mp hmem with e1 e2
                subst e1
                subst e2
                exact ⟨l, by simp, fun x hx => hx⟩)
            (crossLevelSell_ok oid bpx now orem bq)) ?_
        have h2 := crossLevelSell_rem oid bpx now orem bq
        have h3 : (crossLevelSell oid bpx now orem bq).2.1 =
            orem - sumQty (crossLevelSell oid bpx now orem bq).1 := by omega
        rw [← h3]
        exact TradesOK_mono
          (by intro px l hmem
              exact ⟨l, by simp [hmem], fun x hx => hx⟩)
          (ih (crossLevelSell oid bpx now orem bq).2.1)


end Sim

/-- C1.  Every trade emitted by one `Orderbook::add` call matches some order
`r` resting at the recorded price level on the opposite side of the pre-call
book: the recorded trade price is the resting order's level price — never
taken from the aggressor's limit —, the event carries the aggressor's id on
its own side and `r.id` on the resting side, and the matched quantity is
exactly `min(incoming remaining at that moment, r's remaining)`, where the
incoming remaining is the original quantity minus everything matched by the
earlier trades of the same call. -/
theorem trade_fields (b : Sim.Orderbook) (o : Sim.Order) (now : Nat) :
    Sim.TradesOK o.id o.side o.rem
      (match o.side with
        | Side.Buy => b.asks
        | Side.Sell => b.bids)
      (b.add o now).1 := by
  rw [Sim.Orderbook.add]
  split_ifs with h1
  · cases o.side <;> exact trivial
  · cases hside : o.side with
    | Buy =>
      simp only [hside]
      split_ifs with h2 <;> exact Sim.crossBuy_ok o.id o.px now o.rem b.asks
    | Sell =>
      simp only [hside]
      split_ifs with h2 <;> exact Sim.crossSell_ok o.id o.px now o.rem b.bids

/-! ## Claim C3: price-time priority -/

namespace Sim

/-- The side an incoming order of side `s` crosses against. -/
def opposite (b : Orderbook) (s : Side) : List (Int × List Order) :=
  match s with
  | Side.Buy => b.asks
  | Side.Sell => b.bids

/-- The side an incoming order of side `s` rests on. -/
def ownSide (b : Orderbook) (s : Side) : List (Int × List Order) :=
  match s with
  | Side.Buy => b.bids
  | Side.Sell => b.asks

/-- The FIFO queue at the level keyed `px` (`std::map::find` semantics). -/
def levelOrders (px : Int) (ls : List (Int × List Order)) : List Order :=
  match ls.find? (fun p => p.1 = px) with
  | some p => p.2
  | none => []

lemma crossLevelBuy_take (oid : Nat) (apx : Int) (now : Nat) :
    ∀ (orem : Nat) (aq : List Order),
      ((crossLevelBuy oid apx now orem aq).1.map (restingId Side.Buy) =
        (aq.map Order.id).take (crossLevelBuy oid apx now orem aq).1.length) ∧
      (crossLevelBuy oid apx now orem aq).1.length ≤ aq.length ∧
      ((crossLevelBuy oid apx now orem aq).2.2 = [] →
        (crossLevelBuy oid apx now orem aq).1.length = aq.length) ∧
      ∃ d, (crossLevelBuy oid apx now orem aq).2.2.map Order.id =
        (aq.map Order.id).drop d := by
  intro orem aq
  induction aq generalizing orem with
  | nil => simp [crossLevelBuy]
  | cons top rest ih =>
    rw [crossLevelBuy]
    simp only []
    split_ifs with h1 h2
    · refine ⟨by simp, by simp, by simp, 0, by simp⟩
    · obtain ⟨iht, ihl, ihf, d, ihd⟩ := ih (orem - min orem top.rem)
      refine ⟨?_, by simp only [List.length_cons, List.map_cons]; omega,
        ?_, d + 1, by simpa using ihd⟩
      · simp only [List.map_cons, List.length_cons, List.take_succ_cons,
          restingId]
        rw [iht]
      · intro hnil
        simp only [List.length_cons]
        rw [ihf hnil]
    · refine ⟨by simp [restingId], by simp, by simp, 0, by simp⟩

lemma crossBuy_take (oid : Nat) (opx : Int) (now : Nat) :
    ∀ (orem : Nat) (levels : List (Int × List Order)),
      ((crossBuy oid opx now orem levels).1.map (restingId Side.Buy) =
        ((ordersOf levels).map Order.id).take
          (crossBuy oid opx now orem levels).1.length) ∧
      ∃ d, (ordersOf (crossBuy oid opx now orem levels).2.2).map Order.id =
        ((ordersOf levels).map Order.id).drop d := by
  intro orem levels
  induction levels generalizing orem with
  | nil => simp [crossBuy]
  | cons lv rest ih =>
    obtain ⟨apx, aq⟩ := lv
    rw [crossBuy]
    split_ifs with h1
    · exact ⟨by simp, 0, by simp⟩
    · simp only []
      obtain ⟨lt1, ll1, lf1, d1, ld1⟩ := crossLevelBuy_take oid apx now orem aq
      cases hlv : (crossLevelBuy oid apx now orem aq).2.2 with
      | cons x xs =>
        constructor
        · simp only [ordersOf_eq_cons, List.map_append]
          rw [lt1, List.take_append_eq_append_take,
            Nat.sub_eq_zero_of_le (by simpa using ll1), List.take_zero,
            List.append_nil]
        · refine ⟨d1, ?_⟩
          have hd1 : d1 ≤ (aq.map Order.id).length := by
            by_contra hgt
            push_neg at hgt
            rw [hlv, List.drop_eq_nil_of_le (le_of_lt hgt)] at ld1
            simp at ld1
          calc (ordersOf ((apx, x :: xs) :: rest)).map Order.id
              = (x :: xs).map Order.id ++ (ordersOf rest).map Order.id := by
                simp [ordersOf_eq_cons]
            _ = (aq.map Order.id).drop d1 ++ (ordersOf rest).map Order.id := by
                rw [← hlv, ld1]
            _ = ((aq.map Order.id) ++ (ordersOf rest).map Order.id).drop d1 := by
                rw [List.drop_append_eq_append_drop,
                  Nat.sub_eq_zero_of_le hd1, List.drop_zero]
            _ = ((ordersOf ((apx, aq) :: rest)).map Order.id).drop d1 := by
                simp [ordersOf_eq_cons]
      | nil =>
        obtain ⟨t2, d2, ld2⟩ := ih (crossLevelBuy oid apx now orem aq).2.1
        have hfull := lf1 hlv
        constructor
        · have e1 : (crossLevelBuy oid apx now orem aq).1.map
              (restingId Side.Buy) = aq.map Order.id := by
            rw [lt1, hfull]
            exact List.take_of_length_le (by simp)
          simp only [List.map_append, List.length_append, ordersOf_eq_cons]
          rw [e1, t2, List.take_append_eq_append_take]
          congr 1
          · exact (List.take_of_length_le (by simp [hfull])).symm
          · congr 1
            simp [hfull]
        · have hA : (aq.map Order.id).drop
              ((aq.map Order.id).length + d2) = [] :=
            List.drop_eq_nil_of_le (by omega)
          have hidx : (aq.map Order.id).length + d2 -
              (aq.map Order.id).length = d2 := by omega
          refine ⟨(aq.map Order.id).length + d2, ?_⟩
          simp only [ordersOf_eq_cons, List.map_append]
          rw [List.drop_append_eq_append_drop, hA, hidx, List.nil_append, ld2]

lemma crossLevelSell_take (oid : Nat) (bpx : Int) (now : Nat) :
    ∀ (orem : Nat) (bq : List Order),
      ((crossLevelSell oid bpx now orem bq).1.map (restingId Side.Sell) =
        (bq.map Order.id).take (crossLevelSell oid bpx now orem bq).1.length) ∧
      (crossLevelSell oid bpx now orem bq).1.length ≤ bq.length ∧
      ((crossLevelSell oid bpx now orem bq).2.2 = [] →
        (crossLevelSell oid bpx now orem bq).1.length = bq.length) ∧
      ∃ d, (crossLevelSell oid bpx now orem bq).2.2.map Order.id =
        (bq.map Order.id).drop d := by
  intro orem bq
  induction bq generalizing orem with
  | nil => simp [crossLevelSell]
  | cons top rest ih =>
    rw [crossLevelSell]
    simp only []
    split_ifs with h1 h2
    · refine ⟨by simp, by simp, by simp, 0, by simp⟩
    · obtain ⟨iht, ihl, ihf, d, ihd⟩ := ih (orem - min orem top.rem)
      refine ⟨?_, by simp only [List.length_cons, List.map_cons]; omega,
        ?_, d + 1, by simpa using ihd⟩
      · simp only [List.map_cons, List.length_cons, List.take_succ_cons,
          restingId]
        rw [iht]
      · intro hnil
        simp only [List.length_cons]
        rw [ihf hnil]
    · refine ⟨by simp [restingId], by simp, by simp, 0, by simp⟩

lemma crossSell_take (oid : Nat) (opx : Int) (now : Nat) :
    ∀ (orem : Nat) (levels : List (Int × List Order)),
      ((crossSell oid opx now orem levels).1.map (restingId Side.Sell) =
        ((ordersOf levels).map Order.id).take
          (crossSell oid opx now orem levels).1.length) ∧
      ∃ d, (ordersOf (crossSell oid opx now orem levels).2.2).map Order.id =
        ((ordersOf levels).map Order.id).drop d := by
  intro orem levels
  induction levels generalizing orem with
  | nil => simp [crossSell]
  | cons lv rest ih =>
    obtain ⟨bpx, bq⟩ := lv
    rw [crossSell]
    split_ifs with h1
    · exact ⟨by simp, 0, by simp⟩
    · simp only []
      obtain ⟨lt1, ll1, lf1, d1, ld1⟩ := crossLevelSell_take oid bpx now orem bq
      cases hlv : (crossLevelSell oid bpx now orem bq).2.2 with
      | cons x xs =>
        constructor
        · simp only [ordersOf_eq_cons, List.map_append]
          rw [lt1, List.take_append_eq_append_take,
            Nat.sub_eq_zero_of_le (by simpa using ll1), List.take_zero,
            List.append_nil]
        · refine ⟨d1, ?_⟩
          have hd1 : d1 ≤ (bq.map Order.id).length := by
            by_contra hgt
            push_neg at hgt
            rw [hlv, List.drop_eq_nil_of_le (le_of_lt hgt)] at ld1
            simp at ld1
          calc (ordersOf ((bpx, x :: xs) :: rest)).map Order.id
              = (x :: xs).map Order.id ++ (ordersOf rest).map Order.id := by
                simp [ordersOf_eq_cons]
            _ = (bq.map Order.id).drop d1 ++ (ordersOf rest).map Order.id := by
                rw [← hlv, ld1]
            _ = ((bq.map Order.id) ++ (ordersOf rest).map Order.id).drop d1 := by
                rw [List.drop_append_eq_append_drop,
                  Nat.sub_eq_zero_of_le hd1, List.drop_zero]
            _ = ((ordersOf ((bpx, bq) :: rest)).map Order.id).drop d1 := by
                simp [ordersOf_eq_cons]
      | nil =>
        obtain ⟨t2, d2, ld2⟩ := ih (crossLevelSell oid bpx now orem bq).2.1
        have hfull := lf1 hlv
        constructor
        · have e1 : (crossLevelSell oid bpx now orem bq).1.map
              (restingId Side.Sell) = bq.map Order.id := by
            rw [lt1, hfull]
            exact List.take_of_length_le (by simp)
          simp only [List.map_append, List.length_append, ordersOf_eq_cons]
          rw [e1, t2, List.take_append_eq_append_take]
          congr 1
          · exact (List.take_of_length_le (by simp [hfull])).symm
          · congr 1
            simp [hfull]
        · have hA : (bq.map Order.id).drop
              ((bq.map Order.id).length + d2) = [] :=
            List.drop_eq_nil_of_le (by omega)
          have hidx : (bq.map Order.id).length + d2 -
              (bq.map Order.id).length = d2 := by omega
          refine ⟨(bq.map Order.id).length + d2, ?_⟩
          simp only [ordersOf_eq_cons, List.map_append]
          rw [List.drop_append_eq_append_drop, hA, hidx, List.nil_append, ld2]


end Sim

namespace Sim

lemma levelOrders_hit {px : Int} {l0 : List Order} {rest} :
    levelOrders px ((px, l0) :: rest) = l0 := by
  rw [levelOrders, List.find?]
  simp

lemma levelOrders_miss {p1 px : Int} {l0 : List Order} {rest}
    (h1 : p1 ≠ px) :
    levelOrders px ((p1, l0) :: rest) = levelOrders px rest := by
  rw [levelOrders, levelOrders, List.find?, decide_eq_false h1]

lemma levelOrders_all_ne {px : Int} {ls : List (Int × List Order)}
    (h : ∀ p ∈ ls, p.1 ≠ px) : levelOrders px ls = [] := by
  induction ls with
  | nil => rfl
  | cons p rest ih =>
    obtain ⟨p1, l⟩ := p
    rw [levelOrders_miss (h (p1, l) (by simp))]
    exact ih (fun p hp => h p (by simp [hp]))

lemma enqueueDesc_levelOrders (o : Order) (ls)
    (hs : List.Chain' (· > ·) (ls.map Prod.fst)) :
    levelOrders o.px (enqueueDesc o ls) = levelOrders o.px ls ++ [o] := by
  induction ls with
  | nil => simp [enqueueDesc, levelOrders, List.find?]
  | cons p rest ih =>
    obtain ⟨p1, l⟩ := p
    simp only [List.map_cons] at hs
    rw [enqueueDesc]
    split_ifs with h1 h2
    · rw [levelOrders_hit, levelOrders_all_ne, List.nil_append]
      intro p hp
      rcases List.mem_cons.mp hp with rfl | hp2
      · exact ne_of_lt h1
      · have := (List.pairwise_cons.mp (List.chain'_iff_pairwise.mp hs)).1
          p.1 (List.mem_map.mpr ⟨p, hp2, rfl⟩)
        omega
    · subst h2
      rw [levelOrders_hit, levelOrders_hit]
    · have hne : p1 ≠ o.px := h2
      rw [levelOrders_miss hne, levelOrders_miss hne]
      exact ih hs.tail

lemma enqueueAsc_levelOrders (o : Order) (ls)
    (hs : List.Chain' (· < ·) (ls.map Prod.fst)) :
    levelOrders o.px (enqueueAsc o ls) = levelOrders o.px ls ++ [o] := by
  induction ls with
  | nil => simp [enqueueAsc, levelOrders, List.find?]
  | cons p rest ih =>
    obtain ⟨p1, l⟩ := p
    simp only [List.map_cons] at hs
    rw [enqueueAsc]
    split_ifs with h1 h2
    · rw [levelOrders_hit, levelOrders_all_ne, List.nil_append]
      intro p hp
      rcases List.mem_cons.mp hp with rfl | hp2
      · exact ne_of_gt h1
      · have := (List.pairwise_cons.mp (List.chain'_iff_pairwise.mp hs)).1
          p.1 (List.mem_map.mpr ⟨p, hp2, rfl⟩)
        omega
    · subst h2
      rw [levelOrders_hit, levelOrders_hit]
    · have hne : p1 ≠ o.px := h2
      rw [levelOrders_miss hne, levelOrders_miss hne]
      exact ih hs.tail

end Sim

/-- C3.  Price-time priority of the interactive book.
(i) The resting participants of the trades emitted by one `add` call are
exactly the first `k` orders of the pre-call opposite side read best price
first and FIFO within each level (`k` = number of trades): the crossing loop
always takes the front of the best opposite level, so two orders at the same
price are matched in arrival order under every interleaving.
(ii) The opposite side that remains is a suffix of that order sequence
(its id sequence is a `drop`), so relative priority of surviving orders is
preserved across any further submissions.
(iii) A non-zero GoodTillCancel remainder is appended at the back of its own
price level (on a price-sorted book); if the order fully fills, its own side
is untouched. -/
theorem price_time_priority :
    (∀ (b : Sim.Orderbook) (o : Sim.Order) (now : Nat),
      (b.add o now).1.map (Sim.restingId o.side) =
        ((Sim.ordersOf (Sim.opposite b o.side)).map Sim.Order.id).take
          (b.add o now).1.length) ∧
    (∀ (b : Sim.Orderbook) (o : Sim.Order) (now : Nat), ∃ d,
      (Sim.ordersOf (Sim.opposite (b.add o now).2 o.side)).map Sim.Order.id =
        ((Sim.ordersOf (Sim.opposite b o.side)).map Sim.Order.id).drop d) ∧
    (∀ (b : Sim.Orderbook) (o : Sim.Order) (now : Nat),
      o.type = OrderType.GTC →
      List.Chain' (· > ·) (b.bids.map Prod.fst) →
      List.Chain' (· < ·) (b.asks.map Prod.fst) →
      Sim.ownSide (b.add o now).2 o.side = Sim.ownSide b o.side ∨
      Sim.levelOrders o.px (Sim.ownSide (b.add o now).2 o.side) =
        Sim.levelOrders o.px (Sim.ownSide b o.side) ++
          [{ o with rem := o.rem - Sim.sumQty (b.add o now).1 }]) := by
  refine ⟨?_, ?_, ?_⟩
  · intro b o now
    rw [Sim.Orderbook.add]
    split_ifs with h1
    · simp
    · cases hside : o.side with
      | Buy =>
        simp only [hside, Sim.opposite]
        split_ifs with h2 <;>
          exact (Sim.crossBuy_take o.id o.px now o.rem b.asks).1
      | Sell =>
        simp only [hside, Sim.opposite]
        split_ifs with h2 <;>
          exact (Sim.crossSell_take o.id o.px now o.rem b.bids).1
  · intro b o now
    rw [Sim.Orderbook.add]
    split_ifs with h1
    · exact ⟨0, by simp⟩
    · cases hside : o.side with
      | Buy =>
        simp only [hside, Sim.opposite]
        split_ifs with h2 <;>
          exact (Sim.crossBuy_take o.id o.px now o.rem b.asks).2
      | Sell =>
        simp only [hside, Sim.opposite]
        split_ifs with h2 <;>
          exact (Sim.crossSell_take o.id o.px now o.rem b.bids).2
  · intro b o now hgtc hbs has
    rw [Sim.Orderbook.add]
    split_ifs with h1
    · exact Or.inl rfl
    · cases hside : o.side with
      | Buy =>
        simp only [hside, Sim.ownSide]
        split_ifs with h2
        · refine Or.inr ?_
          have hrem := Sim.crossBuy_rem o.id o.px now o.rem b.asks
          have he := Sim.enqueueDesc_levelOrders
            { o with rem := (Sim.crossBuy o.id o.px now o.rem b.asks).2.1 }
            b.bids hbs
          have hval : (Sim.crossBuy o.id o.px now o.rem b.asks).2.1 =
              o.rem - Sim.sumQty (Sim.crossBuy o.id o.px now o.rem b.asks).1 := by
            omega
          dsimp only
          rw [hval]
          rw [hside, hval] at he
          dsimp only at he
          exact he
        · exact Or.inl rfl
      | Sell =>
        simp only [hside, Sim.ownSide]
        split_ifs with h2
        · refine Or.inr ?_
          have hrem := Sim.crossSell_rem o.id o.px now o.rem b.bids
          have he := Sim.enqueueAsc_levelOrders
            { o with rem := (Sim.crossSell o.id o.px now o.rem b.bids).2.1 }
            b.asks has
          have hval : (Sim.crossSell o.id o.px now o.rem b.bids).2.1 =
              o.rem - Sim.sumQty (Sim.crossSell o.id o.px now o.rem b.bids).1 := by
            omega
          dsimp only
          rw [hval]
          rw [hside, hval] at he
          dsimp only at he
          exact he
        · exact Or.inl rfl

/-- Witness for C3 at a concrete input: a buy GTC 101×10 against asks
100×3, 101×3 matches the two resting orders in price-FIFO order and rests
its remainder 4 at the back of the (new) level 101 on the bid side. -/
theorem price_time_priority_witness :
    ((Sim.Orderbook.add ⟨[], [(100, [⟨1, Side.Sell, OrderType.GTC, 100, 3⟩]),
        (101, [⟨2, Side.Sell, OrderType.GTC, 101, 3⟩])]⟩
        ⟨9, Side.Buy, OrderType.GTC, 101, 10⟩ 5).1.map
          (Sim.restingId Side.Buy) =
      ((Sim.ordersOf (Sim.opposite ⟨[], [(100,
        [⟨1, Side.Sell, OrderType.GTC, 100, 3⟩]),
        (101, [⟨2, Side.Sell, OrderType.GTC, 101, 3⟩])]⟩ Side.Buy)).map
          Sim.Order.id).take
        (Sim.Orderbook.add ⟨[], [(100, [⟨1, Side.Sell, OrderType.GTC, 100, 3⟩]),
          (101, [⟨2, Side.Sell, OrderType.GTC, 101, 3⟩])]⟩
          ⟨9, Side.Buy, OrderType.GTC, 101, 10⟩ 5).1.length) ∧
    (Sim.levelOrders 101 (Sim.ownSide (Sim.Orderbook.add ⟨[], [(100,
        [⟨1, Side.Sell, OrderType.GTC, 100, 3⟩]),
        (101, [⟨2, Side.Sell, OrderType.GTC, 101, 3⟩])]⟩
        ⟨9, Side.Buy, OrderType.GTC, 101, 10⟩ 5).2 Side.Buy) =
      Sim.levelOrders 101 (Sim.ownSide ⟨[], [(100,
        [⟨1, Side.Sell, OrderType.GTC, 100, 3⟩]),
        (101, [⟨2, Side.Sell, OrderType.GTC, 101, 3⟩])]⟩ Side.Buy) ++
        [{ (⟨9, Side.Buy, OrderType.GTC, 101, 10⟩ : Sim.Order) with
            rem := 10 - Sim.sumQty (Sim.Orderbook.add ⟨[], [(100,
              [⟨1, Side.Sell, OrderType.GTC, 100, 3⟩]),
              (101, [⟨2, Side.Sell, OrderType.GTC, 101, 3⟩])]⟩
              ⟨9, Side.Buy, OrderType.GTC, 101, 10⟩ 5).1 }]) := by
  constructor
  · exact price_time_priority.1 _ ⟨9, Side.Buy, OrderType.GTC, 101, 10⟩ 5
  · have h := price_time_priority.2.2 ⟨[], [(100,
      [⟨1, Side.Sell, OrderType.GTC, 100, 3⟩]),
      (101, [⟨2, Side.Sell, OrderType.GTC, 101, 3⟩])]⟩
      ⟨9, Side.Buy, OrderType.GTC, 101, 10⟩ 5 rfl (by simp)
      (by simp [List.chain'_cons])
    rcases h with h | h
    · exact absurd (congrArg (Sim.levelOrders 101) h) (by decide)
    · exact h

/-! ## Claim C4: ImmediateOrCancel orders and resting state -/

namespace Core

lemma nextSide_pos (px : Int) (x : Order) (l : List Order) (rest) (q)
    (h : ∀ pp ∈ (px, x :: l) :: rest, ∀ o ∈ pp.2, 0 < o.remaining) :
    ∀ pp ∈ nextSide px x l rest q, ∀ o ∈ pp.2, 0 < o.remaining := by
  intro pp hpp o ho
  rw [nextSide] at hpp
  split_ifs at hpp with h1 h2
  · exact h pp (by simp [hpp]) o ho
  · rcases List.mem_cons.mp hpp with rfl | hp2
    · exact h (px, x :: l) (by simp) o (by simp [ho])
    · exact h pp (by simp [hp2]) o ho
  · rcases List.mem_cons.mp hpp with rfl | hp2
    · rcases List.mem_cons.mp ho with rfl | ho2
      · simpa using Nat.pos_of_ne_zero h1
      · exact h (px, x :: l) (by simp) o (by simp [ho2])
    · exact h pp (by simp [hp2]) o ho

/-- The matcher pops an order exactly when it is filled, so a book whose
orders all have positive remaining quantity keeps that property. -/
lemma matchGo_pos (bids asks) :
    (∀ pp ∈ bids, ∀ o ∈ pp.2, 0 < o.remaining) →
    (∀ pp ∈ asks, ∀ o ∈ pp.2, 0 < o.remaining) →
      (∀ pp ∈ (matchGo bids asks).2.1, ∀ o ∈ pp.2, 0 < o.remaining) ∧
      (∀ pp ∈ (matchGo bids asks).2.2, ∀ o ∈ pp.2, 0 < o.remaining) := by
  induction bids, asks using matchGo_ind with
  | h1 asks => rw [matchGo_nil_left]; exact fun hb ha => ⟨hb, ha⟩
  | h2 bids => rw [matchGo_nil_right]; exact fun hb ha => ⟨hb, ha⟩
  | h3 bpx bq brest apx aq arest hlt =>
    rw [matchGo_stop _ _ _ _ _ _ hlt]
    exact fun hb ha => ⟨hb, ha⟩
  | h4 bpx brest apx arest bo bqr ao aqr hlt ih =>
    intro hb ha
    rw [matchGo_cons2 _ _ _ _ _ _ _ _ hlt]
    exact ih (nextSide_pos _ _ _ _ _ hb) (nextSide_pos _ _ _ _ _ ha)
  | h5 bpx brest apx aq arest hlt =>
    rw [matchGo.eq_def]
    simp only [if_neg hlt]
    exact fun hb ha => ⟨hb, ha⟩
  | h6 bpx bq brest apx arest hlt =>
    cases bq with
    | nil =>
      rw [matchGo.eq_def]
      simp only [if_neg hlt]
      exact fun hb ha => ⟨hb, ha⟩
    | cons bo bqr =>
      rw [matchGo.eq_def]
      simp only [if_neg hlt]
      exact fun hb ha => ⟨hb, ha⟩

lemma ite_cancel_not_mem (c : Prop) [Decidable c] (tr : List Trade)
    (b2 : Orderbook) (oid : Nat) (hWF2 : WF b2)
    (himp : oid ∈ b2.ids → c) :
    oid ∉ ((if c then (tr, b2.CancelOrder oid) else (tr, b2)).2).ids := by
  split_ifs with hc
  · by_cases hid : oid ∈ b2.ids
    · exact (CancelOrder_spec hWF2 hid).2.1
    · rw [CancelOrder_noop hid]
      exact hid
  · exact fun hid => hc (himp hid)

/-- On a well-formed book whose resting orders all have positive remaining
quantity, a FillAndKill order with positive quantity and a fresh id never
survives `AddOrder` in the index: if the matcher leaves a remainder it is
positive, so the trailing cancel fires and removes it. -/
lemma AddOrder_IOC_not_mem {b : Orderbook} {o : Order} (hWF : WF b)
    (hIOC : o.type = OrderType.IOC) (hqty : 0 < o.remaining)
    (hle : o.remaining ≤ o.initial) (hfresh : o.id ∉ b.ids)
    (hbpos : ∀ pp ∈ b.bids, ∀ x ∈ pp.2, 0 < x.remaining)
    (hapos : ∀ pp ∈ b.asks, ∀ x ∈ pp.2, 0 < x.remaining) :
    o.id ∉ (b.AddOrder o).2.ids := by
  obtain ⟨hbs, has, hbne, hane, hblab, halab, hnodup, hunc⟩ := hWF
  rw [Orderbook.AddOrder]
  simp only [if_neg hfresh]
  cases hside : o.side with
  | Buy =>
    simp only [hside]
    have hnd1 : (Orderbook.ids ⟨enqueueDesc o b.bids, b.asks⟩).Nodup := by
      have hperm : ((ordersOf (enqueueDesc o b.bids)).map Order.id).Perm
          (o.id :: (ordersOf b.bids).map Order.id) := by
        simpa using (enqueueDesc_perm o b.bids).map Order.id
      have hp2 := hperm.append_right ((ordersOf b.asks).map Order.id)
      refine (List.Perm.nodup_iff hp2).mpr ?_
      rw [List.cons_append]
      exact List.nodup_cons.mpr ⟨hfresh, hnodup⟩
    have hWF2 : WF (Orderbook.matchBook ⟨enqueueDesc o b.bids, b.asks⟩).2 :=
      matchBook_WF ⟨enqueueDesc o b.bids, b.asks⟩
        (enqueueDesc_sorted o b.bids hbs) has
        (enqueueDesc_NEOK o b.bids hbne) hane
        (enqueueDesc_pres
          (fun pr x => x.px = pr ∧ x.side = Side.Buy ∧ x.remaining ≤ x.initial)
          o b.bids ⟨rfl, hside, hle⟩ hblab) halab hnd1
    have hpos2 := matchGo_pos (enqueueDesc o b.bids) b.asks
      (enqueueDesc_pres (fun _ x => 0 < x.remaining) o b.bids hqty hbpos) hapos
    refine ite_cancel_not_mem _ _ _ _ hWF2 ?_
    intro hid
    obtain ⟨x, hfx⟩ := findOrder_mem_of_ids hid
    obtain ⟨hxid, hxmem⟩ := findOrder_some hfx
    have hxpos : 0 < x.remaining := by
      rcases hxmem with hxb | hxa
      · have hxb2 : x ∈ ordersOf (matchGo (enqueueDesc o b.bids) b.asks).2.1 :=
          hxb
        rcases (by simpa [ordersOf] using hxb2 :
            ∃ l, (∃ a, (a, l) ∈ (matchGo (enqueueDesc o b.bids) b.asks).2.1) ∧
              x ∈ l) with ⟨l, ⟨a, hal⟩, hxl⟩
        exact hpos2.1 (a, l) hal x hxl
      · have hxa2 : x ∈ ordersOf (matchGo (enqueueDesc o b.bids) b.asks).2.2 :=
          hxa
        rcases (by simpa [ordersOf] using hxa2 :
            ∃ l, (∃ a, (a, l) ∈ (matchGo (enqueueDesc o b.bids) b.asks).2.2) ∧
              x ∈ l) with ⟨l, ⟨a, hal⟩, hxl⟩
        exact hpos2.2 (a, l) hal x hxl
    rw [hfx]
    exact ⟨hIOC, hxpos⟩
  | Sell =>
    simp only [hside]
    have hnd1 : (Orderbook.ids ⟨b.bids, enqueueAsc o b.asks⟩).Nodup := by
      have hperm : ((ordersOf (enqueueAsc o b.asks)).map Order.id).Perm
          (o.id :: (ordersOf b.asks).map Order.id) := by
        simpa using (enqueueAsc_perm o b.asks).map Order.id
      have hp2 := hperm.append_left ((ordersOf b.bids).map Order.id)
      refine (List.Perm.nodup_iff hp2).mpr ?_
      refine (List.Perm.nodup_iff (List.perm_middle)).mpr ?_
      rw [Orderbook.ids] at hfresh hnodup
      exact List.nodup_cons.mpr ⟨hfresh, hnodup⟩
    have hWF2 : WF (Orderbook.matchBook ⟨b.bids, enqueueAsc o b.asks⟩).2 :=
      matchBook_WF ⟨b.bids, enqueueAsc o b.asks⟩
        hbs (enqueueAsc_sorted o b.asks has)
        hbne (enqueueAsc_NEOK o b.asks hane)
        hblab (enqueueAsc_pres
          (fun pr x => x.px = pr ∧ x.side = Side.Sell ∧ x.remaining ≤ x.initial)
          o b.asks ⟨rfl, hside, hle⟩ halab) hnd1
    have hpos2 := matchGo_pos b.bids (enqueueAsc o b.asks)
      hbpos (enqueueAsc_pres (fun _ x => 0 < x.remaining) o b.asks hqty hapos)
    refine ite_cancel_not_mem _ _ _ _ hWF2 ?_
    intro hid
    obtain ⟨x, hfx⟩ := findOrder_mem_of_ids hid
    obtain ⟨hxid, hxmem⟩ := findOrder_some hfx
    have hxpos : 0 < x.remaining := by
      rcases hxmem with hxb | hxa
      · have hxb2 : x ∈ ordersOf (matchGo b.bids (enqueueAsc o b.asks)).2.1 :=
          hxb
        rcases (by simpa [ordersOf] using hxb2 :
            ∃ l, (∃ a, (a, l) ∈ (matchGo b.bids (enqueueAsc o b.asks)).2.1) ∧
              x ∈ l) with ⟨l, ⟨a, hal⟩, hxl⟩
        exact hpos2.1 (a, l) hal x hxl
      · have hxa2 : x ∈ ordersOf (matchGo b.bids (enqueueAsc o b.asks)).2.2 :=
          hxa
        rcases (by simpa [ordersOf] using hxa2 :
            ∃ l, (∃ a, (a, l) ∈ (matchGo b.bids (enqueueAsc o b.asks)).2.2) ∧
              x ∈ l) with ⟨l, ⟨a, hal⟩, hxl⟩
        exact hpos2.2 (a, l) hal x hxl
    rw [hfx]
    exact ⟨hIOC, hxpos⟩

end Core

namespace Sim

/-- The ids of all resting orders of the interactive book. -/
def bookIds (b : Orderbook) : List Nat :=
  (ordersOf b.bids).map Order.id ++ (ordersOf b.asks).map Order.id

end Sim

/-- Counterexample to C4: in `orderBook_core.cpp`, a FillAndKill order with
quantity 0 does rest.  `AddOrder` inserts it into its price level, the
matcher finds nothing to do on the empty opposite side, and the trailing
cancel is guarded by `o->remaining > 0`, which fails at 0 — so the order is
never removed and stays in the book and the `lookup` index forever. -/
theorem ioc_never_rests_cex :
    (Core.Orderbook.AddOrder ⟨[], []⟩
        (Core.MakeOrder OrderType.IOC 1 Side.Buy 100 0)).2.ids = [1] := by
  simp [Core.Orderbook.AddOrder, Core.Orderbook.ids, Core.ordersOf,
    Core.MakeOrder, Core.enqueueDesc, Core.Orderbook.matchBook,
    Core.matchGo_nil_right, Core.Orderbook.findOrder]

/-- C4 (amended: the core part requires positive quantity — a quantity-0
FillAndKill order rests forever, see the counterexample).
(i) In `orderBook.cpp`, a non-matchable ImmediateOrCancel order returns
immediately with no trades and an unchanged book.
(ii) In `orderBook.cpp`, an ImmediateOrCancel order with a fresh id never
appears among the resting orders after `add`: its remainder is dropped, so
no later snapshot, count or top-N query can see it.
(iii) In `orderBook_core.cpp`, on a well-formed book whose resting orders
have positive remaining quantity, a FillAndKill order with positive quantity
and a fresh id is not in the `lookup` index after `AddOrder`. -/
theorem ioc_never_rests :
    (∀ (b : Sim.Orderbook) (o : Sim.Order) (now : Nat),
      o.type = OrderType.IOC → b.matchable o = false →
      b.add o now = ([], b)) ∧
    (∀ (b : Sim.Orderbook) (o : Sim.Order) (now : Nat),
      o.type = OrderType.IOC → o.id ∉ Sim.bookIds b →
      o.id ∉ Sim.bookIds (b.add o now).2) ∧
    (∀ (b : Core.Orderbook) (id : Nat) (s : Side) (px : Int) (qty : Nat),
      Core.WF b → 0 < qty → id ∉ b.ids →
      (∀ pp ∈ b.bids, ∀ x ∈ pp.2, 0 < x.remaining) →
      (∀ pp ∈ b.asks, ∀ x ∈ pp.2, 0 < x.remaining) →
      id ∉ (b.AddOrder (Core.MakeOrder OrderType.IOC id s px qty)).2.ids) := by
  refine ⟨?_, ?_, ?_⟩
  · intro b o now hIOC hnm
    rw [Sim.Orderbook.add, if_pos ⟨hIOC, hnm⟩]
  · intro b o now hIOC hfresh
    rw [Sim.Orderbook.add]
    split_ifs with h1
    · exact hfresh
    · cases hside : o.side with
      | Buy =>
        simp only [hside]
        split_ifs with h2
        · rw [hIOC] at h2
          exact absurd h2.2 (by decide)
        · intro hmem
          rw [Sim.bookIds] at hmem
          dsimp only at hmem
          rcases List.mem_append.mp hmem with hmb | hma
          · exact hfresh (List.mem_append.mpr (Or.inl hmb))
          · obtain ⟨d, hd⟩ := (Sim.crossBuy_take o.id o.px now o.rem b.asks).2
            rw [hd] at hma
            exact hfresh
              (List.mem_append.mpr (Or.inr (List.mem_of_mem_drop hma)))
      | Sell =>
        simp only [hside]
        split_ifs with h2
        · rw [hIOC] at h2
          exact absurd h2.2 (by decide)
        · intro hmem
          rw [Sim.bookIds] at hmem
          dsimp only at hmem
          rcases List.mem_append.mp hmem with hmb | hma
          · obtain ⟨d, hd⟩ := (Sim.crossSell_take o.id o.px now o.rem b.bids).2
            rw [hd] at hmb
            exact hfresh
              (List.mem_append.mpr (Or.inl (List.mem_of_mem_drop hmb)))
          · exact hfresh (List.mem_append.mpr (Or.inr hma))
  · intro b id s px qty hWF hq hfresh hbpos hapos
    exact Core.AddOrder_IOC_not_mem hWF rfl hq (le_refl _) hfresh hbpos hapos

/-- Witness for C4 at concrete inputs: a non-matchable IOC buy on the empty
interactive book is a pure no-op; its id rests nowhere; an IOC buy of
quantity 5 with fresh id 1 leaves no index entry in the core book. -/
theorem ioc_never_rests_witness :
    (Sim.Orderbook.add ⟨[], []⟩ ⟨7, Side.Buy, OrderType.IOC, 100, 5⟩ 3 =
      ([], ⟨[], []⟩)) ∧
    (7 ∉ Sim.bookIds
      (Sim.Orderbook.add ⟨[], []⟩ ⟨7, Side.Buy, OrderType.IOC, 100, 5⟩ 3).2) ∧
    (1 ∉ (Core.Orderbook.AddOrder ⟨[], []⟩
      (Core.MakeOrder OrderType.IOC 1 Side.Buy 100 5)).2.ids) := by
  refine ⟨?_, ?_, ?_⟩
  · exact ioc_never_rests.1 ⟨[], []⟩ ⟨7, Side.Buy, OrderType.IOC, 100, 5⟩ 3
      rfl (by decide)
  · exact ioc_never_rests.2.1 ⟨[], []⟩ ⟨7, Side.Buy, OrderType.IOC, 100, 5⟩ 3
      rfl (by simp [Sim.bookIds, Sim.ordersOf])
  · exact ioc_never_rests.2.2 ⟨[], []⟩ 1 Side.Buy 100 5 Core.WF_empty
      (by decide) (by simp [Core.Orderbook.ids, Core.ordersOf])
      (by simp) (by simp)

/-! ## Claim C10: agreement of the two matching engines -/

/-- Refinement map from a core order to an interactive-book order. -/
def coreToSim (o : Core.Order) : Sim.Order :=
  ⟨o.id, o.side, o.type, o.px, o.remaining⟩

/-- Refinement map on one side of the book (levels and FIFO order kept). -/
def mapLevels (ls : List (Int × List Core.Order)) :
    List (Int × List Sim.Order) :=
  ls.map (fun p => (p.1, p.2.map coreToSim))

/-- Refinement map on the whole book. -/
def toSim (b : Core.Orderbook) : Sim.Orderbook :=
  ⟨mapLevels b.bids, mapLevels b.asks⟩

/-- What C10 compares of a core trade: the two participants' order ids and
the matched quantity (the emitted price fields differ by design: the core
trade carries each participant's own limit price, the interactive book the
resting level's price). -/
def tkey (t : Core.Trade) : Nat × Nat × Nat :=
  (t.bid.orderId, t.ask.orderId, t.bid.qty)

/-- What C10 compares of an interactive-book trade event. -/
def skey (ev : Sim.TradeEvent) : Nat × Nat × Nat :=
  (ev.bidId, ev.askId, ev.qty)

@[simp] lemma coreToSim_id (o : Core.Order) : (coreToSim o).id = o.id := rfl

@[simp] lemma coreToSim_rem (o : Core.Order) :
    (coreToSim o).rem = o.remaining := rfl

@[simp] lemma coreToSim_px (o : Core.Order) : (coreToSim o).px = o.px := rfl

@[simp] lemma coreToSim_side (o : Core.Order) :
    (coreToSim o).side = o.side := rfl

@[simp] lemma mapLevels_nil : mapLevels [] = [] := rfl

@[simp] lemma mapLevels_cons (p : Int × List Core.Order) (rest) :
    mapLevels (p :: rest) = (p.1, p.2.map coreToSim) :: mapLevels rest := rfl

namespace Sim

lemma crossLevelBuy_zero (oid : Nat) (apx : Int) (now : Nat) (l : List Order) :
    crossLevelBuy oid apx now 0 l = ([], 0, l) := by
  cases l with
  | nil => rw [crossLevelBuy]
  | cons top rest =>
    rw [crossLevelBuy]
    simp

lemma crossBuy_zero (oid : Nat) (opx : Int) (now : Nat)
    (ls : List (Int × List Order)) :
    crossBuy oid opx now 0 ls = ([], 0, ls) := by
  cases ls with
  | nil => rw [crossBuy]
  | cons lv rest =>
    obtain ⟨apx, aq⟩ := lv
    rw [crossBuy]
    simp

lemma crossBuy_halt (oid : Nat) (opx : Int) (now : Nat) (orem : Nat)
    (apx : Int) (aq : List Order) (rest) (h : orem = 0 ∨ opx < apx) :
    crossBuy oid opx now orem ((apx, aq) :: rest) =
      ([], orem, (apx, aq) :: rest) := by
  rw [crossBuy, if_pos h]

lemma crossBuy_empty_level (oid : Nat) (opx : Int) (now : Nat) (orem : Nat)
    (apx : Int) (rest) (h0 : ¬ orem = 0) (hlt : ¬ opx < apx) :
    crossBuy oid opx now orem ((apx, []) :: rest) =
      crossBuy oid opx now orem rest := by
  rw [crossBuy, if_neg (not_or.mpr ⟨h0, hlt⟩)]
  simp [crossLevelBuy]

lemma crossBuy_step_survive (oid : Nat) (opx : Int) (now : Nat) (orem : Nat)
    (apx : Int) (top : Order) (aqr : List Order) (rest)
    (h0 : ¬ orem = 0) (hlt : ¬ opx < apx)
    (hs : ¬ top.rem - min orem top.rem = 0) :
    crossBuy oid opx now orem ((apx, top :: aqr) :: rest) =
      ([⟨oid, top.id, apx, min orem top.rem, now, Side.Buy⟩],
        orem - min orem top.rem,
        (apx, { top with rem := top.rem - min orem top.rem } :: aqr) :: rest) := by
  rw [crossBuy, if_neg (not_or.mpr ⟨h0, hlt⟩)]
  rw [crossLevelBuy]
  simp only [if_neg h0, if_neg hs]

lemma crossBuy_step_fill (oid : Nat) (opx : Int) (now : Nat) (orem : Nat)
    (apx : Int) (top : Order) (aqr : List Order) (rest)
    (h0 : ¬ orem = 0) (hlt : ¬ opx < apx)
    (hf : top.rem - min orem top.rem = 0)
    (hr : ¬ orem - min orem top.rem = 0) :
    crossBuy oid opx now orem ((apx, top :: aqr) :: rest) =
      (⟨oid, top.id, apx, min orem top.rem, now, Side.Buy⟩ ::
        (crossBuy oid opx now (orem - min orem top.rem)
          ((apx, aqr) :: rest)).1,
       (crossBuy oid opx now (orem - min orem top.rem)
          ((apx, aqr) :: rest)).2) := by
  rw [crossBuy, if_neg (not_or.mpr ⟨h0, hlt⟩)]
  rw [crossLevelBuy]
  simp only [if_neg h0, if_pos hf]
  rw [crossBuy, if_neg (not_or.mpr ⟨hr, hlt⟩)]
  cases hlv : (crossLevelBuy oid apx now (orem - min orem top.rem) aqr).2.2 with
  | nil => simp [hlv]
  | cons x xs => simp [hlv]

lemma crossBuy_step_done (oid : Nat) (opx : Int) (now : Nat) (orem : Nat)
    (apx : Int) (top : Order) (aqr : List Order) (rest)
    (h0 : ¬ orem = 0) (hlt : ¬ opx < apx)
    (hf : top.rem - min orem top.rem = 0)
    (hr : orem - min orem top.rem = 0) :
    crossBuy oid opx now orem ((apx, top :: aqr) :: rest) =
      ([⟨oid, top.id, apx, min orem top.rem, now, Side.Buy⟩], 0,
        if aqr.isEmpty then rest else (apx, aqr) :: rest) := by
  rw [crossBuy, if_neg (not_or.mpr ⟨h0, hlt⟩)]
  rw [crossLevelBuy]
  simp only [if_neg h0, if_pos hf]
  rw [hr, crossLevelBuy_zero]
  cases aqr with
  | nil => simp [crossBuy_zero]
  | cons x xs => simp

lemma enqueueDesc_top (o : Order) (ls : List (Int × List Order))
    (h : ∀ p ∈ ls.map Prod.fst, p < o.px) :
    enqueueDesc o ls = (o.px, [o]) :: ls := by
  cases ls with
  | nil => rfl
  | cons p rest =>
    obtain ⟨px, l⟩ := p
    rw [enqueueDesc, if_pos (h px (by simp))]

lemma enqueueAsc_top (o : Order) (ls : List (Int × List Order))
    (h : ∀ p ∈ ls.map Prod.fst, o.px < p) :
    enqueueAsc o ls = (o.px, [o]) :: ls := by
  cases ls with
  | nil => rfl
  | cons p rest =>
    obtain ⟨px, l⟩ := p
    rw [enqueueAsc, if_pos (h px (by simp))]

end Sim

namespace Core

lemma nextSide_single (px : Int) (x : Order) (rest) (q : Nat) :
    nextSide px x [] rest q =
      if x.remaining - q = 0 then rest
      else (px, [{ x with remaining := x.remaining - q }]) :: rest := by
  rw [nextSide]
  split_ifs <;> simp_all

lemma matchGo_stop_of_lt (B X : List (Int × List Order))
    (h : ∀ bp ∈ B.map Prod.fst, ∀ xp ∈ X.map Prod.fst, bp < xp) :
    matchGo B X = ([], B, X) := by
  apply matchGo_of_uncrossed
  cases B with
  | nil =>
    cases X with
    | nil => rfl
    | cons x X2 =>
      obtain ⟨xp, xl⟩ := x
      rfl
  | cons p B2 =>
    obtain ⟨bp, bl⟩ := p
    cases X with
    | nil => rfl
    | cons x X2 =>
      obtain ⟨xp, xl⟩ := x
      simpa [uncrossedB] using h bp (by simp) xp (by simp)

lemma enqueueDesc_front (o : Order) (ls : List (Int × List Order))
    (h : ∀ p ∈ ls.map Prod.fst, p < o.px) :
    enqueueDesc o ls = (o.px, [o]) :: ls := by
  cases ls with
  | nil => rfl
  | cons p rest =>
    obtain ⟨px, l⟩ := p
    rw [enqueueDesc, if_pos (h px (by simp))]

lemma enqueueAsc_front (o : Order) (ls : List (Int × List Order))
    (h : ∀ p ∈ ls.map Prod.fst, o.px < p) :
    enqueueAsc o ls = (o.px, [o]) :: ls := by
  cases ls with
  | nil => rfl
  | cons p rest =>
    obtain ⟨px, l⟩ := p
    rw [enqueueAsc, if_pos (h px (by simp))]

lemma removeFirstById_fresh_append (id : Nat) (l : List Order) (o : Order)
    (h : ∀ x ∈ l, x.id ≠ id) (ho : o.id = id) :
    removeFirstById id (l ++ [o]) = l := by
  induction l with
  | nil => simp [removeFirstById, ho]
  | cons y ys ih =>
    rw [List.cons_append, removeFirstById, if_neg (h y (by simp))]
    rw [ih (fun x hx => h x (by simp [hx]))]

lemma eraseInLevels_enqueueDesc (o : Order) (ls)
    (hfresh : ∀ x ∈ ordersOf ls, x.id ≠ o.id) (hne : NEOK ls) :
    eraseInLevels o.px o.id (enqueueDesc o ls) = ls := by
  induction ls with
  | nil =>
    rw [enqueueDesc, eraseInLevels, if_pos rfl]
    simp [removeFirstById]
  | cons p rest ih =>
    obtain ⟨px, l⟩ := p
    rw [enqueueDesc]
    split_ifs with h1 h2
    · rw [eraseInLevels, if_pos rfl]
      simp [removeFirstById]
    · subst h2
      rw [eraseInLevels, if_pos rfl]
      rw [removeFirstById_fresh_append o.id l o
        (fun x hx => hfresh x (by simp [ordersOf_cons, hx])) rfl]
      have hl : l ≠ [] := hne (o.px, l) (by simp)
      simp [List.isEmpty_iff, hl]
    · have hpx : ¬ px = o.px := fun he => h2 he
      rw [eraseInLevels, if_neg hpx]
      rw [ih (fun x hx => hfresh x (by simp [ordersOf_cons, hx]))
        (fun p hp => hne p (by simp [hp]))]

lemma eraseInLevels_enqueueAsc (o : Order) (ls)
    (hfresh : ∀ x ∈ ordersOf ls, x.id ≠ o.id) (hne : NEOK ls) :
    eraseInLevels o.px o.id (enqueueAsc o ls) = ls := by
  induction ls with
  | nil =>
    rw [enqueueAsc, eraseInLevels, if_pos rfl]
    simp [removeFirstById]
  | cons p rest ih =>
    obtain ⟨px, l⟩ := p
    rw [enqueueAsc]
    split_ifs with h1 h2
    · rw [eraseInLevels, if_pos rfl]
      simp [removeFirstById]
    · subst h2
      rw [eraseInLevels, if_pos rfl]
      rw [removeFirstById_fresh_append o.id l o
        (fun x hx => hfresh x (by simp [ordersOf_cons, hx])) rfl]
      have hl : l ≠ [] := hne (o.px, l) (by simp)
      simp [List.isEmpty_iff, hl]
    · have hpx : ¬ px = o.px := fun he => h2 he
      rw [eraseInLevels, if_neg hpx]
      rw [ih (fun x hx => hfresh x (by simp [ordersOf_cons, hx]))
        (fun p hp => hne p (by simp [hp]))]

lemma find_first_id_unique {L : List Order} {o : Order}
    (hmem : o ∈ L) (huniq : ∀ x ∈ L, x.id = o.id → x = o) :
    L.find? (fun x => x.id = o.id) = some o := by
  induction L with
  | nil => simp at hmem
  | cons y ys ih =>
    by_cases hy : y.id = o.id
    · rw [huniq y (by simp) hy]
      exact List.find?_cons_of_pos _ (by simp)
    · rw [List.find?_cons_of_neg _ (by simpa using hy)]
      refine ih ?_ (fun x hx => huniq x (by simp [hx]))
      rcases List.mem_cons.mp hmem with rfl | h
      · exact absurd rfl hy
      · exact h

end Core

lemma mapLevels_enqueueDesc (o : Core.Order) (ls) :
    mapLevels (Core.enqueueDesc o ls) =
      Sim.enqueueDesc (coreToSim o) (mapLevels ls) := by
  induction ls with
  | nil => rfl
  | cons p rest ih =>
    obtain ⟨px, l⟩ := p
    simp only [mapLevels_cons]
    rw [Core.enqueueDesc, Sim.enqueueDesc]
    simp only [coreToSim_px]
    split_ifs <;> simp [ih]

lemma mapLevels_enqueueAsc (o : Core.Order) (ls) :
    mapLevels (Core.enqueueAsc o ls) =
      Sim.enqueueAsc (coreToSim o) (mapLevels ls) := by
  induction ls with
  | nil => rfl
  | cons p rest ih =>
    obtain ⟨px, l⟩ := p
    simp only [mapLevels_cons]
    rw [Core.enqueueAsc, Sim.enqueueAsc]
    simp only [coreToSim_px]
    split_ifs <;> simp [ih]

/-- The incoming buy order as the core engine stores it after `MakeOrder`
and a partial fill. -/
def buyO (t : OrderType) (oid : Nat) (opx : Int) (ini rem : Nat) : Core.Order :=
  ⟨t, oid, Side.Buy, opx, ini, rem⟩

@[simp] lemma buyO_id (t : OrderType) (oid : Nat) (opx : Int) (ini rem : Nat) :
    (buyO t oid opx ini rem).id = oid := rfl

@[simp] lemma buyO_px (t : OrderType) (oid : Nat) (opx : Int) (ini rem : Nat) :
    (buyO t oid opx ini rem).px = opx := rfl

@[simp] lemma buyO_remaining (t : OrderType) (oid : Nat) (opx : Int)
    (ini rem : Nat) : (buyO t oid opx ini rem).remaining = rem := rfl

@[simp] lemma buyO_update (t : OrderType) (oid : Nat) (opx : Int)
    (ini rem x : Nat) :
    ({ buyO t oid opx ini rem with remaining := x } : Core.Order) =
      buyO t oid opx ini x := rfl

@[simp] lemma buyO_type (t : OrderType) (oid : Nat) (opx : Int)
    (ini rem : Nat) : (buyO t oid opx ini rem).type = t := rfl

@[simp] lemma buyO_side (t : OrderType) (oid : Nat) (opx : Int)
    (ini rem : Nat) : (buyO t oid opx ini rem).side = Side.Buy := rfl

@[simp] lemma buyO_initial (t : OrderType) (oid : Nat) (opx : Int)
    (ini rem : Nat) : (buyO t oid opx ini rem).initial = ini := rfl

@[simp] lemma buyO_eta (t : OrderType) (oid : Nat) (opx : Int)
    (ini rem : Nat) :
    (⟨t, oid, Side.Buy, opx, ini, rem⟩ : Core.Order) =
      buyO t oid opx ini rem := rfl

@[simp] lemma coreToSim_decr (o : Core.Order) (q : Nat) :
    coreToSim { o with remaining := o.remaining - q } =
      { coreToSim o with rem := o.remaining - q } := rfl

/-- Alignment of one buy-side crossing run: the core matcher started on the
book whose bid front is the freshly inserted incoming order computes the
same trades (ids and quantities), the same incoming remainder and the same
ask side as the interactive crossing loop. -/
def alignBuyP (oid : Nat) (opx : Int) (now : Nat) (t : OrderType) (ini : Nat)
    (B A : List (Int × List Core.Order)) (orem : Nat) : Prop :=
  (Core.matchGo ((opx, [buyO t oid opx ini orem]) :: B) A).1.map tkey =
      (Sim.crossBuy oid opx now orem (mapLevels A)).1.map skey ∧
  (Core.matchGo ((opx, [buyO t oid opx ini orem]) :: B) A).2.1 =
      (if (Sim.crossBuy oid opx now orem (mapLevels A)).2.1 = 0 then B
        else (opx, [buyO t oid opx ini
          ((Sim.crossBuy oid opx now orem (mapLevels A)).2.1)]) :: B) ∧
  mapLevels (Core.matchGo ((opx, [buyO t oid opx ini orem]) :: B) A).2.2 =
      (Sim.crossBuy oid opx now orem (mapLevels A)).2.2

lemma alignBuy (oid : Nat) (opx : Int) (now : Nat) (t : OrderType) (ini : Nat) :
    ∀ (A B : List (Int × List Core.Order)) (orem : Nat),
      0 < orem →
      (∀ p ∈ A, p.2 ≠ []) →
      (∀ p ∈ A, ∀ x ∈ p.2, 0 < x.remaining) →
      (∀ bp ∈ B.map Prod.fst, ∀ ap ∈ A.map Prod.fst, bp < ap) →
      alignBuyP oid opx now t ini B A orem := by
  intro A
  induction A with
  | nil =>
    intro B orem hpos hne hP hB
    rw [alignBuyP, Core.matchGo_nil_right]
    simp only [mapLevels_nil]
    rw [Sim.crossBuy]
    dsimp only
    rw [if_neg (Nat.pos_iff_ne_zero.mp hpos)]
    exact ⟨rfl, rfl, rfl⟩
  | cons lv rest ihA =>
    obtain ⟨apx, aq⟩ := lv
    intro B orem hpos hne hP hB
    have h0 : ¬ orem = 0 := Nat.pos_iff_ne_zero.mp hpos
    by_cases hlt : opx < apx
    · rw [alignBuyP, Core.matchGo_stop _ _ _ _ _ _ hlt]
      simp only [mapLevels_cons]
      rw [Sim.crossBuy_halt _ _ _ _ _ _ _ (Or.inr hlt)]
      dsimp only
      rw [if_neg h0]
      exact ⟨rfl, rfl, rfl⟩
    · have hBA : ∀ bp ∈ B.map Prod.fst, bp < apx :=
        fun bp hbp => hB bp hbp apx (by simp)
      have hBrest : ∀ bp ∈ B.map Prod.fst, ∀ ap ∈ rest.map Prod.fst, bp < ap :=
        fun bp hbp ap hap => hB bp hbp ap (by simp [hap])
      have hstopB : ∀ (aq2 : List Core.Order),
          Core.matchGo B ((apx, aq2) :: rest) = ([], B, (apx, aq2) :: rest) := by
        intro aq2
        refine Core.matchGo_stop_of_lt B _ (fun bp hbp xp hxp => ?_)
        simp only [List.map_cons] at hxp
        rcases List.mem_cons.mp hxp with rfl | hxp2
        · exact hBA bp hbp
        · exact hBrest bp hbp xp hxp2
      have hstopRest : Core.matchGo B rest = ([], B, rest) :=
        Core.matchGo_stop_of_lt B rest hBrest
      have hneR : ∀ p ∈ rest, p.2 ≠ [] := fun p hp => hne p (by simp [hp])
      have hPR : ∀ p ∈ rest, ∀ x ∈ p.2, 0 < x.remaining :=
        fun p hp => hP p (by simp [hp])
      have hPaq : ∀ x ∈ aq, 0 < x.remaining := hP (apx, aq) (by simp)
      have hneaq : aq ≠ [] := hne (apx, aq) (by simp)
      have key : ∀ (aq2 : List Core.Order), aq2 ≠ [] →
          (∀ x ∈ aq2, 0 < x.remaining) → ∀ orem2 : Nat, 0 < orem2 →
          alignBuyP oid opx now t ini B ((apx, aq2) :: rest) orem2 := by
        intro aq2
        induction aq2 with
        | nil =>
          intro hne2
          exact absurd rfl hne2
        | cons ao aqr ihq =>
          intro _ hQ orem2 hpos2
          have h02 : ¬ orem2 = 0 := Nat.pos_iff_ne_zero.mp hpos2
          have hao : 0 < ao.remaining := hQ ao (by simp)
          have hQr : ∀ x ∈ aqr, 0 < x.remaining :=
            fun x hx => hQ x (by simp [hx])
          rw [alignBuyP]
          rw [Core.matchGo_cons2 _ _ _ _ _ _ _ _ hlt]
          simp only [buyO_id, buyO_px, buyO_remaining, Core.nextSide_single,
            buyO_update, mapLevels_cons, List.map_cons]
          simp only [Core.nextSide]
          by_cases hs : ao.remaining - min orem2 ao.remaining = 0
          · rw [if_pos hs]
            by_cases hrr : orem2 - min orem2 ao.remaining = 0
            · rw [if_pos hrr]
              rw [Sim.crossBuy_step_done oid opx now orem2 apx (coreToSim ao)
                (List.map coreToSim aqr) (mapLevels rest) h02 hlt
                (by simpa using hs) (by simpa using hrr)]
              simp only [coreToSim_rem, coreToSim_id]
              cases aqr with
              | nil =>
                simp only [List.map_nil, List.isEmpty_nil, if_pos]
                rw [hstopRest]
                refine ⟨?_, ?_, ?_⟩ <;> simp [tkey, skey]
              | cons x xs =>
                simp only [List.map_cons, List.isEmpty_cons]
                rw [if_neg (show ¬ false = true by simp)]
                rw [hstopB]
                refine ⟨?_, ?_, ?_⟩ <;> simp [tkey, skey]
            · rw [if_neg hrr]
              rw [Sim.crossBuy_step_fill oid opx now orem2 apx (coreToSim ao)
                (List.map coreToSim aqr) (mapLevels rest) h02 hlt
                (by simpa using hs) (by simpa using hrr)]
              simp only [coreToSim_rem, coreToSim_id]
              cases aqr with
              | nil =>
                simp only [List.map_nil, List.isEmpty_nil, if_pos]
                rw [Sim.crossBuy_empty_level oid opx now
                  (orem2 - min orem2 ao.remaining) apx (mapLevels rest)
                  (by simpa using hrr) hlt]
                have T := ihA B (orem2 - min orem2 ao.remaining)
                  (by omega) hneR hPR hBrest
                rw [alignBuyP] at T
                obtain ⟨T1, T2, T3⟩ := T
                refine ⟨?_, ?_, ?_⟩ <;> simp [tkey, skey, T1, T2, T3]
              | cons x xs =>
                simp only [List.map_cons, List.isEmpty_cons]
                rw [if_neg (show ¬ false = true by simp)]
                have T := ihq (by simp) (fun y hy => hQr y hy)
                  (orem2 - min orem2 ao.remaining) (by omega)
                rw [alignBuyP] at T
                simp only [mapLevels_cons, List.map_cons] at T
                obtain ⟨T1, T2, T3⟩ := T
                refine ⟨?_, ?_, ?_⟩ <;> simp [tkey, skey, T1, T2, T3]
          · rw [if_neg hs]
            have h02s : orem2 - min orem2 ao.remaining = 0 := by omega
            rw [if_pos h02s]
            rw [Sim.crossBuy_step_survive oid opx now orem2 apx (coreToSim ao)
              (List.map coreToSim aqr) (mapLevels rest) h02 hlt
              (by simpa using hs)]
            simp only [coreToSim_rem, coreToSim_id]
            rw [hstopB]
            refine ⟨?_, ?_, ?_⟩ <;> simp [tkey, skey, h02s]
      exact key aq hneaq hPaq orem hpos

namespace Sim

lemma crossLevelSell_zero (oid : Nat) (bpx : Int) (now : Nat) (l : List Order) :
    crossLevelSell oid bpx now 0 l = ([], 0, l) := by
  cases l with
  | nil => rw [crossLevelSell]
  | cons top rest =>
    rw [crossLevelSell]
    simp

lemma crossSell_zero (oid : Nat) (opx : Int) (now : Nat)
    (ls : List (Int × List Order)) :
    crossSell oid opx now 0 ls = ([], 0, ls) := by
  cases ls with
  | nil => rw [crossSell]
  | cons lv rest =>
    obtain ⟨bpx, aq⟩ := lv
    rw [crossSell]
    simp

lemma crossSell_halt (oid : Nat) (opx : Int) (now : Nat) (orem : Nat)
    (bpx : Int) (aq : List Order) (rest) (h : orem = 0 ∨ bpx < opx) :
    crossSell oid opx now orem ((bpx, aq) :: rest) =
      ([], orem, (bpx, aq) :: rest) := by
  rw [crossSell, if_pos h]

lemma crossSell_empty_level (oid : Nat) (opx : Int) (now : Nat) (orem : Nat)
    (bpx : Int) (rest) (h0 : ¬ orem = 0) (hlt : ¬ bpx < opx) :
    crossSell oid opx now orem ((bpx, []) :: rest) =
      crossSell oid opx now orem rest := by
  rw [crossSell, if_neg (not_or.mpr ⟨h0, hlt⟩)]
  simp [crossLevelSell]

lemma crossSell_step_survive (oid : Nat) (opx : Int) (now : Nat) (orem : Nat)
    (bpx : Int) (top : Order) (aqr : List Order) (rest)
    (h0 : ¬ orem = 0) (hlt : ¬ bpx < opx)
    (hs : ¬ top.rem - min orem top.rem = 0) :
    crossSell oid opx now orem ((bpx, top :: aqr) :: rest) =
      ([⟨top.id, oid, bpx, min orem top.rem, now, Side.Sell⟩],
        orem - min orem top.rem,
        (bpx, { top with rem := top.rem - min orem top.rem } :: aqr) :: rest) := by
  rw [crossSell, if_neg (not_or.mpr ⟨h0, hlt⟩)]
  rw [crossLevelSell]
  simp only [if_neg h0, if_neg hs]

lemma crossSell_step_fill (oid : Nat) (opx : Int) (now : Nat) (orem : Nat)
    (bpx : Int) (top : Order) (aqr : List Order) (rest)
    (h0 : ¬ orem = 0) (hlt : ¬ bpx < opx)
    (hf : top.rem - min orem top.rem = 0)
    (hr : ¬ orem - min orem top.rem = 0) :
    crossSell oid opx now orem ((bpx, top :: aqr) :: rest) =
      (⟨top.id, oid, bpx, min orem top.rem, now, Side.Sell⟩ ::
        (crossSell oid opx now (orem - min orem top.rem)
          ((bpx, aqr) :: rest)).1,
       (crossSell oid opx now (orem - min orem top.rem)
          ((bpx, aqr) :: rest)).2) := by
  rw [crossSell, if_neg (not_or.mpr ⟨h0, hlt⟩)]
  rw [crossLevelSell]
  simp only [if_neg h0, if_pos hf]
  rw [crossSell, if_neg (not_or.mpr ⟨hr, hlt⟩)]
  cases hlv : (crossLevelSell oid bpx now (orem - min orem top.rem) aqr).2.2 with
  | nil => simp [hlv]
  | cons x xs => simp [hlv]

lemma crossSell_step_done (oid : Nat) (opx : Int) (now : Nat) (orem : Nat)
    (bpx : Int) (top : Order) (aqr : List Order) (rest)
    (h0 : ¬ orem = 0) (hlt : ¬ bpx < opx)
    (hf : top.rem - min orem top.rem = 0)
    (hr : orem - min orem top.rem = 0) :
    crossSell oid opx now orem ((bpx, top :: aqr) :: rest) =
      ([⟨top.id, oid, bpx, min orem top.rem, now, Side.Sell⟩], 0,
        if aqr.isEmpty then rest else (bpx, aqr) :: rest) := by
  rw [crossSell, if_neg (not_or.mpr ⟨h0, hlt⟩)]
  rw [crossLevelSell]
  simp only [if_neg h0, if_pos hf]
  rw [hr, crossLevelSell_zero]
  cases aqr with
  | nil => simp [crossSell_zero]
  | cons x xs => simp

end Sim

/-- The incoming sell order as the core engine stores it. -/
def sellO (t : OrderType) (oid : Nat) (opx : Int) (ini rem : Nat) : Core.Order :=
  ⟨t, oid, Side.Sell, opx, ini, rem⟩

@[simp] lemma sellO_id (t : OrderType) (oid : Nat) (opx : Int) (ini rem : Nat) :
    (sellO t oid opx ini rem).id = oid := rfl

@[simp] lemma sellO_px (t : OrderType) (oid : Nat) (opx : Int) (ini rem : Nat) :
    (sellO t oid opx ini rem).px = opx := rfl

@[simp] lemma sellO_remaining (t : OrderType) (oid : Nat) (opx : Int)
    (ini rem : Nat) : (sellO t oid opx ini rem).remaining = rem := rfl

@[simp] lemma sellO_type (t : OrderType) (oid : Nat) (opx : Int)
    (ini rem : Nat) : (sellO t oid opx ini rem).type = t := rfl

@[simp] lemma sellO_side (t : OrderType) (oid : Nat) (opx : Int)
    (ini rem : Nat) : (sellO t oid opx ini rem).side = Side.Sell := rfl

@[simp] lemma sellO_initial (t : OrderType) (oid : Nat) (opx : Int)
    (ini rem : Nat) : (sellO t oid opx ini rem).initial = ini := rfl

@[simp] lemma sellO_eta (t : OrderType) (oid : Nat) (opx : Int)
    (ini rem : Nat) :
    (⟨t, oid, Side.Sell, opx, ini, rem⟩ : Core.Order) =
      sellO t oid opx ini rem := rfl

/-- Sell-side alignment predicate: core matcher on the book whose ask front
is the freshly inserted incoming sell versus the interactive sell crossing
loop over the bid side. -/
def alignSellP (oid : Nat) (opx : Int) (now : Nat) (t : OrderType) (ini : Nat)
    (A B : List (Int × List Core.Order)) (orem : Nat) : Prop :=
  (Core.matchGo B ((opx, [sellO t oid opx ini orem]) :: A)).1.map tkey =
      (Sim.crossSell oid opx now orem (mapLevels B)).1.map skey ∧
  mapLevels (Core.matchGo B ((opx, [sellO t oid opx ini orem]) :: A)).2.1 =
      (Sim.crossSell oid opx now orem (mapLevels B)).2.2 ∧
  (Core.matchGo B ((opx, [sellO t oid opx ini orem]) :: A)).2.2 =
      (if (Sim.crossSell oid opx now orem (mapLevels B)).2.1 = 0 then A
        else (opx, [sellO t oid opx ini
          ((Sim.crossSell oid opx now orem (mapLevels B)).2.1)]) :: A)

lemma alignSell (oid : Nat) (opx : Int) (now : Nat) (t : OrderType) (ini : Nat) :
    ∀ (B A : List (Int × List Core.Order)) (orem : Nat),
      0 < orem →
      (∀ p ∈ B, p.2 ≠ []) →
      (∀ p ∈ B, ∀ x ∈ p.2, 0 < x.remaining) →
      (∀ bp ∈ B.map Prod.fst, ∀ ap ∈ A.map Prod.fst, bp < ap) →
      alignSellP oid opx now t ini A B orem := by
  intro B
  induction B with
  | nil =>
    intro A orem hpos hne hP hB
    rw [alignSellP, Core.matchGo_nil_left]
    simp only [mapLevels_nil]
    rw [Sim.crossSell]
    dsimp only
    rw [if_neg (Nat.pos_iff_ne_zero.mp hpos)]
    exact ⟨rfl, rfl, rfl⟩
  | cons lv rest ihB =>
    obtain ⟨bpx, bq⟩ := lv
    intro A orem hpos hne hP hB
    have h0 : ¬ orem = 0 := Nat.pos_iff_ne_zero.mp hpos
    by_cases hlt : bpx < opx
    · rw [alignSellP, Core.matchGo_stop _ _ _ _ _ _ hlt]
      simp only [mapLevels_cons]
      rw [Sim.crossSell_halt _ _ _ _ _ _ _ (Or.inr hlt)]
      dsimp only
      rw [if_neg h0]
      exact ⟨rfl, rfl, rfl⟩
    · have hBR : ∀ bp ∈ rest.map Prod.fst, ∀ ap ∈ A.map Prod.fst, bp < ap :=
        fun bp hbp ap hap => hB bp (by simp [hbp]) ap hap
      have hstopA : ∀ (bq2 : List Core.Order),
          Core.matchGo ((bpx, bq2) :: rest) A =
            ([], (bpx, bq2) :: rest, A) := by
        intro bq2
        refine Core.matchGo_stop_of_lt _ A (fun bp hbp xp hxp => ?_)
        simp only [List.map_cons] at hbp
        rcases List.mem_cons.mp hbp with rfl | hbp2
        · exact hB _ (by simp) xp hxp
        · exact hBR bp hbp2 xp hxp
      have hstopRest : Core.matchGo rest A = ([], rest, A) :=
        Core.matchGo_stop_of_lt rest A hBR
      have hneR : ∀ p ∈ rest, p.2 ≠ [] := fun p hp => hne p (by simp [hp])
      have hPR : ∀ p ∈ rest, ∀ x ∈ p.2, 0 < x.remaining :=
        fun p hp => hP p (by simp [hp])
      have hPbq : ∀ x ∈ bq, 0 < x.remaining := hP (bpx, bq) (by simp)
      have hnebq : bq ≠ [] := hne (bpx, bq) (by simp)
      have key : ∀ (bq2 : List Core.Order), bq2 ≠ [] →
          (∀ x ∈ bq2, 0 < x.remaining) → ∀ orem2 : Nat, 0 < orem2 →
          alignSellP oid opx now t ini A ((bpx, bq2) :: rest) orem2 := by
        intro bq2
        induction bq2 with
        | nil =>
          intro hne2
          exact absurd rfl hne2
        | cons top bqr ihq =>
          intro _ hQ orem2 hpos2
          have h02 : ¬ orem2 = 0 := Nat.pos_iff_ne_zero.mp hpos2
          have htop : 0 < top.remaining := hQ top (by simp)
          have hQr : ∀ x ∈ bqr, 0 < x.remaining :=
            fun x hx => hQ x (by simp [hx])
          rw [alignSellP]
          rw [Core.matchGo_cons2 _ _ _ _ _ _ _ _ hlt]
          simp only [sellO_id, sellO_px, sellO_remaining, Core.nextSide_single,
            mapLevels_cons, List.map_cons]
          simp only [Core.nextSide]
          rw [min_comm top.remaining orem2]
          by_cases hs : top.remaining - min orem2 top.remaining = 0
          · rw [if_pos hs]
            by_cases hrr : orem2 - min orem2 top.remaining = 0
            · rw [if_pos hrr]
              rw [Sim.crossSell_step_done oid opx now orem2 bpx (coreToSim top)
                (List.map coreToSim bqr) (mapLevels rest) h02 hlt
                (by simpa using hs) (by simpa using hrr)]
              simp only [coreToSim_rem, coreToSim_id]
              cases bqr with
              | nil =>
                simp only [List.map_nil, List.isEmpty_nil, if_pos]
                rw [hstopRest]
                refine ⟨?_, ?_, ?_⟩ <;> simp [tkey, skey]
              | cons x xs =>
                simp only [List.map_cons, List.isEmpty_cons]
                rw [if_neg (show ¬ false = true by simp)]
                rw [hstopA]
                refine ⟨?_, ?_, ?_⟩ <;> simp [tkey, skey]
            · rw [if_neg hrr]
              rw [Sim.crossSell_step_fill oid opx now orem2 bpx (coreToSim top)
                (List.map coreToSim bqr) (mapLevels rest) h02 hlt
                (by simpa using hs) (by simpa using hrr)]
              simp only [coreToSim_rem, coreToSim_id]
              cases bqr with
              | nil =>
                simp only [List.map_nil, List.isEmpty_nil, if_pos]
                rw [Sim.crossSell_empty_level oid opx now
                  (orem2 - min orem2 top.remaining) bpx (mapLevels rest)
                  (by simpa using hrr) hlt]
                have T := ihB A (orem2 - min orem2 top.remaining)
                  (by omega) hneR hPR hBR
                rw [alignSellP] at T
                obtain ⟨T1, T2, T3⟩ := T
                refine ⟨?_, ?_, ?_⟩ <;> simp [tkey, skey, T1, T2, T3]
              | cons x xs =>
                simp only [List.map_cons, List.isEmpty_cons]
                rw [if_neg (show ¬ false = true by simp)]
                have T := ihq (by simp) (fun y hy => hQr y hy)
                  (orem2 - min orem2 top.remaining) (by omega)
                rw [alignSellP] at T
                simp only [mapLevels_cons, List.map_cons] at T
                obtain ⟨T1, T2, T3⟩ := T
                refine ⟨?_, ?_, ?_⟩ <;> simp [tkey, skey, T1, T2, T3]
          · rw [if_neg hs]
            have h02s : orem2 - min orem2 top.remaining = 0 := by omega
            rw [if_pos h02s]
            rw [Sim.crossSell_step_survive oid opx now orem2 bpx (coreToSim top)
              (List.map coreToSim bqr) (mapLevels rest) h02 hlt
              (by simpa using hs)]
            simp only [coreToSim_rem, coreToSim_id]
            rw [hstopA]
            refine ⟨?_, ?_, ?_⟩ <;> simp [tkey, skey, h02s]
      exact key bq hnebq hPbq orem hpos

@[simp] lemma MakeOrder_buyO (t : OrderType) (oid : Nat) (px : Int)
    (qty : Nat) :
    Core.MakeOrder t oid Side.Buy px qty = buyO t oid px qty qty := rfl

@[simp] lemma MakeOrder_sellO (t : OrderType) (oid : Nat) (px : Int)
    (qty : Nat) :
    Core.MakeOrder t oid Side.Sell px qty = sellO t oid px qty qty := rfl

@[simp] lemma coreToSim_buyO (t : OrderType) (oid : Nat) (px : Int)
    (ini rem : Nat) :
    coreToSim (buyO t oid px ini rem) = ⟨oid, Side.Buy, t, px, rem⟩ := rfl

@[simp] lemma coreToSim_sellO (t : OrderType) (oid : Nat) (px : Int)
    (ini rem : Nat) :
    coreToSim (sellO t oid px ini rem) = ⟨oid, Side.Sell, t, px, rem⟩ := rfl

@[simp] lemma mapLevels_fst (ls : List (Int × List Core.Order)) :
    (mapLevels ls).map Prod.fst = ls.map Prod.fst := by
  induction ls with
  | nil => rfl
  | cons p rest ih => simp [ih]

lemma WF_allpairs {b : Core.Orderbook} (h : Core.WF b) :
    ∀ bp ∈ b.bids.map Prod.fst, ∀ ap ∈ b.asks.map Prod.fst, bp < ap := by
  obtain ⟨hbs, has, h3, h4, h5, h6, h7, hunc⟩ := h
  intro bp hbp ap hap
  cases hbb : b.bids with
  | nil => simp [hbb] at hbp
  | cons bl brest =>
    cases hba : b.asks with
    | nil => simp [hba] at hap
    | cons al arest =>
      obtain ⟨bp0, bq0⟩ := bl
      obtain ⟨ap0, aq0⟩ := al
      rw [hbb] at hbp hbs
      rw [hba] at hap has
      have h1 : bp ≤ bp0 := by
        simpa using Core.sorted_desc_le_head (by simpa using hbs) bp
          (by simpa using hbp)
      have h2 : ap0 ≤ ap := by
        simpa using Core.sorted_asc_ge_head (by simpa using has) ap
          (by simpa using hap)
      have h3 : bp0 < ap0 := by
        rw [hbb, hba] at hunc
        simpa [Core.uncrossedB] using hunc
      omega

lemma findOrder_front {opx : Int} {o : Core.Order} {q : List Core.Order}
    (bids asks : List (Int × List Core.Order)) {i : Nat} (hid : o.id = i) :
    Core.Orderbook.findOrder ⟨(opx, o :: q) :: bids, asks⟩ i = some o := by
  subst hid
  rw [Core.Orderbook.findOrder]
  dsimp only
  rw [Core.ordersOf_cons, List.cons_append,
    List.find?_cons_of_pos _ (by simp)]

lemma findOrder_enqueueDesc {bids asks : List (Int × List Core.Order)}
    {o : Core.Order} {i : Nat} (hid : o.id = i)
    (hfr : i ∉ (Core.ordersOf bids).map Core.Order.id) :
    Core.Orderbook.findOrder ⟨Core.enqueueDesc o bids, asks⟩ i = some o := by
  subst hid
  rw [Core.Orderbook.findOrder]
  dsimp only
  have hperm := Core.enqueueDesc_perm o bids
  have hmem : o ∈ Core.ordersOf (Core.enqueueDesc o bids) :=
    hperm.symm.subset (by simp)
  have hfind := Core.find_first_id_unique hmem (fun x hx hxi => ?uniq)
  rw [hfind]
  case uniq =>
    rcases List.mem_cons.mp (hperm.subset hx) with rfl | hx2
    · rfl
    · exact absurd (List.mem_map.mpr ⟨x, hx2, hxi⟩) hfr

lemma findOrder_enqueueAsc {bids asks : List (Int × List Core.Order)}
    {o : Core.Order} {i : Nat} (hid : o.id = i)
    (hfrb : i ∉ (Core.ordersOf bids).map Core.Order.id)
    (hfra : i ∉ (Core.ordersOf asks).map Core.Order.id) :
    Core.Orderbook.findOrder ⟨bids, Core.enqueueAsc o asks⟩ i = some o := by
  subst hid
  rw [Core.Orderbook.findOrder]
  dsimp only
  have hnone : (Core.ordersOf bids).find? (fun x => x.id = o.id) = none := by
    refine List.find?_eq_none.mpr (fun x hx => ?_)
    simp only [decide_eq_true_eq]
    intro hxe
    exact hfrb (List.mem_map.mpr ⟨x, hx, hxe⟩)
  rw [hnone]
  have hperm := Core.enqueueAsc_perm o asks
  have hmem : o ∈ Core.ordersOf (Core.enqueueAsc o asks) :=
    hperm.symm.subset (by simp)
  exact Core.find_first_id_unique hmem (fun x hx hxi => by
    rcases List.mem_cons.mp (hperm.subset hx) with rfl | hx2
    · rfl
    · exact absurd (List.mem_map.mpr ⟨x, hx2, hxi⟩) hfra)

lemma eraseInLevels_front_single (px : Int) (id : Nat) (o : Core.Order)
    (rest : List (Int × List Core.Order)) (ho : o.id = id) :
    Core.eraseInLevels px id ((px, [o]) :: rest) = rest := by
  rw [Core.eraseInLevels, if_pos rfl]
  simp [Core.removeFirstById, ho]

lemma agreeBuy (b : Core.Orderbook) (t : OrderType) (oid : Nat)
    (px : Int) (qty : Nat) (now : Nat)
    (hWF : Core.WF b) (hq : 0 < qty) (hfresh : oid ∉ b.ids)
    (hbpos : ∀ pp ∈ b.bids, ∀ x ∈ pp.2, 0 < x.remaining)
    (hapos : ∀ pp ∈ b.asks, ∀ x ∈ pp.2, 0 < x.remaining) :
    (b.AddOrder (buyO t oid px qty qty)).1.map tkey =
      (Sim.Orderbook.add (toSim b) ⟨oid, Side.Buy, t, px, qty⟩ now).1.map skey ∧
    toSim (b.AddOrder (buyO t oid px qty qty)).2 =
      (Sim.Orderbook.add (toSim b) ⟨oid, Side.Buy, t, px, qty⟩ now).2 := by
  have hap := WF_allpairs hWF
  obtain ⟨hbs, has, hbne, hane, hblab, halab, hnodup, hunc⟩ := hWF
  have hfrb : oid ∉ (Core.ordersOf b.bids).map Core.Order.id :=
    fun hm => hfresh (List.mem_append.mpr (Or.inl hm))
  have hfra : oid ∉ (Core.ordersOf b.asks).map Core.Order.id :=
    fun hm => hfresh (List.mem_append.mpr (Or.inr hm))
  rw [Core.Orderbook.AddOrder]
  rw [if_neg (show ¬ (buyO t oid px qty qty).id ∈ b.ids by simpa using hfresh)]
  simp only [buyO_side, buyO_type, buyO_id]
  simp only [Core.Orderbook.matchBook]
  cases hma : b.asks with
  | nil =>
    rw [Core.matchGo_nil_right]
    try dsimp only
    rw [findOrder_enqueueDesc (buyO_id t oid px qty qty) hfrb]
    simp only [buyO_remaining]
    have hmat : Sim.Orderbook.matchable (toSim b)
        ⟨oid, Side.Buy, t, px, qty⟩ = false := by
      simp [Sim.Orderbook.matchable, toSim, hma]
    cases t with
    | GTC =>
      rw [if_neg (by simp)]
      rw [Sim.Orderbook.add, if_neg (by simp)]
      try dsimp only
      simp only [toSim, hma, mapLevels_nil]
      try dsimp only
      rw [Sim.crossBuy]
      try dsimp only
      rw [if_pos (by simp [Nat.pos_iff_ne_zero.mp hq])]
      refine ⟨rfl, ?_⟩
      simp [toSim, mapLevels_enqueueDesc, hma]
    | IOC =>
      rw [if_pos ⟨rfl, hq⟩]
      rw [Core.Orderbook.CancelOrder]
      rw [findOrder_enqueueDesc (buyO_id OrderType.IOC oid px qty qty) hfrb]
      simp only [buyO_side]
      have herase := Core.eraseInLevels_enqueueDesc
        (buyO OrderType.IOC oid px qty qty) b.bids
        (fun x hx hxe => hfrb (List.mem_map.mpr ⟨x, hx, by simpa using hxe⟩))
        hbne
      simp only [buyO_px, buyO_id] at herase
      simp only [buyO_px]
      rw [herase]
      rw [Sim.Orderbook.add, if_pos ⟨rfl, hmat⟩]
      refine ⟨rfl, ?_⟩
      simp [toSim, hma]
  | cons al arest =>
    obtain ⟨apx0, aq0⟩ := al
    by_cases hcross : apx0 ≤ px
    · have hfront : Core.enqueueDesc (buyO t oid px qty qty) b.bids =
          (px, [buyO t oid px qty qty]) :: b.bids := by
        refine Core.enqueueDesc_front _ _ (fun p hp => ?_)
        have h1 := hap p hp apx0 (by rw [hma]; simp)
        simpa using lt_of_lt_of_le h1 hcross
      rw [hfront]
      have haneA : ∀ p ∈ (apx0, aq0) :: arest, p.2 ≠ [] := by
        rw [← hma]
        exact hane
      have haposA : ∀ p ∈ (apx0, aq0) :: arest, ∀ x ∈ p.2, 0 < x.remaining := by
        rw [← hma]
        exact hapos
      have hapA : ∀ bp ∈ b.bids.map Prod.fst,
          ∀ ap2 ∈ ((apx0, aq0) :: arest).map Prod.fst, bp < ap2 := by
        rw [← hma]
        exact hap
      have AL := alignBuy oid px now t qty ((apx0, aq0) :: arest) b.bids qty hq
        haneA haposA hapA
      rw [alignBuyP] at AL
      simp only [mapLevels_cons] at AL
      obtain ⟨A1, A2, A3⟩ := AL
      have hmat : Sim.Orderbook.matchable (toSim b)
          ⟨oid, Side.Buy, t, px, qty⟩ = true := by
        simp [Sim.Orderbook.matchable, toSim, hma, hcross]
      by_cases hr : (Sim.crossBuy oid px now qty
          ((apx0, aq0.map coreToSim) :: mapLevels arest)).2.1 = 0
      · rw [A2, if_pos hr]
        have hsfx := (Core.matchGo_sfx ((px, [buyO t oid px qty qty]) :: b.bids)
          ((apx0, aq0) :: arest)).2.2.2
        have hfo : Core.Orderbook.findOrder
            ⟨b.bids, (Core.matchGo ((px, [buyO t oid px qty qty]) :: b.bids)
              ((apx0, aq0) :: arest)).2.2⟩ oid = none := by
          apply Core.findOrder_eq_none
          intro hm
          rw [Core.Orderbook.ids] at hm
          try dsimp only at hm
          rcases List.mem_append.mp hm with h1 | h2
          · exact hfrb h1
          · refine hfra ?_
            rw [hma]
            exact hsfx.subset h2
        rw [hfo]
        rw [if_neg (by simp)]
        rw [Sim.Orderbook.add]
        rw [if_neg (by simp [hmat])]
        try dsimp only
        simp only [toSim, hma, mapLevels_cons]
        try dsimp only
        rw [if_neg (by simp [hr])]
        refine ⟨by simpa using A1, ?_⟩
        simp [toSim, A3]
      · rw [A2, if_neg hr]
        rw [findOrder_front _ _ (buyO_id t oid px qty _)]
        simp only [buyO_remaining]
        cases t with
        | GTC =>
          rw [if_neg (by simp)]
          rw [Sim.Orderbook.add]
          rw [if_neg (by simp [hmat])]
          try dsimp only
          simp only [toSim, hma, mapLevels_cons]
          try dsimp only
          rw [if_pos (by simp [hr])]
          have hef : Sim.enqueueDesc
              ⟨oid, Side.Buy, OrderType.GTC, px, (Sim.crossBuy oid px now qty
                ((apx0, aq0.map coreToSim) :: mapLevels arest)).2.1⟩
              (mapLevels b.bids) =
              (px, [⟨oid, Side.Buy, OrderType.GTC, px, (Sim.crossBuy oid px now
                qty ((apx0, aq0.map coreToSim) :: mapLevels arest)).2.1⟩]) ::
                mapLevels b.bids := by
            refine Sim.enqueueDesc_top _ _ (fun p hp => ?_)
            rw [mapLevels_fst] at hp
            have h1 := hap p hp apx0 (by rw [hma]; simp)
            simpa using lt_of_lt_of_le h1 hcross
          rw [hef]
          refine ⟨by simpa using A1, ?_⟩
          simp [toSim, A3]
        | IOC =>
          rw [if_pos ⟨rfl, Nat.pos_of_ne_zero hr⟩]
          rw [Core.Orderbook.CancelOrder]
          rw [findOrder_front _ _ (buyO_id OrderType.IOC oid px qty _)]
          simp only [buyO_side, buyO_px]
          try dsimp only
          rw [eraseInLevels_front_single px oid _ b.bids
            (buyO_id OrderType.IOC oid px qty _)]
          rw [Sim.Orderbook.add]
          rw [if_neg (by simp [hmat])]
          try dsimp only
          simp only [toSim, hma, mapLevels_cons]
          try dsimp only
          rw [if_neg (by simp)]
          refine ⟨by simpa using A1, ?_⟩
          simp [toSim, A3]
    · have hstop : Core.matchGo
          (Core.enqueueDesc (buyO t oid px qty qty) b.bids)
          ((apx0, aq0) :: arest) =
          ([], Core.enqueueDesc (buyO t oid px qty qty) b.bids,
            (apx0, aq0) :: arest) := by
        refine Core.matchGo_stop_of_lt _ _ (fun bp hbp ap hap2 => ?_)
        have hge : apx0 ≤ ap := by
          have has2 : List.Chain' (· < ·) (apx0 :: arest.map Prod.fst) := by
            have h9 := has
            rw [hma] at h9
            simpa using h9
          simpa using Core.sorted_asc_ge_head has2 ap (by simpa using hap2)
        rcases Core.enqueueDesc_prices_sub _ _ bp hbp with h1 | h2
        · simp only [buyO_px] at h1
          have h3 := not_le.mp hcross
          omega
        · have h3 := hap bp h2 apx0 (by rw [hma]; simp)
          omega
      rw [hstop]
      try dsimp only
      rw [findOrder_enqueueDesc (buyO_id t oid px qty qty) hfrb]
      simp only [buyO_remaining]
      have hmat : Sim.Orderbook.matchable (toSim b)
          ⟨oid, Side.Buy, t, px, qty⟩ = false := by
        simp [Sim.Orderbook.matchable, toSim, hma, hcross]
      cases t with
      | GTC =>
        rw [if_neg (by simp)]
        rw [Sim.Orderbook.add, if_neg (by simp)]
        try dsimp only
        simp only [toSim, hma, mapLevels_cons]
        try dsimp only
        rw [Sim.crossBuy_halt _ _ _ _ _ _ _ (Or.inr (not_le.mp hcross))]
        try dsimp only
        rw [if_pos (by simp [Nat.pos_iff_ne_zero.mp hq])]
        refine ⟨rfl, ?_⟩
        simp [toSim, mapLevels_enqueueDesc, hma]
      | IOC =>
        rw [if_pos ⟨rfl, hq⟩]
        rw [Core.Orderbook.CancelOrder]
        rw [findOrder_enqueueDesc (buyO_id OrderType.IOC oid px qty qty) hfrb]
        simp only [buyO_side]
        have herase := Core.eraseInLevels_enqueueDesc
          (buyO OrderType.IOC oid px qty qty) b.bids
          (fun x hx hxe => hfrb (List.mem_map.mpr ⟨x, hx, by simpa using hxe⟩))
          hbne
        simp only [buyO_px, buyO_id] at herase
        simp only [buyO_px]
        rw [herase]
        rw [Sim.Orderbook.add, if_pos ⟨rfl, hmat⟩]
        refine ⟨rfl, ?_⟩
        simp [toSim, hma]

lemma findOrder_asks_front {bids : List (Int × List Core.Order)} {opx : Int}
    {o : Core.Order} {q : List Core.Order}
    (asks : List (Int × List Core.Order)) {i : Nat} (hid : o.id = i)
    (hfr : i ∉ (Core.ordersOf bids).map Core.Order.id) :
    Core.Orderbook.findOrder ⟨bids, (opx, o :: q) :: asks⟩ i = some o := by
  rw [Core.Orderbook.findOrder]
  dsimp only
  have hnone : (Core.ordersOf bids).find? (fun x => x.id = i) = none := by
    refine List.find?_eq_none.mpr (fun x hx => ?_)
    simp only [decide_eq_true_eq]
    intro hxe
    exact hfr (List.mem_map.mpr ⟨x, hx, hxe⟩)
  rw [hnone, Core.ordersOf_cons, List.cons_append,
    List.find?_cons_of_pos _ (by simp [hid])]

lemma agreeSell (b : Core.Orderbook) (t : OrderType) (oid : Nat)
    (px : Int) (qty : Nat) (now : Nat)
    (hWF : Core.WF b) (hq : 0 < qty) (hfresh : oid ∉ b.ids)
    (hbpos : ∀ pp ∈ b.bids, ∀ x ∈ pp.2, 0 < x.remaining)
    (hapos : ∀ pp ∈ b.asks, ∀ x ∈ pp.2, 0 < x.remaining) :
    (b.AddOrder (sellO t oid px qty qty)).1.map tkey =
      (Sim.Orderbook.add (toSim b) ⟨oid, Side.Sell, t, px, qty⟩ now).1.map skey ∧
    toSim (b.AddOrder (sellO t oid px qty qty)).2 =
      (Sim.Orderbook.add (toSim b) ⟨oid, Side.Sell, t, px, qty⟩ now).2 := by
  have hap := WF_allpairs hWF
  obtain ⟨hbs, has, hbne, hane, hblab, halab, hnodup, hunc⟩ := hWF
  have hfrb : oid ∉ (Core.ordersOf b.bids).map Core.Order.id :=
    fun hm => hfresh (List.mem_append.mpr (Or.inl hm))
  have hfra : oid ∉ (Core.ordersOf b.asks).map Core.Order.id :=
    fun hm => hfresh (List.mem_append.mpr (Or.inr hm))
  rw [Core.Orderbook.AddOrder]
  rw [if_neg (show ¬ (sellO t oid px qty qty).id ∈ b.ids by simpa using hfresh)]
  simp only [sellO_side, sellO_type, sellO_id]
  simp only [Core.Orderbook.matchBook]
  cases hmb : b.bids with
  | nil =>
    rw [Core.matchGo_nil_left]
    try dsimp only
    rw [findOrder_enqueueAsc (sellO_id t oid px qty qty) (by simp) hfra]
    simp only [sellO_remaining]
    have hmat : Sim.Orderbook.matchable (toSim b)
        ⟨oid, Side.Sell, t, px, qty⟩ = false := by
      simp [Sim.Orderbook.matchable, toSim, hmb]
    cases t with
    | GTC =>
      rw [if_neg (by simp)]
      rw [Sim.Orderbook.add, if_neg (by simp)]
      try dsimp only
      simp only [toSim, hmb, mapLevels_nil]
      try dsimp only
      rw [Sim.crossSell]
      try dsimp only
      rw [if_pos (by simp [Nat.pos_iff_ne_zero.mp hq])]
      refine ⟨rfl, ?_⟩
      simp [toSim, mapLevels_enqueueAsc, hmb]
    | IOC =>
      rw [if_pos ⟨rfl, hq⟩]
      rw [Core.Orderbook.CancelOrder]
      rw [findOrder_enqueueAsc (sellO_id OrderType.IOC oid px qty qty)
        (by simp) hfra]
      simp only [sellO_side]
      have herase := Core.eraseInLevels_enqueueAsc
        (sellO OrderType.IOC oid px qty qty) b.asks
        (fun x hx hxe => hfra (List.mem_map.mpr ⟨x, hx, by simpa using hxe⟩))
        hane
      simp only [sellO_px, sellO_id] at herase
      simp only [sellO_px]
      rw [herase]
      rw [Sim.Orderbook.add, if_pos ⟨rfl, hmat⟩]
      refine ⟨rfl, ?_⟩
      simp [toSim, hmb]
  | cons bl brest =>
    obtain ⟨bpx0, bq0⟩ := bl
    by_cases hcross : px ≤ bpx0
    · have hfront : Core.enqueueAsc (sellO t oid px qty qty) b.asks =
          (px, [sellO t oid px qty qty]) :: b.asks := by
        refine Core.enqueueAsc_front _ _ (fun p hp => ?_)
        have h1 := hap bpx0 (by rw [hmb]; simp) p hp
        simpa using lt_of_le_of_lt hcross h1
      rw [hfront]
      have hneB : ∀ p ∈ (bpx0, bq0) :: brest, p.2 ≠ [] := by
        rw [← hmb]
        exact hbne
      have hposB : ∀ p ∈ (bpx0, bq0) :: brest, ∀ x ∈ p.2, 0 < x.remaining := by
        rw [← hmb]
        exact hbpos
      have hapB : ∀ bp ∈ ((bpx0, bq0) :: brest).map Prod.fst,
          ∀ ap2 ∈ b.asks.map Prod.fst, bp < ap2 := by
        rw [← hmb]
        exact hap
      have AL := alignSell oid px now t qty ((bpx0, bq0) :: brest) b.asks qty hq
        hneB hposB hapB
      rw [alignSellP] at AL
      simp only [mapLevels_cons] at AL
      obtain ⟨A1, A2, A3⟩ := AL
      have hmat : Sim.Orderbook.matchable (toSim b)
          ⟨oid, Side.Sell, t, px, qty⟩ = true := by
        simp [Sim.Orderbook.matchable, toSim, hmb, hcross]
      have hsfxB := (Core.matchGo_sfx ((bpx0, bq0) :: brest)
        ((px, [sellO t oid px qty qty]) :: b.asks)).2.2.1
      by_cases hr : (Sim.crossSell oid px now qty
          ((bpx0, bq0.map coreToSim) :: mapLevels brest)).2.1 = 0
      · rw [A3, if_pos hr]
        have hfo : Core.Orderbook.findOrder
            ⟨(Core.matchGo ((bpx0, bq0) :: brest)
              ((px, [sellO t oid px qty qty]) :: b.asks)).2.1, b.asks⟩ oid =
            none := by
          apply Core.findOrder_eq_none
          intro hm
          rw [Core.Orderbook.ids] at hm
          try dsimp only at hm
          rcases List.mem_append.mp hm with h1 | h2
          · refine hfrb ?_
            rw [hmb]
            exact hsfxB.subset h1
          · exact hfra h2
        rw [hfo]
        rw [if_neg (by simp)]
        rw [Sim.Orderbook.add]
        rw [if_neg (by simp [hmat])]
        try dsimp only
        simp only [toSim, hmb, mapLevels_cons]
        try dsimp only
        rw [if_neg (by simp [hr])]
        refine ⟨by simpa using A1, ?_⟩
        simp [toSim, A2]
      · rw [A3, if_neg hr]
        rw [findOrder_asks_front _ (sellO_id t oid px qty _)
          (fun hm => hfrb (by rw [hmb]; exact hsfxB.subset hm))]
        simp only [sellO_remaining]
        cases t with
        | GTC =>
          rw [if_neg (by simp)]
          rw [Sim.Orderbook.add]
          rw [if_neg (by simp [hmat])]
          try dsimp only
          simp only [toSim, hmb, mapLevels_cons]
          try dsimp only
          rw [if_pos (by simp [hr])]
          have hef : Sim.enqueueAsc
              ⟨oid, Side.Sell, OrderType.GTC, px, (Sim.crossSell oid px now qty
                ((bpx0, bq0.map coreToSim) :: mapLevels brest)).2.1⟩
              (mapLevels b.asks) =
              (px, [⟨oid, Side.Sell, OrderType.GTC, px, (Sim.crossSell oid px
                now qty ((bpx0, bq0.map coreToSim) :: mapLevels brest)).2.1⟩]) ::
                mapLevels b.asks := by
            refine Sim.enqueueAsc_top _ _ (fun p hp => ?_)
            rw [mapLevels_fst] at hp
            have h1 := hap bpx0 (by rw [hmb]; simp) p hp
            simpa using lt_of_le_of_lt hcross h1
          rw [hef]
          refine ⟨by simpa using A1, ?_⟩
          simp [toSim, A2]
        | IOC =>
          rw [if_pos ⟨rfl, Nat.pos_of_ne_zero hr⟩]
          rw [Core.Orderbook.CancelOrder]
          rw [findOrder_asks_front _ (sellO_id OrderType.IOC oid px qty _)
            (fun hm => hfrb (by rw [hmb]; exact hsfxB.subset hm))]
          simp only [sellO_side, sellO_px]
          try dsimp only
          rw [eraseInLevels_front_single px oid _ b.asks
            (sellO_id OrderType.IOC oid px qty _)]
          rw [Sim.Orderbook.add]
          rw [if_neg (by simp [hmat])]
          try dsimp only
          simp only [toSim, hmb, mapLevels_cons]
          try dsimp only
          rw [if_neg (by simp)]
          refine ⟨by simpa using A1, ?_⟩
          simp [toSim, A2]
    · have hstop : Core.matchGo ((bpx0, bq0) :: brest)
          (Core.enqueueAsc (sellO t oid px qty qty) b.asks) =
          ([], (bpx0, bq0) :: brest,
            Core.enqueueAsc (sellO t oid px qty qty) b.asks) := by
        refine Core.matchGo_stop_of_lt _ _ (fun bp hbp ap hap2 => ?_)
        have hle : bp ≤ bpx0 := by
          have hbs2 : List.Chain' (· > ·) (bpx0 :: brest.map Prod.fst) := by
            have h9 := hbs
            rw [hmb] at h9
            simpa using h9
          simpa using Core.sorted_desc_le_head hbs2 bp (by simpa using hbp)
        rcases Core.enqueueAsc_prices_sub _ _ ap hap2 with h1 | h2
        · simp only [sellO_px] at h1
          have h3 := not_le.mp hcross
          omega
        · have h3 := hap bpx0 (by rw [hmb]; simp) ap h2
          omega
      rw [hstop]
      try dsimp only
      rw [findOrder_enqueueAsc (sellO_id t oid px qty qty)
        (by rw [← hmb]; exact hfrb) hfra]
      simp only [sellO_remaining]
      have hmat : Sim.Orderbook.matchable (toSim b)
          ⟨oid, Side.Sell, t, px, qty⟩ = false := by
        simp [Sim.Orderbook.matchable, toSim, hmb, hcross]
      cases t with
      | GTC =>
        rw [if_neg (by simp)]
        rw [Sim.Orderbook.add, if_neg (by simp)]
        try dsimp only
        simp only [toSim, hmb, mapLevels_cons]
        try dsimp only
        rw [Sim.crossSell_halt _ _ _ _ _ _ _ (Or.inr (not_le.mp hcross))]
        try dsimp only
        rw [if_pos (by simp [Nat.pos_iff_ne_zero.mp hq])]
        refine ⟨rfl, ?_⟩
        simp [toSim, mapLevels_enqueueAsc, hmb]
      | IOC =>
        rw [if_pos ⟨rfl, hq⟩]
        rw [Core.Orderbook.CancelOrder]
        rw [findOrder_enqueueAsc (sellO_id OrderType.IOC oid px qty qty)
          (by rw [← hmb]; exact hfrb) hfra]
        simp only [sellO_side]
        have herase := Core.eraseInLevels_enqueueAsc
          (sellO OrderType.IOC oid px qty qty) b.asks
          (fun x hx hxe => hfra (List.mem_map.mpr ⟨x, hx, by simpa using hxe⟩))
          hane
        simp only [sellO_px, sellO_id] at herase
        simp only [sellO_px]
        rw [herase]
        rw [Sim.Orderbook.add, if_pos ⟨rfl, hmat⟩]
        refine ⟨rfl, ?_⟩
        simp [toSim, hmb]

/-- Counterexample to the literal C10 equivalence.  With a zero-quantity
incoming order the two matching algorithms disagree: submitting a
GoodTillCancel buy (id 2, px 100, qty 0) against a book resting one sell
(id 1, 100×5), the core engine enqueues the empty order at the front of the
crossing region and its matcher emits one quantity-0 trade pairing ids 2 and
1, while the interactive book's crossing loop exits immediately (its guard
checks `o.rem` first) and emits no trade at all. -/
theorem match_algorithms_agree_cex :
    (Core.Orderbook.AddOrder
        ⟨[], [(100, [⟨OrderType.GTC, 1, Side.Sell, 100, 5, 5⟩])]⟩
        (Core.MakeOrder OrderType.GTC 2 Side.Buy 100 0)).1.map tkey =
      [(2, 1, 0)] ∧
    (Sim.Orderbook.add
        (toSim ⟨[], [(100, [⟨OrderType.GTC, 1, Side.Sell, 100, 5, 5⟩])]⟩)
        (coreToSim (Core.MakeOrder OrderType.GTC 2 Side.Buy 100 0)) 7).1 =
      [] := by
  constructor
  · simp [Core.Orderbook.AddOrder, Core.Orderbook.matchBook,
      Core.Orderbook.ids, Core.ordersOf, Core.Orderbook.findOrder,
      Core.enqueueDesc, Core.matchGo, Core.Order.filled, tkey]
  · simp [Sim.Orderbook.add, toSim, Sim.Orderbook.matchable, Sim.crossBuy]

/-- C10 (amended: the incoming order must have positive quantity; at
quantity 0 the engines disagree, see the counterexample).  On a well-formed
core book whose resting orders all have positive remaining quantity, adding
a fresh-id order of positive quantity through `AddOrder` produces the same
trade sequence — the same (buy id, sell id, quantity) triples in the same
order — and a final book whose levels map exactly (same prices, same FIFO
queues, same ids and remainders) to the book produced by the interactive
engine's `add` for the corresponding order, for every side and time in
force: the insert-then-match-then-cancel algorithm of `orderBook_core.cpp`
and the match-then-rest algorithm of `orderBook.cpp` agree. -/
theorem match_algorithms_agree (b : Core.Orderbook) (t : OrderType)
    (oid : Nat) (s : Side) (px : Int) (qty : Nat) (now : Nat)
    (hWF : Core.WF b) (hq : 0 < qty) (hfresh : oid ∉ b.ids)
    (hbpos : ∀ pp ∈ b.bids, ∀ x ∈ pp.2, 0 < x.remaining)
    (hapos : ∀ pp ∈ b.asks, ∀ x ∈ pp.2, 0 < x.remaining) :
    (b.AddOrder (Core.MakeOrder t oid s px qty)).1.map tkey =
      (Sim.Orderbook.add (toSim b)
        (coreToSim (Core.MakeOrder t oid s px qty)) now).1.map skey ∧
    toSim (b.AddOrder (Core.MakeOrder t oid s px qty)).2 =
      (Sim.Orderbook.add (toSim b)
        (coreToSim (Core.MakeOrder t oid s px qty)) now).2 := by
  cases s with
  | Buy => simpa using agreeBuy b t oid px qty now hWF hq hfresh hbpos hapos
  | Sell => simpa using agreeSell b t oid px qty now hWF hq hfresh hbpos hapos

/-- Witness for C10 at a concrete input: a buy GTC 2 at 101×8 against a
well-formed book resting one sell 1 at 100×5 produces the same single trade
(ids 2 and 1, quantity 5) and the same final book in both engines. -/
theorem match_algorithms_agree_witness :
    (Core.Orderbook.AddOrder
        ⟨[], [(100, [⟨OrderType.GTC, 1, Side.Sell, 100, 5, 5⟩])]⟩
        (Core.MakeOrder OrderType.GTC 2 Side.Buy 101 8)).1.map tkey =
      (Sim.Orderbook.add
        (toSim ⟨[], [(100, [⟨OrderType.GTC, 1, Side.Sell, 100, 5, 5⟩])]⟩)
        (coreToSim (Core.MakeOrder OrderType.GTC 2 Side.Buy 101 8)) 3).1.map
        skey ∧
    toSim (Core.Orderbook.AddOrder
        ⟨[], [(100, [⟨OrderType.GTC, 1, Side.Sell, 100, 5, 5⟩])]⟩
        (Core.MakeOrder OrderType.GTC 2 Side.Buy 101 8)).2 =
      (Sim.Orderbook.add
        (toSim ⟨[], [(100, [⟨OrderType.GTC, 1, Side.Sell, 100, 5, 5⟩])]⟩)
        (coreToSim (Core.MakeOrder OrderType.GTC 2 Side.Buy 101 8)) 3).2 :=
  match_algorithms_agree
    ⟨[], [(100, [⟨OrderType.GTC, 1, Side.Sell, 100, 5, 5⟩])]⟩
    OrderType.GTC 2 Side.Buy 101 8 3
    (by simp [Core.WF, Core.NEOK, Core.Orderbook.ids, Core.ordersOf,
      Core.uncrossedB])
    (by decide)
    (by simp [Core.Orderbook.ids, Core.ordersOf])
    (by simp)
    (by simp)
